import Mathlib

/-!
Verification of the cxxfmt string-formatting library (src/fmt.h, src/fmt.cc).

Shallow embedding conventions:
* C++ `size_t` / `unsigned long long` values are `Nat`, reduced modulo 2^64
  only where C++ arithmetic wraps; `long long` is `Int` restricted to the
  64-bit range at the call boundary.
* C strings are `List Char` up to (and excluding) the NUL terminator; reading
  the terminator is modelled by `peek` returning `'\x00'` on the empty list.
* `std::string` is `String` (a wrapper around `List Char`).
* The two loops of the implementation whose termination is not structural
  (the template scan and the `next_this_index` chain walk) are embedded with
  an explicit fuel argument; the fuel bounds used by the top-level driver
  (input length, respectively `specs.size + 1`) are proved sufficient in the
  theorems below (claims C7 and C8).
* Exceptions thrown by value-rendering code are modelled by an oracle
  `exc : Nat -> Option String` giving, per spec slot, the diagnostic string
  `diagnose_current_exception` would produce (`none` = no exception): this
  mirrors the per-substitution `try/catch` blocks in `formatter::format_sub`.
* `std::ostream` output of a `double` (`os << uval`) is standard-library
  behaviour, external to this repository; `ostream_put_double` below models
  it (correctly rounded decimal conversion of the IEEE-754 bit pattern).
-/

namespace Cxxfmt

/-- 2^64, the modulus of `size_t` / `unsigned long long` arithmetic. -/
def U64 : Nat := 18446744073709551616

/-- `format_spec::i_invalid = (size_t)-1`: this spec is invalid. -/
def i_invalid : Nat := U64 - 1

/-- `format_spec::i_errno = (size_t)-2`: this spec applies to strerror(errno). -/
def i_errno : Nat := U64 - 2

/-- `fmt::format_spec` (fmt.h lines 44-75), with the constructor defaults. -/
structure format_spec where
  arg_index : Nat := i_invalid
  next_this_index : Nat := i_invalid
  target : Nat := i_invalid
  width : Nat := 0
  precision : Nat := 0
  type : Char := '\x00'
  align : Char := '\x00'
  fill : Char := ' '
  sign : Char := '-'
  has_width : Bool := false
  has_precision : Bool := false
  alternate_form : Bool := false
deriving Repr, DecidableEq

/-- The default-constructed `format_spec` (also the result of `reset()`). -/
def fs0 : format_spec := {}

/-- `BEGIN_ERRMSG`: VT-220 reverse video on (fmt.cc line 126). -/
def errB : String := "\x1b[7m"

/-- `END_ERRMSG`: VT-220 reverse video off (fmt.cc line 127). -/
def errE : String := "\x1b[27m"

/-- Reading `*p` from a C string suffix: the terminator reads as NUL. -/
def peek (l : List Char) : Char := l.headD '\x00'

/-- ASCII decimal digit test, as the source's `*p >= '0' && *p <= '9'`. -/
def isDig (c : Char) : Bool := '0' ≤ c && c ≤ '9'

/-- Numeric value of a list of decimal digits (most significant first). -/
def digitsVal (l : List Char) : Nat :=
  l.foldl (fun a c => a * 10 + (c.toNat - '0'.toNat)) 0

/-- `strtoul(p, &endp, 10)` on a suffix starting with a digit: the value
(clamped to `ULONG_MAX` on overflow, per the C standard) and the number of
characters consumed. -/
def readNum (l : List Char) : Nat × Nat :=
  let ds := l.takeWhile isDig
  (min (digitsVal ds) (U64 - 1), ds.length)

/-- The error-recovery loop at the bottom of `parse_subst` (fmt.cc lines
371-386): scan forward tracking brace depth until the matching close brace
for this placeholder or the end of the string; returns the number of
characters consumed. -/
def errScan : List Char → Nat → Nat
  | [], _ => 0
  | c :: r, depth =>
    if c = '{' then 1 + errScan r (depth + 1)
    else if c = '}' then (if depth = 1 then 1 else 1 + errScan r (depth - 1))
    else 1 + errScan r depth

/-- Result of `parse_subst`: the populated (or reset) spec and the number of
characters consumed, starting one past the opening `{`.  `src` is a ghost
field recording how the argument index was written in the template
(`none` = omitted, `some none` = `m`, `some (some v)` = explicit digits with
`strtoul` value `v`); it has no counterpart in the C++ state and is used
only to state properties about default-index assignment. -/
structure PSResult where
  spec : format_spec
  consumed : Nat
  src : Option (Option Nat)
deriving Repr, DecidableEq

/-- Error return of `parse_subst`: `spec.reset()` then the depth-tracking
forward scan from the current position. -/
def psErr (src : Option (Option Nat)) (rest : List Char) (consumed : Nat) :
    PSResult :=
  { spec := fs0, consumed := consumed + errScan rest 1, src := src }

/-- Alignment option characters `< > = ^`. -/
def isAlign (c : Char) : Bool := c = '<' || c = '>' || c = '=' || c = '^'

/-- Presentation type characters accepted by the grammar. -/
def isType (c : Char) : Bool :=
  c = 's' || c = 'c' || c = 'd' || c = 'o' || c = 'x' || c = 'X' ||
  c = 'e' || c = 'E' || c = 'f' || c = 'F' || c = 'g' || c = 'G'

/-- Intermediate state while parsing the body of a spec: the spec built so
far, the unconsumed suffix, and the count of consumed characters. -/
structure PSt where
  sp : format_spec
  rest : List Char
  con : Nat
deriving Repr, DecidableEq

/-- The `[ [ fill ] align ]` block of `parse_subst` (fmt.cc lines 306-316),
entered with at least two characters available. -/
def psFillAlign (t : PSt) : PSt :=
  let p0 := peek t.rest
  let p1 := peek (t.rest.drop 1)
  if isAlign p1 then
    { sp := { t.sp with align := p1, fill := p0 },
      rest := t.rest.drop 2, con := t.con + 2 }
  else if isAlign p0 then
    { sp := { t.sp with align := p0, fill := ' ' },
      rest := t.rest.drop 1, con := t.con + 1 }
  else t

/-- The `[ sign ]` block (fmt.cc lines 320-323). -/
def psSign (t : PSt) : PSt :=
  if peek t.rest = '+' ∨ peek t.rest = '-' ∨ peek t.rest = ' ' then
    { sp := { t.sp with sign := peek t.rest },
      rest := t.rest.drop 1, con := t.con + 1 }
  else t

/-- The `[ '#' ]` block (fmt.cc lines 324-327). -/
def psAlt (t : PSt) : PSt :=
  if peek t.rest = '#' then
    { sp := { t.sp with alternate_form := true },
      rest := t.rest.drop 1, con := t.con + 1 }
  else t

/-- The `[ '0' ]` block (fmt.cc lines 328-339), applied only after the
clash with an explicit alignment has been ruled out. -/
def psZero (t : PSt) : PSt :=
  if peek t.rest = '0' then
    { sp := { t.sp with align := '=', fill := '0' },
      rest := t.rest.drop 1, con := t.con + 1 }
  else t

/-- The `[ width ]` block (fmt.cc lines 341-346). -/
def psWidth (t : PSt) : PSt :=
  if isDig (peek t.rest) then
    { sp := { t.sp with has_width := true,
                        width := (readNum t.rest).1 % 4294967296 },
      rest := t.rest.drop (readNum t.rest).2,
      con := t.con + (readNum t.rest).2 }
  else t

/-- The `[ '.' precision ]` block (fmt.cc lines 348-354), applied only when
a digit follows the `'.'`. -/
def psPrec (t : PSt) : PSt :=
  if peek t.rest = '.' then
    { sp := { t.sp with has_precision := true,
                        precision := (readNum (t.rest.drop 1)).1 % 4294967296 },
      rest := (t.rest.drop 1).drop (readNum (t.rest.drop 1)).2,
      con := t.con + 1 + (readNum (t.rest.drop 1)).2 }
  else t

/-- The `[ type ]` block (fmt.cc lines 356-362). -/
def psType (t : PSt) : PSt :=
  if isType (peek t.rest) then
    { sp := { t.sp with type := peek t.rest },
      rest := t.rest.drop 1, con := t.con + 1 }
  else t

/-- The modifier/width/precision/type tail of `parse_subst`, entered just
past the `':'` with at least two characters available: runs the blocks in
their fixed order, with the two inline grammar checks (`'0'` clashing with
an explicit alignment, and a `'.'` not followed by a digit).  `t0` carries
the fresh spec (holding the argument index), the suffix just past the
`':'`, and the count of characters consumed so far. -/
def parse_body (src : Option (Option Nat)) (t0 : PSt) : PSResult :=
  let t5 := psAlt (psSign (psFillAlign t0))
  -- '0' combined with an explicit alignment modifier is an error
  if peek t5.rest = '0' ∧ t5.sp.align ≠ '\x00' then psErr src t5.rest t5.con
  else
  let t7 := psWidth (psZero t5)
  if peek t7.rest = '.' ∧ ¬ isDig (peek (t7.rest.drop 1)) then
    psErr src (t7.rest.drop 1) (t7.con + 1)   -- no number present after '.'
  else
  let t9 := psType (psPrec t7)
  if peek t9.rest = '}' then
    { spec := t9.sp, consumed := t9.con + 1, src := src }
  else psErr src t9.rest t9.con

/-- `parse_subst` (fmt.cc lines 260-387): parse one substitution, called
with the suffix one past the initial `{` and the scanner's current default
argument index.  Mirrors the source statement by statement; every `goto
error` becomes `psErr` from the position the source holds at that point. -/
def parse_subst (l : List Char) (default_index : Nat) : PSResult :=
  -- index | 'm'
  let idxStep : Option (Option Nat) × Nat × List Char × Nat :=
    if isDig (peek l) then
      (some (some (readNum l).1), (readNum l).1, l.drop (readNum l).2,
       (readNum l).2)
    else if peek l = 'm' then
      (some none, i_errno, l.drop 1, 1)
    else
      (none, default_index, l, 0)
  let src := idxStep.1
  let argi := idxStep.2.1
  let l1 := idxStep.2.2.1
  let c1 := idxStep.2.2.2
  if peek l1 = '}' then
    { spec := { fs0 with arg_index := argi }, consumed := c1 + 1, src := src }
  else if peek l1 ≠ ':' then psErr src l1 c1
  else
  let l2 := l1.drop 1
  let c2 := c1 + 1
  if peek l2 = '{' ∨ l2 = [] then psErr src l2 c2
  else if peek l2 = '}' then
    { spec := { fs0 with arg_index := argi }, consumed := c2 + 1, src := src }
  else if l2.length = 1 then psErr src l2 c2   -- p[1] == '\0'
  else parse_body src
    { sp := { fs0 with arg_index := argi }, rest := l2, con := c2 }

/-- Ghost record of one placeholder processed by the scanner: how its index
was written (`parse_subst`'s ghost `src`) and the resulting `arg_index`
(`i_invalid` for an ill-formed placeholder). -/
structure TraceEnt where
  src : Option (Option Nat)
  idx : Nat
deriving Repr, DecidableEq

/-- State of `formatter::parse_format_string`'s scan loop (fmt.cc lines
396-453): the completed segments, the pending literal run `cseg`, the spec
array (resized to `nargs` up front), the overflow list `extras` of further
specs sharing an already-used argument index, the auto-increment default
index, and `first_errno_spec`.  `trace` is a ghost list of `TraceEnt`, one
per placeholder in scan order. -/
structure ScanState where
  nargs : Nat
  segs : Array String
  cseg : String
  specs : Array format_spec
  extras : List format_spec
  default_index : Nat
  fe : format_spec
  trace : List TraceEnt
deriving Repr, DecidableEq

/-- `BEGIN_ERRMSG "[missing]" END_ERRMSG` (fmt.cc line 421). -/
def missingMsg : String := errB ++ "[missing]" ++ errE

/-- One iteration of the scan loop of `parse_format_string`, at a non-empty
remainder `c :: rest`: returns the updated state and the number of
characters consumed (always at least 1). -/
def scanStep (st : ScanState) (c : Char) (rest : List Char) :
    ScanState × Nat :=
  if c = '{' then
    if peek rest = '{' then
      ({ st with cseg := st.cseg.push '{' }, 2)
    else
      let r := parse_subst rest st.default_index
      let sp := r.spec
      let st1 :=
        if sp.arg_index = i_invalid then
          { st with cseg := st.cseg ++ errB ++
              String.mk (('{' :: rest).take (1 + r.consumed)) ++ errE }
        else if sp.arg_index ≥ st.specs.size ∧ sp.arg_index ≠ i_errno then
          -- conversion of an actual argument that isn't there
          { st with cseg := st.cseg ++ missingMsg }
        else
          let segs' := (st.segs.push st.cseg).push ""
          let sp' := { sp with target := segs'.size - 1 }
          if sp.arg_index = i_errno then
            if st.fe.arg_index = i_invalid then
              { st with segs := segs', cseg := "", fe := sp' }
            else
              { st with segs := segs', cseg := "", extras := st.extras ++ [sp'] }
          else if (st.specs.getD sp.arg_index fs0).arg_index = i_invalid then
            { st with segs := segs', cseg := "",
                      specs := st.specs.setD sp.arg_index sp' }
          else
            { st with segs := segs', cseg := "", extras := st.extras ++ [sp'] }
      ({ st1 with
          trace := st1.trace ++ [⟨r.src, sp.arg_index⟩],
          default_index :=
            if sp.arg_index = st.default_index then st.default_index + 1
            else st.default_index },
       1 + r.consumed)
  else if c = '}' then
    if peek rest = '}' then
      ({ st with cseg := st.cseg.push '}' }, 2)
    else
      ({ st with cseg := st.cseg ++ errB ++ "\x7d" ++ errE }, 1)
  else
    ({ st with cseg := st.cseg.push c }, 1)

/-- The scan loop of `parse_format_string`, with explicit fuel.  Since every
iteration consumes at least one character (claim C8), fuel `l.length` makes
this compute exactly the loop of the source. -/
def scan : Nat → ScanState → List Char → ScanState
  | _, st, [] => st
  | 0, st, _ :: _ => st
  | fuel + 1, st, c :: rest =>
    let r := scanStep st c rest
    scan fuel r.1 ((c :: rest).drop r.2)

/-- Walk `next_this_index` links from slot `j` to the end of the chain
(the `while (other->next_this_index != i_invalid)` loop, fmt.cc lines
467-468), with explicit fuel; under the chain invariant of claim C7 the
fuel `sp.size` used below is sufficient. -/
def walkEnd (sp : Array format_spec) : Nat → Nat → Nat
  | 0, j => j
  | fuel + 1, j =>
    let nxt := (sp.getD j fs0).next_this_index
    if nxt = i_invalid then j else walkEnd sp fuel nxt

/-- Append one overflow spec to the array and link it at the end of its
argument index's chain (body of the `extras` loop, fmt.cc lines 460-470). -/
def linkExtra (acc : Array format_spec × format_spec) (e : format_spec) :
    Array format_spec × format_spec :=
  let sp := acc.1.push e
  let fe := acc.2
  let sind := sp.size - 1
  if e.arg_index = i_errno then
    if fe.next_this_index = i_invalid then
      (sp, { fe with next_this_index := sind })
    else
      let en := walkEnd sp sp.size fe.next_this_index
      (sp.modify en (fun s => { s with next_this_index := sind }), fe)
  else
    if (sp.getD e.arg_index fs0).next_this_index = i_invalid then
      (sp.setD e.arg_index
        { sp.getD e.arg_index fs0 with next_this_index := sind }, fe)
    else
      let en := walkEnd sp sp.size (sp.getD e.arg_index fs0).next_this_index
      (sp.modify en (fun s => { s with next_this_index := sind }), fe)

/-- State of one `formatter` object after parsing (fmt.h lines 77-82),
plus two ghost fields: the scanner's placeholder trace and the log `wlog`
of segment indices written during rendering. -/
structure FmtState where
  nargs : Nat
  segs : Array String
  specs : Array format_spec
  fe : format_spec
  trace : List TraceEnt
  wlog : List Nat
deriving Repr, DecidableEq

/-- `formatter::parse_format_string` (fmt.cc lines 395-472): resize `specs`
to `nargs`, scan the whole template, append the final literal run, then
append and link the `extras`. -/
def parse_format_string (nargs : Nat) (l : List Char) : FmtState :=
  let st0 : ScanState :=
    { nargs := nargs, segs := #[], cseg := "",
      specs := Array.mkArray nargs fs0, extras := [],
      default_index := 0, fe := fs0, trace := [] }
  let st := scan l.length st0 l
  let segs := st.segs.push st.cseg
  let sf := st.extras.foldl linkExtra (st.specs, st.fe)
  { nargs := nargs, segs := segs, specs := sf.1, fe := sf.2,
    trace := st.trace, wlog := [] }

/-! ### Rendering leaves -/

/-- Base-`b` digits of `n`, most significant first, lowercase letters for
values 10-15 (models `std::ostream` integer insertion under the `basefield`
flags, which the source selects per type code).  Structural fuel; any fuel
with `n < b ^ fuel` gives the same result (proved below), and the wrapper
`natStr` passes `n + 1`. -/
def natDigitsAux (b : Nat) : Nat → Nat → List Char
  | 0, _ => []
  | fuel + 1, n =>
    if n < b then [Nat.digitChar n]
    else natDigitsAux b fuel (n / b) ++ [Nat.digitChar (n % b)]

/-- `std::ostream` rendering of an unsigned integer in base `b`. -/
def natStr (b n : Nat) : List Char := natDigitsAux b (n + 1) n

/-- `String.mk` of `n` copies of `c`: C++ `string(n, c)` /
`out.append(n, c)`. -/
def repChar (n : Nat) (c : Char) : String := String.mk (List.replicate n c)

/-- IEEE-754 binary64 sign bit of a bit pattern. -/
def dblSignBit (bits : Nat) : Bool := bits / 9223372036854775808 % 2 = 1

/-- IEEE-754 binary64 exponent field. -/
def dblExpField (bits : Nat) : Nat := bits / 4503599627370496 % 2048

/-- IEEE-754 binary64 mantissa field. -/
def dblManField (bits : Nat) : Nat := bits % 4503599627370496

/-- Whether the bit pattern is a NaN. -/
def dblIsNaN (bits : Nat) : Bool := dblExpField bits = 2047 && dblManField bits ≠ 0

/-- Whether the bit pattern is an infinity. -/
def dblIsInf (bits : Nat) : Bool := dblExpField bits = 2047 && dblManField bits = 0

/-- `val < 0` on a `double` given by bit pattern: negative sign, not a NaN,
and not negative zero. -/
def dblLt0 (bits : Nat) : Bool :=
  dblSignBit bits && !dblIsNaN bits &&
  !(dblExpField bits = 0 && dblManField bits = 0)

/-- The exact value of a finite binary64 bit pattern, as a pair
`(num, den)` with value `num / den` (sign ignored). -/
def dblAbsRat (bits : Nat) : Nat × Nat :=
  let e := dblExpField bits
  let m := dblManField bits
  if e = 0 then (m, 2 ^ 1074)
  else if 1075 ≤ e then ((4503599627370496 + m) * 2 ^ (e - 1075), 1)
  else (4503599627370496 + m, 2 ^ (1075 - e))

/-- Round `num / den` to the nearest integer, ties to even (the rounding
used by correctly-rounded binary-to-decimal conversion). -/
def ratRound (num den : Nat) : Nat :=
  let q := num / den
  let r := num % den
  if 2 * r < den then q
  else if 2 * r > den then q + 1
  else if q % 2 = 0 then q else q + 1

/-- Smallest `k ≤ lim` with `num * 10 ^ k ≥ den` (for the decimal exponent
of a subunit value); structural search. -/
def decExpSearch (num den : Nat) : Nat → Nat
  | 0 => 0
  | k + 1 => if num * 10 ^ (decExpSearch num den k) ≥ den then
               decExpSearch num den k
             else decExpSearch num den k + 1

/-- Decimal exponent `d` of the positive rational `num / den`: the unique
integer with `10 ^ d ≤ num / den < 10 ^ (d + 1)` (as an `Int`). -/
def decExp (num den : Nat) : Int :=
  if num ≥ den then Int.ofNat (Nat.log 10 (num / den))
  else - Int.ofNat (decExpSearch num den 1100)

/-- Digit list of `n` in base 10 padded on the left with zeros to `w`. -/
def decPad (n w : Nat) : List Char :=
  let d := natStr 10 n
  List.replicate (w - d.length) '0' ++ d

/-- Fixed-notation body (`%f`): `prec` digits after the point; `showpoint`
forces the point even with `prec = 0`. -/
def fixedBody (num den prec : Nat) (showpoint : Bool) : List Char :=
  let scaled := ratRound (num * 10 ^ prec) den
  let ip := scaled / 10 ^ prec
  let fp := scaled % 10 ^ prec
  if prec = 0 then natStr 10 ip ++ (if showpoint then ['.'] else [])
  else natStr 10 ip ++ '.' :: decPad fp prec

/-- Scientific-notation body (`%e`): one leading digit, `prec` digits after
the point, two-digit-minimum exponent. -/
def sciBody (num den prec : Nat) (showpoint upper : Bool) : List Char :=
  if num = 0 then
    (if prec = 0 then '0' :: (if showpoint then ['.'] else [])
     else '0' :: '.' :: List.replicate prec '0') ++
    (if upper then ['E'] else ['e']) ++ ['+', '0', '0']
  else
    let d := decExp num den
    let scale : Nat × Nat :=   -- (num', den') = num/den * 10^(prec - d)
      match prec - d with
      | Int.ofNat k => (num * 10 ^ k, den)
      | Int.negSucc k => (num, den * 10 ^ (k + 1))
    let s0 := ratRound scale.1 scale.2
    let bump := s0 ≥ 10 ^ (prec + 1)
    let s := if bump then s0 / 10 else s0
    let d' : Int := if bump then d + 1 else d
    let ds := decPad s (prec + 1)
    (ds.take 1 ++
     (if prec = 0 then (if showpoint then ['.'] else [])
      else '.' :: ds.drop 1)) ++
    (if upper then ['E'] else ['e']) ++
    (if d' < 0 then ['-'] else ['+']) ++ decPad d'.natAbs 2

/-- Strip trailing zeros (and then a trailing point) from a fixed or
scientific mantissa, as `%g` does without `showpoint`. -/
def stripZeros (l : List Char) : List Char :=
  let r := l.reverse.dropWhile (· = '0')
  (if r.headD ' ' = '.' then r.drop 1 else r).reverse

/-- Modelled from the C++ standard library: `std::ostream` insertion of a
non-negative `double` (`os << uval` in `do_numeric_format`), under the
stream state the source sets: precision `prec`, `floatfield` `ff`
(`'e'` = scientific, `'f'` = fixed, anything else = default `%g`-like),
`showpoint`, `uppercase`.  External collaborator behaviour, not repository
code; claims never depend on its digit output. -/
def ostream_put_double (bits prec : Nat) (ff : Char) (showpoint upper : Bool) :
    String :=
  let sgn : List Char := if dblSignBit bits then ['-'] else []
  if dblIsNaN bits then String.mk (sgn ++ if upper then ['N','A','N'] else ['n','a','n'])
  else if dblIsInf bits then String.mk (sgn ++ if upper then ['I','N','F'] else ['i','n','f'])
  else
    let r := dblAbsRat bits
    if ff = 'e' then String.mk (sgn ++ sciBody r.1 r.2 prec showpoint upper)
    else if ff = 'f' then String.mk (sgn ++ fixedBody r.1 r.2 prec showpoint)
    else
      -- default floatfield: %g with precision prec (0 treated as 1)
      let p := max prec 1
      if r.1 = 0 then String.mk (sgn ++ ['0'])
      else
        let d := decExp r.1 r.2
        if d < -4 ∨ d ≥ Int.ofNat p then
          let body := sciBody r.1 r.2 (p - 1) true upper
          let epos := body.length - 4
          String.mk (sgn ++ (if showpoint then body
            else stripZeros (body.take epos) ++ body.drop epos))
        else
          let body := fixedBody r.1 r.2 (p - 1 - d.toNat +
            (if d < 0 then d.natAbs else 0)) showpoint
          String.mk (sgn ++ (if showpoint then body else stripZeros body))

/-- Round-to-nearest-even conversion of an unsigned 64-bit integer to a
binary64 bit pattern: the C++ conversion `double(val)` for
`unsigned long long val`. -/
def ullToDoubleBits (v : Nat) : Nat :=
  if v = 0 then 0
  else
    let e := Nat.log2 v          -- 2^e ≤ v < 2^(e+1)
    if e ≤ 52 then
      (e + 1023) * 4503599627370496 + (v * 2 ^ (52 - e) - 4503599627370496)
    else
      let sh := e - 52
      let m0 := ratRound v (2 ^ sh)   -- 53-bit mantissa, RNE
      if m0 = 9007199254740992 then   -- rounding carried into the next binade
        (e + 1024) * 4503599627370496
      else
        (e + 1023) * 4503599627370496 + (m0 - 4503599627370496)

/-- The C++ conversion `double(val)` for `long long val`, as a bit
pattern. -/
def llToDoubleBits (v : Int) : Nat :=
  if v < 0 then 9223372036854775808 + ullToDoubleBits (-v).toNat
  else ullToDoubleBits v.toNat

/-- Whether the C++ expression `-val` overflows (undefined behaviour) when
`val` has type `long long`: true exactly when `-val` is outside
`[-2^63, 2^63 - 1]`. -/
def ll_neg_overflows (v : Int) : Bool :=
  -v > 9223372036854775807 || -v < -9223372036854775808

/-- Value handed to `do_numeric_format`: the template parameter `T` is
`unsigned long long`, `long long` or `double` at the three instantiation
sites. -/
inductive NumV where
  | u (v : Nat)
  | s (v : Int)
  | d (bits : Nat)
deriving Repr, DecidableEq

/-- `is_negative` (fmt.cc lines 88-100), extended to `double` by `t < 0`. -/
def numIsNeg : NumV → Bool
  | .u _ => false
  | .s v => v < 0
  | .d bits => dblLt0 bits

/-- The assignment `uval = -val` on the negative branch (fmt.cc line 554).
For `long long` the negation happens in signed arithmetic and is then
converted to `unsigned long long`; the conversion result under the
universal two's-complement behaviour is `(-val) mod 2^64` (for
`val = LLONG_MIN` the negation itself is signed overflow — see
`ll_neg_overflows` and claim C5).  For `double`, negation clears the sign
bit. -/
def numNegate : NumV → NumV
  | .u v => .u v
  | .s v => .u ((-v).emod (Int.ofNat U64)).toNat
  | .d bits => .d (bits % 9223372036854775808)

/-- The assignment `uval = val` on the non-negative branch (fmt.cc line
557): conversion to the unsigned type for integers. -/
def numToU : NumV → NumV
  | .u v => .u v
  | .s v => .u (v.emod (Int.ofNat U64)).toNat
  | .d bits => .d bits

/-- `s[0]` on a `std::string` (C++11: the null character at `size()`). -/
def headCh (s : String) : Char := s.data.headD '\x00'

/-- The local variable `align` of `do_alignment` (fmt.cc lines 490-493):
the requested alignment, defaulting to left for strings and right for
everything else. -/
def effAlign (spec : format_spec) (type : Char) : Char :=
  if spec.align = '\x00' then (if type = 's' then '<' else '>')
  else spec.align

/-- The local variable `leading` of `do_alignment` (fmt.cc lines 512-516):
the number of leading characters (sign, then two more for an
alternate-form base prefix) that `'='` alignment keeps flush left. -/
def eqLeading (spec : format_spec) (type : Char) (s : String) : Nat :=
  (if type ≠ 's' ∧ type ≠ 'c' ∧ (headCh s = '-' ∨ spec.sign ≠ '-')
   then 1 else 0) +
  (if spec.alternate_form ∧ (type = 'o' ∨ type = 'x' ∨ type = 'X')
   then 2 else 0)

/-- The alignment switch of `do_alignment` (fmt.cc lines 485-522), giving
the aligned text appended between the optional error markers.  Returns
`none` when the source would throw: `s.substr(leading)` raises
`std::out_of_range` when `leading` exceeds `s.size()` (unreachable from
the renderers, which always place at least one digit after the sign and
base prefix). -/
def alignCore (s : String) (spec : format_spec) (type : Char) :
    Option String :=
  if ¬ spec.has_width ∨ spec.width ≤ s.length then some s
  else
    let pad := spec.width - s.length
    let align := effAlign spec type
    if align = '<' then some (s ++ repChar pad spec.fill)
    else if align = '>' then some (repChar pad spec.fill ++ s)
    else if align = '^' then
      some (repChar (pad / 2) spec.fill ++ s ++
            repChar (pad / 2 + pad % 2) spec.fill)
    else
      if s.length < eqLeading spec type s then none
      else some (s.take (eqLeading spec type s) ++ repChar pad spec.fill ++
                 s.drop (eqLeading spec type s))

/-- `do_alignment` (fmt.cc lines 478-526): append the aligned text to
`out`, wrapped in `BEGIN_ERRMSG`/`END_ERRMSG` when the substitution is
flagged as an error.  (The source issues a sequence of `out.append`
calls; their concatenation is written here as one append.) -/
def do_alignment (s : String) (spec : format_spec) (type : Char)
    (error : Bool) (out : String) : Option String :=
  match alignCore s spec type with
  | none => none
  | some m => some (out ++ if error then errB ++ m ++ errE else m)

/-- The number `os << uval` prints, per the stream flags the source set for
presentation type `type`. -/
def numPut (uval : NumV) (spec : format_spec) (type : Char) : String :=
  let upper := type = 'E' || type = 'F' || type = 'G' || type = 'X'
  match uval with
  | .u v =>
    let b := if type = 'o' then 8
             else if type = 'x' ∨ type = 'X' then 16 else 10
    let ds := natStr b v
    String.mk (if upper then ds.map Char.toUpper else ds)
  | .s v =>   -- unreachable: the sign handling always converts to unsigned
    String.mk (natStr 10 (v.emod (Int.ofNat U64)).toNat)
  | .d bits =>
    let prec := if spec.has_precision then spec.precision else 6
    let ff := if type = 'e' ∨ type = 'E' then 'e'
              else if type = 'f' ∨ type = 'F' then 'f' else 'g'
    let showpoint := type = 'e' ∨ type = 'E' ∨ type = 'f' ∨ type = 'F'
    ostream_put_double bits prec ff showpoint upper

/-- `do_numeric_format` (fmt.cc lines 533-601): sign, optional base prefix,
digits, then `do_alignment`. -/
def do_numeric_format (val : NumV) (spec : format_spec) (type : Char)
    (error : Bool) (out : String) : Option String :=
  let signed : NumV × String :=
    if numIsNeg val then (numNegate val, "-")
    else (numToU val,
          if spec.sign ≠ '-' then String.mk [spec.sign] else "")
  let pfx : String :=
    if spec.alternate_form then
      if type = 'o' then "0o"
      else if type = 'x' then "0x"
      else if type = 'X' then "0X"
      else ""
    else ""
  do_alignment (signed.2 ++ pfx ++ numPut signed.1 spec type) spec type
    error out

/-- `do_format_unsigned_int` (fmt.cc lines 603-627). -/
def do_format_unsigned_int (v : Nat) (spec : format_spec) (out : String) :
    Option String :=
  if spec.type = 'u' ∨ spec.type = 'd' ∨ spec.type = 'o' ∨
     spec.type = 'x' ∨ spec.type = 'X' then
    do_numeric_format (.u v) spec spec.type false out
  else if spec.type = 'e' ∨ spec.type = 'E' ∨ spec.type = 'f' ∨
          spec.type = 'F' ∨ spec.type = 'g' ∨ spec.type = 'G' then
    do_numeric_format (.d (ullToDoubleBits v)) spec spec.type false out
  else
    do_numeric_format (.u v) spec 'u' true out

/-- `do_format_signed_int` (fmt.cc lines 629-653). -/
def do_format_signed_int (v : Int) (spec : format_spec) (out : String) :
    Option String :=
  if spec.type = 'u' ∨ spec.type = 'd' ∨ spec.type = 'o' ∨
     spec.type = 'x' ∨ spec.type = 'X' then
    do_numeric_format (.s v) spec spec.type false out
  else if spec.type = 'e' ∨ spec.type = 'E' ∨ spec.type = 'f' ∨
          spec.type = 'F' ∨ spec.type = 'g' ∨ spec.type = 'G' then
    do_numeric_format (.d (llToDoubleBits v)) spec spec.type false out
  else
    do_numeric_format (.s v) spec 'd' true out

/-- `do_format_float` (fmt.cc lines 655-687): the union read of the bit
pattern is the identity here because the embedding carries doubles as bit
patterns. -/
def do_format_float (bits : Nat) (spec : format_spec) (out : String) :
    Option String :=
  if spec.type = 'e' ∨ spec.type = 'E' ∨ spec.type = 'f' ∨
     spec.type = 'F' ∨ spec.type = 'g' ∨ spec.type = 'G' then
    do_numeric_format (.d bits) spec spec.type false out
  else if spec.type = 'u' ∨ spec.type = 'd' ∨ spec.type = 'o' ∨
          spec.type = 'x' ∨ spec.type = 'X' then
    do_numeric_format (.u bits) spec spec.type false out
  else
    do_numeric_format (.d bits) spec 'g' true out

/-- `do_format_char` (fmt.cc lines 691-708). -/
def do_format_char (v : Nat) (spec : format_spec) (out : String) :
    Option String :=
  if (spec.type = 'c' ∨ spec.type = 's') ∧ v ≤ 255 then
    if spec.has_precision ∧ spec.precision = 0 then
      do_alignment "" spec spec.type false out
    else
      do_alignment (String.mk [Char.ofNat v]) spec spec.type false out
  else
    do_numeric_format (.u v) spec 'u' true out

/-- `do_format_str` (fmt.cc lines 710-721). -/
def do_format_str (val : String) (spec : format_spec) (out : String) :
    Option String :=
  if ¬ spec.has_precision then
    do_alignment val spec 's' (spec.type ≠ 's') out
  else
    do_alignment (val.take spec.precision) spec 's' (spec.type ≠ 's') out

/-- `do_format_cstr` (fmt.cc lines 723-743): with a precision, scanning
stops at the first NUL or at `precision` characters, whichever comes
first. -/
def do_format_cstr (val : String) (spec : format_spec) (out : String) :
    Option String :=
  if ¬ spec.has_precision then
    do_alignment val spec 's' (spec.type ≠ 's') out
  else
    do_alignment
      (String.mk ((val.data.takeWhile (· ≠ '\x00')).take spec.precision))
      spec 's' (spec.type ≠ 's') out

/-! ### Engine driver -/

/-- One argument value, after the call-site adapters of fmt.h have reduced
every native type to one of the base format categories (the seven
`format_sub` overloads, fmt.h lines 91-97): unsigned char, long long,
unsigned long long, double (by bit pattern), raw pointer, C string,
`std::string`. -/
inductive Value where
  | uc (v : Nat)
  | ll (v : Int)
  | ull (v : Nat)
  | dbl (bits : Nat)
  | ptr (v : Nat)
  | cstr (s : String)
  | str (s : String)
deriving Repr, DecidableEq

/-- The presentation type each overload substitutes for an absent type
code (`if (spec->type == '\0') spec->type = ...`). -/
def default_type : Value → Char
  | .uc _ => 's'
  | .ll _ => 'd'
  | .ull _ => 'u'
  | .dbl _ => 'g'
  | .ptr _ => 'x'
  | .cstr _ => 's'
  | .str _ => 's'

/-- The body of each overload's `switch` on the (already defaulted)
presentation type: render `v` under `spec` appending to `out`.  `none`
models a thrown exception (only the `substr` call in `do_alignment`). -/
def render_one (v : Value) (spec : format_spec) (out : String) :
    Option String :=
  match v with
  | .uc c =>
    if spec.type = 'd' ∨ spec.type = 'u' ∨ spec.type = 'o' ∨
       spec.type = 'x' ∨ spec.type = 'X' then
      do_format_unsigned_int c spec out
    else do_format_char c spec out
  | .ll n =>
    if spec.type = 'c' then do_format_char (n.emod (Int.ofNat U64)).toNat spec out
    else do_format_signed_int n spec out
  | .ull n =>
    if spec.type = 'c' then do_format_char n spec out
    else do_format_unsigned_int n spec out
  | .dbl bits => do_format_float bits spec out
  | .ptr p => do_format_unsigned_int p spec out
  | .cstr s => do_format_cstr s spec out
  | .str s => do_format_str s spec out

/-- Read the spec at slot `i` (`i_errno` selects `first_errno_spec`). -/
def specAt (st : FmtState) (i : Nat) : format_spec :=
  if i = i_errno then st.fe else st.specs.getD i fs0

/-- Write back the spec at slot `i`. -/
def setSpecAt (st : FmtState) (i : Nat) (sp : format_spec) : FmtState :=
  if i = i_errno then { st with fe := sp }
  else { st with specs := st.specs.setD i sp }

/-- The spec as mutated at the top of one chain iteration: the type code
defaulted by value kind, and — for raw pointers only (fmt.cc lines
888-895) — an absent width defaulted to a zero-filled right alignment of
width `2 * sizeof(void *) = 16`. -/
def defaultedSpec (v : Value) (sp0 : format_spec) : format_spec :=
  let sp1 := if sp0.type = '\x00' then { sp0 with type := default_type v }
             else sp0
  match v with
  | .ptr _ =>
    if ¬ sp1.has_width then
      { sp1 with has_width := true, width := 16, fill := '0', align := '>' }
    else sp1
  | _ => sp1

/-- One iteration of the chain-walking loop: default the spec in place,
render into the target segment inside the `try` block (the oracle `exc`
deciding whether that block throws), and return the updated state together
with `next_this_index`. -/
def chainStep (exc : Nat → Option String) (v : Value) (st : FmtState)
    (i : Nat) : FmtState × Nat :=
  let sp2 := defaultedSpec v (specAt st i)
  let st1 := setSpecAt st i sp2
  let seg := st1.segs.getD sp2.target ""
  let newSeg : String :=
    match exc i with
    | some msg => msg
    | none =>
      match render_one v sp2 seg with
      | some s' => s'
      | none => errB ++ "[out_of_range]" ++ errE   -- diagnose of the substr throw
  ({ st1 with segs := st1.segs.setD sp2.target newSeg,
              wlog := st1.wlog ++ [sp2.target] },
   sp2.next_this_index)

/-- The `for (;;)` chain-walking loop shared by all `format_sub` overloads
(e.g. fmt.cc lines 798-829), with explicit fuel (the chains are acyclic,
claim C7, so the fuel `specs.size + 1` used by `format_sub` is never
exhausted).  `exc i = some msg` models an exception thrown while rendering
slot `i`, caught by the `catch` that assigns
`diagnose_current_exception()` — the string `msg` — to the target
segment. -/
def chain_loop (exc : Nat → Option String) (v : Value) :
    Nat → FmtState → Nat → FmtState
  | 0, st, _ => st
  | fuel + 1, st, i =>
    let r := chainStep exc v st i
    if r.2 = i_invalid then r.1 else chain_loop exc v fuel r.1 r.2

/-- `formatter::format_sub` (one overload per `Value` constructor, fmt.cc
lines 745-1001): bail out if the argument is unused, otherwise walk the
chain.  Only the `const char *` overload accepts `i_errno`. -/
def format_sub (exc : Nat → Option String) (st : FmtState) (i : Nat)
    (v : Value) : FmtState :=
  let allowErrno := match v with | .cstr _ => true | _ => false
  if i ≥ st.specs.size ∧ ¬ (allowErrno = true ∧ i = i_errno) then st
  else if (specAt st i).arg_index = i_invalid then st
  else chain_loop exc v (st.specs.size + 1) st i

/-- The constructor step that renders `strerror(saved_errno)` right after
parsing, when some placeholder requested it (fmt.cc lines 1028-1030). -/
def renderErrno (exc : Nat → Option String) (emsg : String) (st : FmtState) :
    FmtState :=
  if st.fe.target ≠ i_invalid then format_sub exc st i_errno (.cstr emsg)
  else st

/-- `formatter::format_subs`: render each argument at its position. -/
def renderArgs (exc : Nat → Option String) (st : FmtState)
    (args : List Value) : FmtState :=
  (args.enum).foldl (fun st iv => format_sub exc st iv.1 iv.2) st

/-- `formatter::finish` (fmt.cc lines 1045-1058): concatenate all segments
in order. -/
def finish (st : FmtState) : String := st.segs.foldl (· ++ ·) ""

/-- The whole engine run of `fmt::format(msg, xs...)` (fmt.h lines
216-223): parse, render the errno spec, render each argument, leaving the
final `FmtState`.  `emsg` is the already-captured `strerror(errno)` text;
`exc` is the rendering-exception oracle. -/
def runState (exc : Nat → Option String) (t : List Char) (args : List Value)
    (emsg : String) : FmtState :=
  renderArgs exc (renderErrno exc emsg (parse_format_string args.length t))
    args

/-- `fmt::format` with the exception oracle exposed. -/
def formatWith (exc : Nat → Option String) (t : List Char)
    (args : List Value) (emsg : String) : String :=
  finish (runState exc t args emsg)

/-- The oracle of a run in which no rendering step throws. -/
def noExc : Nat → Option String := fun _ => none

/-- `fmt::format(template, values...)` in the normal (exception-free)
case. -/
def formatString (t : String) (args : List Value) : String :=
  formatWith noExc t.data args ""

/-! ### Consumption accounting -/

theorem errScan_le (l : List Char) : ∀ d, errScan l d ≤ l.length := by
  induction l with
  | nil => intro d; simp [errScan]
  | cons c r ih =>
    intro d
    simp only [errScan, List.length_cons]
    split
    · have := ih (d + 1); omega
    · split
      · split
        · omega
        · have := ih (d - 1); omega
      · have := ih d; omega

theorem readNum_le (l : List Char) : (readNum l).2 ≤ l.length := by
  simpa [readNum] using (List.takeWhile_sublist (l := l) (p := isDig)).length_le

theorem peek_ne_nil {l : List Char} (h : peek l ≠ '\x00') : l ≠ [] := by
  cases l with
  | nil => simp [peek] at h
  | cons c r => simp

theorem peek_ne_nil_len {l : List Char} (h : peek l ≠ '\x00') :
    1 ≤ l.length := by
  cases l with
  | nil => simp [peek] at h
  | cons c r => simp

theorem isAlign_ne_nul {c : Char} (h : isAlign c = true) : c ≠ '\x00' := by
  simp only [isAlign, Bool.or_eq_true, decide_eq_true_eq] at h
  rcases h with ((h | h) | h) | h <;> subst h <;> decide

/-- `con + rest.length` is preserved by every modifier block. -/
theorem psFillAlign_inv (t : PSt) :
    (psFillAlign t).con + (psFillAlign t).rest.length =
      t.con + t.rest.length := by
  unfold psFillAlign
  dsimp only
  split_ifs with h1 h2
  · have hl : 1 ≤ (t.rest.drop 1).length := peek_ne_nil_len (isAlign_ne_nul h1)
    simp only [List.length_drop] at hl ⊢
    omega
  · have hl : 1 ≤ t.rest.length := peek_ne_nil_len (isAlign_ne_nul h2)
    simp only [List.length_drop]
    omega
  · rfl

theorem psSign_inv (t : PSt) :
    (psSign t).con + (psSign t).rest.length = t.con + t.rest.length := by
  unfold psSign
  split
  · next h =>
    have h1 : 1 ≤ t.rest.length := by
      apply peek_ne_nil_len
      rcases h with h | h | h <;> rw [h] <;> decide
    simp only [List.length_drop]
    omega
  · rfl

theorem psAlt_inv (t : PSt) :
    (psAlt t).con + (psAlt t).rest.length = t.con + t.rest.length := by
  unfold psAlt
  split
  · next h =>
    have h1 : 1 ≤ t.rest.length := by
      apply peek_ne_nil_len; rw [h]; decide
    simp only [List.length_drop]
    omega
  · rfl

theorem psZero_inv (t : PSt) :
    (psZero t).con + (psZero t).rest.length = t.con + t.rest.length := by
  unfold psZero
  split
  · next h =>
    have h1 : 1 ≤ t.rest.length := by
      apply peek_ne_nil_len; rw [h]; decide
    simp only [List.length_drop]
    omega
  · rfl

theorem psWidth_inv (t : PSt) :
    (psWidth t).con + (psWidth t).rest.length = t.con + t.rest.length := by
  unfold psWidth
  split
  · have h1 := readNum_le t.rest
    simp only [List.length_drop]
    omega
  · rfl

theorem psPrec_inv (t : PSt) :
    (psPrec t).con + (psPrec t).rest.length = t.con + t.rest.length := by
  unfold psPrec
  split
  · next h =>
    have h1 : 1 ≤ t.rest.length := by
      apply peek_ne_nil_len; rw [h]; decide
    have h2 := readNum_le (t.rest.drop 1)
    simp only [List.length_drop] at h2 ⊢
    omega
  · rfl

theorem psType_inv (t : PSt) :
    (psType t).con + (psType t).rest.length = t.con + t.rest.length := by
  unfold psType
  split
  · next h =>
    have h1 : 1 ≤ t.rest.length := by
      apply peek_ne_nil_len
      intro hn
      rw [hn] at h
      simp [isType] at h
    simp only [List.length_drop]
    omega
  · rfl

theorem parse_body_consumed_le (src : Option (Option Nat)) (t0 : PSt) :
    (parse_body src t0).consumed ≤ t0.con + t0.rest.length := by
  unfold parse_body
  dsimp only
  have h5 := psAlt_inv (psSign (psFillAlign t0))
  rw [psSign_inv, psFillAlign_inv] at h5
  split
  · simp only [psErr]
    have := errScan_le (psAlt (psSign (psFillAlign t0))).rest 1
    omega
  · have h7 := psWidth_inv (psZero (psAlt (psSign (psFillAlign t0))))
    rw [psZero_inv] at h7
    split
    · next h =>
      simp only [psErr]
      have he := errScan_le
        ((psWidth (psZero (psAlt (psSign (psFillAlign t0))))).rest.drop 1) 1
      have h1 : 1 ≤ (psWidth (psZero (psAlt (psSign
          (psFillAlign t0))))).rest.length := by
        apply peek_ne_nil_len; rw [h.1]; decide
      simp only [List.length_drop] at he
      omega
    · have h9 := psType_inv (psPrec (psWidth (psZero (psAlt (psSign
        (psFillAlign t0))))))
      rw [psPrec_inv] at h9
      split
      · next h =>
        have h1 : 1 ≤ (psType (psPrec (psWidth (psZero (psAlt (psSign
            (psFillAlign t0))))))).rest.length := by
          apply peek_ne_nil_len; rw [h]; decide
        simp only
        omega
      · simp only [psErr]
        have := errScan_le (psType (psPrec (psWidth (psZero (psAlt (psSign
          (psFillAlign t0))))))).rest 1
        omega

theorem psErr_le (src : Option (Option Nat)) (rest : List Char) (c : Nat) :
    (psErr src rest c).consumed ≤ c + rest.length := by
  have := errScan_le rest 1
  simp only [psErr]
  omega

theorem parse_subst_consumed_le (l : List Char) (d : Nat) :
    (parse_subst l d).consumed ≤ l.length := by
  unfold parse_subst
  dsimp only
  by_cases hdig : isDig (peek l) = true
  · rw [if_pos hdig]
    dsimp only
    have hk := readNum_le l
    split
    · next h =>
      have := peek_ne_nil_len (l := l.drop (readNum l).2) (by rw [h]; decide)
      simp only [List.length_drop] at this
      dsimp only
      omega
    · split
      · refine le_trans (psErr_le _ _ _) ?_
        simp only [List.length_drop]
        omega
      · next hc =>
        have hcl : 1 ≤ (l.drop (readNum l).2).length := by
          apply peek_ne_nil_len
          rw [not_not.mp hc]; decide
        simp only [List.length_drop] at hcl
        split
        · refine le_trans (psErr_le _ _ _) ?_
          simp only [List.length_drop]
          omega
        · split
          · next h =>
            have := peek_ne_nil_len (l := (l.drop (readNum l).2).drop 1)
              (by rw [h]; decide)
            simp only [List.length_drop] at this
            dsimp only
            omega
          · split
            · refine le_trans (psErr_le _ _ _) ?_
              simp only [List.length_drop]
              omega
            · refine le_trans (parse_body_consumed_le _ _) ?_
              simp only [List.length_drop]
              omega
  · rw [if_neg hdig]
    by_cases hm : peek l = 'm'
    · rw [if_pos hm]
      dsimp only
      have hl : 1 ≤ l.length := peek_ne_nil_len (by rw [hm]; decide)
      split
      · next h =>
        have := peek_ne_nil_len (l := l.drop 1) (by rw [h]; decide)
        simp only [List.length_drop] at this
        dsimp only
        omega
      · split
        · refine le_trans (psErr_le _ _ _) ?_
          simp only [List.length_drop]
          omega
        · next hc =>
          have hcl : 1 ≤ (l.drop 1).length := by
            apply peek_ne_nil_len
            rw [not_not.mp hc]; decide
          simp only [List.length_drop] at hcl
          split
          · refine le_trans (psErr_le _ _ _) ?_
            simp only [List.length_drop]
            omega
          · split
            · next h =>
              have := peek_ne_nil_len (l := (l.drop 1).drop 1) (by rw [h]; decide)
              simp only [List.length_drop] at this
              dsimp only
              omega
            · split
              · refine le_trans (psErr_le _ _ _) ?_
                simp only [List.length_drop]
                omega
              · refine le_trans (parse_body_consumed_le _ _) ?_
                simp only [List.length_drop]
                omega
    · rw [if_neg hm]
      dsimp only
      split
      · next h =>
        have := peek_ne_nil_len (l := l) (by rw [h]; decide)
        dsimp only
        omega
      · split
        · refine le_trans (psErr_le _ _ _) ?_
          omega
        · next hc =>
          have hcl : 1 ≤ l.length := by
            apply peek_ne_nil_len
            rw [not_not.mp hc]; decide
          split
          · refine le_trans (psErr_le _ _ _) ?_
            simp only [List.length_drop]
            omega
          · split
            · next h =>
              have := peek_ne_nil_len (l := l.drop 1) (by rw [h]; decide)
              simp only [List.length_drop] at this
              dsimp only
              omega
            · split
              · refine le_trans (psErr_le _ _ _) ?_
                simp only [List.length_drop]
                omega
              · refine le_trans (parse_body_consumed_le _ _) ?_
                simp only [List.length_drop]
                omega

theorem scanStep_pos (st : ScanState) (c : Char) (rest : List Char) :
    1 ≤ (scanStep st c rest).2 := by
  unfold scanStep
  split
  · split
    · dsimp only
      omega
    · dsimp only
      omega
  · split
    · split
      · dsimp only
        omega
      · dsimp only
        omega
    · dsimp only
      omega

theorem scanStep_le (st : ScanState) (c : Char) (rest : List Char) :
    (scanStep st c rest).2 ≤ (c :: rest).length := by
  unfold scanStep
  simp only [List.length_cons]
  split
  · split
    · next h =>
      have := peek_ne_nil_len (l := rest) (by rw [h]; decide)
      dsimp only
      omega
    · have := parse_subst_consumed_le rest st.default_index
      dsimp only
      omega
  · split
    · split
      · next h =>
        have := peek_ne_nil_len (l := rest) (by rw [h]; decide)
        dsimp only
        omega
      · dsimp only
        omega
    · dsimp only
      omega

/-- Scanning the empty remainder leaves the state unchanged, whatever the
fuel. -/
theorem scan_nil (fuel : Nat) (st : ScanState) : scan fuel st [] = st := by
  cases fuel <;> rfl

/-- One-step unfolding of the scan loop. -/
theorem scan_succ (fuel : Nat) (st : ScanState) (c : Char)
    (rest : List Char) :
    scan (fuel + 1) st (c :: rest) =
      scan fuel (scanStep st c rest).1
        ((c :: rest).drop (scanStep st c rest).2) := rfl

/-- Any fuel at least the remaining length computes the same scan: the
loop terminates within `l.length` iterations. -/
theorem scan_fuel_irrel : ∀ (n : Nat) (l : List Char), l.length ≤ n →
    ∀ (fuel : Nat) (st : ScanState), l.length ≤ fuel →
    scan fuel st l = scan l.length st l := by
  intro n
  induction n with
  | zero =>
    intro l hl fuel st _
    have hnil : l = [] := List.length_eq_zero.mp (Nat.le_zero.mp hl)
    subst hnil
    rw [scan_nil, scan_nil]
  | succ n ih =>
    intro l hl fuel st hf
    cases l with
    | nil => rw [scan_nil, scan_nil]
    | cons c rest =>
      simp only [List.length_cons] at hl hf
      cases fuel with
      | zero => omega
      | succ f =>
        have hk1 := scanStep_pos st c rest
        have hk2 := scanStep_le st c rest
        simp only [List.length_cons] at hk2
        have hlen : ((c :: rest).drop (scanStep st c rest).2).length =
            rest.length + 1 - (scanStep st c rest).2 := by
          simp [List.length_drop]
        simp only [List.length_cons]
        rw [scan_succ, scan_succ]
        rw [ih ((c :: rest).drop (scanStep st c rest).2) (by omega) f
              (scanStep st c rest).1 (by omega),
            ih ((c :: rest).drop (scanStep st c rest).2) (by omega) rest.length
              (scanStep st c rest).1 (by omega)]

/-- C8: the spec parser and the template scanner terminate on every input.
`parse_subst` always reports a consumed length, at most the remaining
input (its error path resets the spec and scans forward tracking brace
depth, so it cannot get stuck); each scanner iteration consumes at least
one and at most all remaining characters, so the scan makes forward
progress on every iteration, and any fuel of at least the remaining length
— in particular the `l.length` used by `parse_format_string` — runs the
loop to completion with the same result. -/
theorem C8_parser_and_scanner_always_terminate (l : List Char) (d : Nat)
    (st : ScanState) (c : Char) (rest : List Char) (fuel : Nat) :
    (parse_subst l d).consumed ≤ l.length ∧
    1 ≤ (scanStep st c rest).2 ∧
    (scanStep st c rest).2 ≤ (c :: rest).length ∧
    scan (fuel + 1) st (c :: rest) =
      scan fuel (scanStep st c rest).1
        ((c :: rest).drop (scanStep st c rest).2) ∧
    ((c :: rest).length ≤ fuel →
      scan fuel st (c :: rest) = scan (c :: rest).length st (c :: rest)) :=
  ⟨parse_subst_consumed_le l d, scanStep_pos st c rest, scanStep_le st c rest,
   scan_succ fuel st c rest,
   fun h => scan_fuel_irrel (c :: rest).length (c :: rest) le_rfl fuel st h⟩

/-- Witness for C8 at concrete inputs: a spec-parser run on garbage input
consumes no more than the input, and a scan with surplus fuel equals the
scan with exactly the remaining length. -/
theorem C8_witness :
    (parse_subst "0:q!\x7dx".data 0).consumed ≤ ("0:q!\x7dx".data).length ∧
    scan 9 { nargs := 1, segs := #[], cseg := "",
             specs := Array.mkArray 1 fs0, extras := [],
             default_index := 0, fe := fs0, trace := [] } "a{}b".data =
    scan 4 { nargs := 1, segs := #[], cseg := "",
             specs := Array.mkArray 1 fs0, extras := [],
             default_index := 0, fe := fs0, trace := [] } "a{}b".data := by
  refine ⟨(C8_parser_and_scanner_always_terminate "0:q!\x7dx".data 0
    { nargs := 1, segs := #[], cseg := "", specs := Array.mkArray 1 fs0,
      extras := [], default_index := 0, fe := fs0, trace := [] }
    'a' "{}b".data 9).1, ?_⟩
  exact (C8_parser_and_scanner_always_terminate "0:q!\x7dx".data 0
    { nargs := 1, segs := #[], cseg := "", specs := Array.mkArray 1 fs0,
      extras := [], default_index := 0, fe := fs0, trace := [] }
    'a' "{}b".data 9).2.2.2.2 (by decide)

/-- C9: the doubling escape is unconditional.  At every state the scanner
can be in — any pending literal, any segments, specs, extras, default
index, and any remainder whatever its brace nesting — a leading `{{`
(resp. `}}`) is consumed as the single literal character `{` (resp. `}`)
appended to the pending literal run, and scanning continues unchanged on
the rest; concretely, `format("a{{b}}c{{{{}}", )` yields `a{b}c{{}`, the
escapes collapsing even where no ambiguity exists. -/
theorem C9_doubled_braces_render_literally (st : ScanState) (fuel : Nat)
    (rest : List Char) :
    scan (fuel + 1) st ('{' :: '{' :: rest) =
      scan fuel { st with cseg := st.cseg.push '{' } rest ∧
    scan (fuel + 1) st ('}' :: '}' :: rest) =
      scan fuel { st with cseg := st.cseg.push '}' } rest ∧
    formatString "a\x7b\x7bb\x7d\x7dc\x7b\x7b\x7b\x7b\x7d\x7d" [] =
      "a\x7bb\x7dc\x7b\x7b\x7d" :=
  ⟨rfl, rfl, by decide⟩

/-- C3 counterexample: `format("{:=+08d}", -42)` does not return
`"-0000042"`.  The spec combines an explicit `=` alignment with the `0`
flag, which `parse_subst` treats as an ill-formed spec (fmt.cc lines
328-339), so the whole placeholder is emitted as an error-bracketed
literal. -/
theorem C3_scenario_counterexample :
    formatString "\x7b:=+08d\x7d" [.ll (-42)] ≠ "-0000042" := by decide

/-- C3 amended: because `'='` plus the `'0'` flag is an ill-formed spec
(flagged as an error, per the grammar's own rule quoted in the claim),
`format("{:=+08d}", -42)` yields the placeholder text wrapped in the
error markers; the intended rendering `"-0000042"` — sign flush left,
digits flush right, zero-padded to width 8 — is produced by the
well-formed spec `"{:+08d}"`, whose `'0'` shorthand supplies
`fill='0', align='='`. -/
theorem C3_scenario_amended :
    formatString "\x7b:=+08d\x7d" [.ll (-42)] =
      "\x1b[7m\x7b:=+08d\x7d\x1b[27m" ∧
    formatString "\x7b:+08d\x7d" [.ll (-42)] = "-0000042" := by
  constructor
  · decide
  · decide

/-- C2 counterexample: an integer presentation code applied to a `double`
(`format("{:d}", 1.0)`, bit pattern `0x3FF0000000000000`) is rendered by
reinterpreting the bit pattern as an unsigned integer, but with the error
flag `false` (fmt.cc line 680), so the output is *not* wrapped in the
error-marker brackets — it contains no escape character at all —
contradicting the claim that every type/value mismatch is flagged. -/
theorem C2_mismatch_flag_counterexample :
    formatString "\x7b:d\x7d" [.dbl 4607182418800017408] =
      "4607182418800017408" ∧
    ((formatString "\x7b:d\x7d" [.dbl 4607182418800017408]).data.all
      (fun c => c ≠ '\x1b')) = true := by
  constructor
  · decide
  · decide

/-- C5 (code bug): the claim — and the comment in the source (fmt.cc lines
548-551) — require the absolute value of the most negative `long long` to
be taken in unsigned arithmetic, but line 554 computes `uval = -val`,
negating in signed arithmetic *before* the conversion to unsigned:
`ll_neg_overflows` certifies that `-val` overflows `long long` (undefined
behaviour) exactly at `val = LLONG_MIN`, while for every other negative
value the negation is well defined.  Under the two's-complement wraparound
behaviour the embedding models, the digits still come out right:
`format("{:d}", LLONG_MIN)` gives `"-9223372036854775808"`. -/
theorem C5_most_negative_negation_overflows :
    ll_neg_overflows (-9223372036854775808) = true ∧
    ll_neg_overflows (-9223372036854775807) = false ∧
    ll_neg_overflows (-1) = false ∧
    formatString "\x7b:d\x7d" [.ll (-9223372036854775808)] =
      "-9223372036854775808" := by
  refine ⟨by decide, by decide, by decide, by decide⟩

/-! ### Digit-string lemmas -/

theorem natDigitsAux_len (b : Nat) :
    ∀ fuel n, n < b ^ fuel → (natDigitsAux b fuel n).length ≤ fuel := by
  intro fuel
  induction fuel with
  | zero => intro n h; simp [natDigitsAux]
  | succ f ih =>
    intro n h
    unfold natDigitsAux
    split
    · simp
    · have hd : n / b < b ^ f :=
        Nat.div_lt_of_lt_mul (by rw [Nat.mul_comm]; simpa [Nat.pow_succ] using h)
      have := ih (n / b) hd
      simp only [List.length_append, List.length_cons, List.length_nil]
      omega

theorem natDigitsAux_fuel_irrel (b : Nat) :
    ∀ f1 f2 n, n < b ^ (f1 + 1) → n < b ^ (f2 + 1) →
    natDigitsAux b (f1 + 1) n = natDigitsAux b (f2 + 1) n := by
  intro f1
  induction f1 with
  | zero =>
    intro f2 n h1 h2
    unfold natDigitsAux
    split
    · rfl
    · next h =>
      exfalso
      rw [pow_one] at h1
      exact h (h1)
  | succ g ih =>
    intro f2 n h1 h2
    unfold natDigitsAux
    split
    · rfl
    · next h =>
      push_neg at h
      cases f2 with
      | zero =>
        exfalso
        rw [pow_one] at h2
        omega
      | succ h2f =>
        have hd1 : n / b < b ^ (g + 1) :=
          Nat.div_lt_of_lt_mul (by rw [Nat.mul_comm]; simpa [Nat.pow_succ] using h1)
        have hd2 : n / b < b ^ (h2f + 1) :=
          Nat.div_lt_of_lt_mul (by rw [Nat.mul_comm]; simpa [Nat.pow_succ] using h2)
        rw [ih h2f (n / b) hd1 hd2]

theorem natStr_eq_aux (b k v : Nat) (hb : 2 ≤ b) (hk : 1 ≤ k)
    (hv : v < b ^ k) : natStr b v = natDigitsAux b k v := by
  rcases Nat.exists_eq_add_of_le hk with ⟨k', rfl⟩
  have hvv : v < b ^ (v + 1) := by
    calc v < 2 ^ v := Nat.lt_two_pow v
    _ ≤ b ^ v := Nat.pow_le_pow_left hb v
    _ ≤ b ^ (v + 1) := Nat.pow_le_pow_right (by omega) (by omega)
  rw [natStr, natDigitsAux_fuel_irrel b v (k' + 1 - 1) v hvv]
  · congr 1
    omega
  · calc v < b ^ (1 + k') := hv
    _ = b ^ (k' + 1 - 1 + 1) := by congr 1; omega

theorem natStr_len_le (b k v : Nat) (hb : 2 ≤ b) (hk : 1 ≤ k)
    (hv : v < b ^ k) : (natStr b v).length ≤ k := by
  rw [natStr_eq_aux b k v hb hk hv]
  exact natDigitsAux_len b k v hv

set_option maxHeartbeats 1000000 in
theorem digitChar_ne_esc (n : Nat) : Nat.digitChar n ≠ '\x1b' := by
  by_cases h : n < 16
  · interval_cases n <;> decide
  · have he : Nat.digitChar n = '*' := by
      unfold Nat.digitChar
      repeat rw [if_neg (by omega)]
    rw [he]
    decide

theorem natDigitsAux_no_esc (b : Nat) :
    ∀ fuel n, ((natDigitsAux b fuel n).all (fun c => c ≠ '\x1b')) = true := by
  intro fuel
  induction fuel with
  | zero => intro n; simp [natDigitsAux]
  | succ f ih =>
    intro n
    unfold natDigitsAux
    split
    · simp only [List.all_cons, List.all_nil, Bool.and_true]
      exact decide_eq_true (digitChar_ne_esc n)
    · simp only [List.all_append, List.all_cons, List.all_nil, Bool.and_true]
      rw [ih (n / b)]
      simp only [Bool.true_and]
      exact decide_eq_true (digitChar_ne_esc (n % b))

/-! ### Alignment and driver step lemmas -/

theorem str_mk_append (a b : List Char) :
    String.mk a ++ String.mk b = String.mk (a ++ b) := rfl

theorem str_empty_append (s : String) : "" ++ s = s := rfl

theorem alignCore_nopad (s : String) (spec : format_spec) (ty : Char)
    (h : spec.has_width = false ∨ spec.width ≤ s.length) :
    alignCore s spec ty = some s := by
  unfold alignCore
  rw [if_pos]
  rcases h with h | h
  · exact Or.inl (by simp [h])
  · exact Or.inr h

theorem alignCore_left (s : String) (spec : format_spec) (ty : Char)
    (hw : spec.has_width = true) (hlt : s.length < spec.width)
    (hal : effAlign spec ty = '<') :
    alignCore s spec ty =
      some (s ++ repChar (spec.width - s.length) spec.fill) := by
  unfold alignCore
  rw [if_neg (by push_neg; exact ⟨by simp [hw], by omega⟩)]
  simp only [hal]
  rfl

theorem alignCore_right (s : String) (spec : format_spec) (ty : Char)
    (hw : spec.has_width = true) (hlt : s.length < spec.width)
    (hal : effAlign spec ty = '>') :
    alignCore s spec ty =
      some (repChar (spec.width - s.length) spec.fill ++ s) := by
  unfold alignCore
  rw [if_neg (by push_neg; exact ⟨by simp [hw], by omega⟩)]
  simp only [hal]
  rfl

theorem alignCore_center (s : String) (spec : format_spec) (ty : Char)
    (hw : spec.has_width = true) (hlt : s.length < spec.width)
    (hal : effAlign spec ty = '^') :
    alignCore s spec ty =
      some (repChar ((spec.width - s.length) / 2) spec.fill ++ s ++
            repChar ((spec.width - s.length) / 2 + (spec.width - s.length) % 2)
              spec.fill) := by
  unfold alignCore
  rw [if_neg (by push_neg; exact ⟨by simp [hw], by omega⟩)]
  simp only [hal]
  rfl

theorem alignCore_internal (s : String) (spec : format_spec) (ty : Char)
    (hw : spec.has_width = true) (hlt : s.length < spec.width)
    (hal : effAlign spec ty ≠ '<') (hal2 : effAlign spec ty ≠ '>')
    (hal3 : effAlign spec ty ≠ '^') (hld : eqLeading spec ty s ≤ s.length) :
    alignCore s spec ty =
      some (s.take (eqLeading spec ty s) ++
            repChar (spec.width - s.length) spec.fill ++
            s.drop (eqLeading spec ty s)) := by
  unfold alignCore
  rw [if_neg (by push_neg; exact ⟨by simp [hw], by omega⟩)]
  simp only [if_neg hal, if_neg hal2, if_neg hal3]
  rw [if_neg (by omega)]

/-- `format_sub` on a slot that is present, valid, and not the errno
sentinel runs the chain loop with fuel `specs.size + 1`. -/
theorem format_sub_run (exc : Nat → Option String) (v : Value)
    (st : FmtState) (i : Nat) (h1 : i < st.specs.size)
    (h2 : (st.specs.getD i fs0).arg_index ≠ i_invalid) (h3 : i ≠ i_errno) :
    format_sub exc st i v = chain_loop exc v (st.specs.size + 1) st i := by
  unfold format_sub
  dsimp only
  rw [if_neg (by rintro ⟨hh, -⟩; omega)]
  rw [if_neg (by unfold specAt; rw [if_neg h3]; exact h2)]

/-- One-step unfolding of the chain loop. -/
theorem chain_loop_succ (exc : Nat → Option String) (v : Value) (fuel : Nat)
    (st : FmtState) (i : Nat) :
    chain_loop exc v (fuel + 1) st i =
      (if (chainStep exc v st i).2 = i_invalid then (chainStep exc v st i).1
       else chain_loop exc v fuel (chainStep exc v st i).1
         (chainStep exc v st i).2) := rfl

/-! ### Claim C10: default rendering of raw pointers -/

/-- The rendering claim C10 ascribes to a raw pointer under a default
spec, in the claim's own words: the pointer's value in lowercase
hexadecimal, zero-filled on the left to exactly
`2 * sizeof(void *) = 16` characters. -/
def pointer_default_rendering (v : Nat) : String :=
  String.mk (List.replicate (16 - (natStr 16 v).length) '0' ++ natStr 16 v)

/-- A one-argument formatter state holding a single parsed spec targeting
segment slot 1, as `parse_format_string` produces for a template
consisting of one placeholder. -/
def oneSpecState (spec : format_spec) : FmtState :=
  { nargs := 1, segs := Array.mk ["", ""],
    specs := Array.mk [{ spec with
                           arg_index := 0, target := 1,
                           next_this_index := i_invalid }],
    fe := fs0, trace := [], wlog := [] }

/-- C10: a raw-pointer argument whose spec has no explicit type code and
no explicit width (and default sign and alternate-form flags, whatever its
alignment, fill or precision) renders as the pointer's value in lowercase
hexadecimal, right-aligned and zero-filled to exactly
`2 * sizeof(void *) = 16` characters, with no error marker (no escape
character appears in the rendered text). -/
theorem C10_pointer_default_hex (v : Nat) (spec : format_spec)
    (hv : v < U64) (ht : spec.type = '\x00') (hw : spec.has_width = false)
    (hs : spec.sign = '-') (ha : spec.alternate_form = false) :
    (format_sub noExc (oneSpecState spec) 0 (.ptr v)).segs.getD 1 ""
      = pointer_default_rendering v ∧
    (pointer_default_rendering v).length = 16 ∧
    ((pointer_default_rendering v).data.all (fun c => c ≠ '\x1b')) = true := by
  have h16 : v < 16 ^ 16 := by
    have e : (16 : Nat) ^ 16 = U64 := by norm_num [U64]
    rw [e]; exact hv
  have hlen : (natStr 16 v).length ≤ 16 :=
    natStr_len_le 16 16 v (by norm_num) (by norm_num) h16
  have hsz : (oneSpecState spec).specs.size = 1 := rfl
  have hspecAt : specAt (oneSpecState spec) 0 =
      { spec with
          arg_index := 0, target := 1, next_this_index := i_invalid } := by
    unfold specAt oneSpecState
    rw [if_neg (show ¬ (0 = i_errno) from by decide)]
    rfl
  have hsp2 : defaultedSpec (.ptr v) (specAt (oneSpecState spec) 0) =
      { spec with
          arg_index := 0, target := 1,
          next_this_index := i_invalid, type := 'x', has_width := true,
          width := 16, fill := '0', align := '>' } := by
    rw [hspecAt]
    unfold defaultedSpec
    dsimp only
    rw [if_pos ht, if_pos (by simp [hw])]
    rfl
  have hrend : render_one (.ptr v)
      ({ spec with
           arg_index := 0, target := 1,
           next_this_index := i_invalid, type := 'x', has_width := true,
           width := 16, fill := '0', align := '>' }) ""
      = some (pointer_default_rendering v) := by
    unfold render_one do_format_unsigned_int
    dsimp only
    rw [if_pos (by decide)]
    unfold do_numeric_format numPut
    dsimp only
    simp only [numIsNeg, numToU, hs, ha, Bool.false_eq_true, if_false]
    unfold do_alignment
    rw [if_neg (show ¬ (('-' : Char) ≠ '-') from by decide)]
    rw [if_neg (show ¬ ((decide ('x' = 'E') || decide ('x' = 'F') ||
          decide ('x' = 'G') || decide ('x' = 'X')) = true) from by decide)]
    rw [if_neg (show ¬ (('x' : Char) = 'o') from by decide)]
    rw [if_pos (show True ∨ ('x' : Char) = 'X' from Or.inl trivial)]
    have hempty : ("" : String) ++ "" ++
        String.mk (natStr 16 v) = String.mk (natStr 16 v) := rfl
    rw [hempty]
    rcases Nat.lt_or_ge (String.mk (natStr 16 v)).length 16 with hl | hl
    · rw [alignCore_right _ _ _ (by rfl) (by exact hl) (by rfl)]
      rfl
    · rw [alignCore_nopad _ _ _ (Or.inr (by exact hl))]
      have h1616 : (natStr 16 v).length = 16 := by
        simp only [String.length] at hl
        omega
      unfold pointer_default_rendering
      rw [h1616]
      rfl
  rw [format_sub_run noExc (.ptr v) (oneSpecState spec) 0
        (by rw [hsz]; omega)
        (by
          have : ((oneSpecState spec).specs.getD 0 fs0).arg_index = 0 := rfl
          rw [this]; decide)
        (by decide)]
  rw [hsz, chain_loop_succ]
  unfold chainStep
  dsimp only
  rw [hsp2]
  dsimp only
  rw [if_pos (by rfl)]
  refine ⟨?_, ?_, ?_⟩
  · unfold setSpecAt
    rw [if_neg (by decide)]
    dsimp only [noExc]
    rw [show (oneSpecState spec).segs.getD 1 "" = "" from rfl]
    rw [hrend]
    rfl
  · unfold pointer_default_rendering
    simp only [String.length, List.length_append, List.length_replicate]
    omega
  · unfold pointer_default_rendering
    have h1 : ((List.replicate (16 - (natStr 16 v).length) '0').all
        (fun c => decide (c ≠ '\x1b'))) = true := by
      rw [List.all_eq_true]
      intro c hc
      rw [List.eq_of_mem_replicate hc]
      decide
    have h2 := natDigitsAux_no_esc 16 (v + 1) v
    rw [natStr] at *
    simp only [List.all_eq_true] at h1 h2 ⊢
    exact fun c hc => by
      rcases List.mem_append.mp hc with hc | hc
      · exact h1 c hc
      · exact h2 c hc

/-- Witness for C10: the pointer `0xdeadbeef` under the all-default spec
renders as `"00000000deadbeef"`. -/
theorem C10_pointer_default_hex_witness :
    (format_sub noExc (oneSpecState fs0) 0 (.ptr 3735928559)).segs.getD 1 ""
      = pointer_default_rendering 3735928559 ∧
    pointer_default_rendering 3735928559 = "00000000deadbeef" :=
  ⟨(C10_pointer_default_hex 3735928559 fs0 (by decide) (by decide)
    (by decide) (by decide) (by decide)).1, by decide⟩

/-- The unqualified form of C10 is refuted: a raw-pointer spec with no
type code and no width, but with an explicit `+` sign flag (which the
claim does not exclude), renders the sign inside the zero padding
(fmt.cc lines 556-559 emit the sign first, and the defaulted `>`
alignment then zero-fills in front of it), and likewise an explicit `#`
puts the `0x` prefix inside the padding — neither is the claimed
full-width zero-padded hex rendering of the pointer's value. -/
theorem C10_pointer_default_hex_counterexample :
    formatString "\x7b0:+\x7d" [Value.ptr 3735928559] =
      "0000000+deadbeef" ∧
    formatString "\x7b0:+\x7d" [Value.ptr 3735928559] ≠
      pointer_default_rendering 3735928559 ∧
    formatString "\x7b0:#\x7d" [Value.ptr 3735928559] =
      "0000000xdeadbeef" ∧
    formatString "\x7b0:#\x7d" [Value.ptr 3735928559] ≠
      pointer_default_rendering 3735928559 := by decide

/-! ### Claim C6: padding behaviour of the Alignment Renderer -/

theorem repChar_length (n : Nat) (c : Char) : (repChar n c).length = n := by
  simp [repChar, String.length]

/-- Whenever padding happens, the aligned text is exactly `width` long. -/
theorem alignCore_length (s : String) (spec : format_spec) (ty : Char)
    (m : String) (hw : spec.has_width = true) (hlt : s.length < spec.width)
    (h : alignCore s spec ty = some m) : m.length = spec.width := by
  unfold alignCore at h
  rw [if_neg (by push_neg; exact ⟨by simp [hw], by omega⟩)] at h
  dsimp only at h
  split_ifs at h with h1 h2 h3 h4
  · cases h
    simp only [String.length_append, repChar_length]
    omega
  · cases h
    simp only [String.length_append, repChar_length]
    omega
  · cases h
    simp only [String.length_append, repChar_length]
    omega
  · cases h
    simp only [String.length_append, repChar_length]
    simp only [String.length, String.data_take, String.data_drop,
               List.length_take, List.length_drop]
    have : eqLeading spec ty s ≤ s.data.length := by
      simp only [String.length] at h4
      omega
    have hsl : s.length = s.data.length := rfl
    omega

/-- C6: for every well-formed spec with a width exceeding the rendered
payload's length, the padded text's length is payload length plus
`width - rendered_length` (that is, exactly `width`), every pad character
equals `fill` (the pad is `repChar _ spec.fill`), and the pad is placed
per alignment mode: `<` all pad after the payload, `>` all before, `^`
split as evenly as possible with the odd remainder on the right, and `=`
(the remaining mode) between the leading sign/base prefix and the rest;
a payload already at least `width` long gets no padding at all. -/
theorem C6_alignment_padding (s : String) (spec : format_spec) (ty : Char)
    (out : String) :
    ((spec.has_width = false ∨ spec.width ≤ s.length) →
      do_alignment s spec ty false out = some (out ++ s)) ∧
    (spec.has_width = true → s.length < spec.width →
      (effAlign spec ty = '<' →
        do_alignment s spec ty false out =
          some (out ++ (s ++ repChar (spec.width - s.length) spec.fill))) ∧
      (effAlign spec ty = '>' →
        do_alignment s spec ty false out =
          some (out ++ (repChar (spec.width - s.length) spec.fill ++ s))) ∧
      (effAlign spec ty = '^' →
        do_alignment s spec ty false out =
          some (out ++ (repChar ((spec.width - s.length) / 2) spec.fill ++ s ++
            repChar ((spec.width - s.length) / 2 + (spec.width - s.length) % 2)
              spec.fill)) ∧
        (spec.width - s.length) / 2 ≤
          (spec.width - s.length) / 2 + (spec.width - s.length) % 2 ∧
        (spec.width - s.length) / 2 +
          ((spec.width - s.length) / 2 + (spec.width - s.length) % 2) =
          spec.width - s.length) ∧
      (effAlign spec ty ≠ '<' → effAlign spec ty ≠ '>' →
        effAlign spec ty ≠ '^' → eqLeading spec ty s ≤ s.length →
        do_alignment s spec ty false out =
          some (out ++ (s.take (eqLeading spec ty s) ++
            repChar (spec.width - s.length) spec.fill ++
            s.drop (eqLeading spec ty s)))) ∧
      (∀ r, do_alignment s spec ty false out = some r →
        r.length = out.length + spec.width)) := by
  constructor
  · intro h
    unfold do_alignment
    rw [alignCore_nopad s spec ty h]
    rfl
  · intro hw hlt
    refine ⟨?_, ?_, ?_, ?_, ?_⟩
    · intro hal
      unfold do_alignment
      rw [alignCore_left s spec ty hw hlt hal]
      rfl
    · intro hal
      unfold do_alignment
      rw [alignCore_right s spec ty hw hlt hal]
      rfl
    · intro hal
      refine ⟨?_, by omega, by omega⟩
      unfold do_alignment
      rw [alignCore_center s spec ty hw hlt hal]
      rfl
    · intro h1 h2 h3 hld
      unfold do_alignment
      rw [alignCore_internal s spec ty hw hlt h1 h2 h3 hld]
      rfl
    · intro r hr
      unfold do_alignment at hr
      rcases hc : alignCore s spec ty with - | m
      · rw [hc] at hr
        cases hr
      · rw [hc] at hr
        dsimp only at hr
        cases hr
        have hm := alignCore_length s spec ty m hw hlt hc
        rw [show (if false = true then errB ++ m ++ errE else m) = m from rfl]
        simp only [String.length_append]
        omega

/-- Witness for C6: `"hi"` padded to width 5 with fill `*` under each
alignment mode. -/
theorem C6_alignment_padding_witness :
    do_alignment "hi" { fs0 with has_width := true, width := 5, fill := '*',
                                 align := '>' } 's' false "#" =
      some ("#" ++ (repChar 3 '*' ++ "hi")) ∧
    do_alignment "hi" { fs0 with has_width := true, width := 5, fill := '*',
                                 align := '^' } 's' false "" =
      some ("" ++ (repChar 1 '*' ++ "hi" ++ repChar 2 '*')) ∧
    do_alignment "hi" { fs0 with has_width := true, width := 2 } 's' false ""
      = some ("" ++ "hi") := by
  refine ⟨?_, ?_, ?_⟩
  · exact ((C6_alignment_padding "hi"
      { fs0 with has_width := true, width := 5, fill := '*', align := '>' }
      's' "#").2 (by decide) (by decide)).2.1 (by decide)
  · exact (((C6_alignment_padding "hi"
      { fs0 with has_width := true, width := 5, fill := '*', align := '^' }
      's' "").2 (by decide) (by decide)).2.2.1 (by decide)).1
  · exact (C6_alignment_padding "hi" { fs0 with has_width := true, width := 2 }
      's' "").1 (Or.inr (by decide))

/-- C2 (amended): the render-time coercion table.  A float presentation
code applied to an integer converts the value to floating point (the whole
dispatch equals a `do_numeric_format` call on the converted double) with
the error flag NOT set; an integer presentation code applied to a float
reinterprets its bit pattern as an unsigned integer, again with the error
flag NOT set (and a pointer always renders through the unsigned-integer
renderer, so an integer code on it is likewise unflagged); every remaining
mismatch falls back to the value kind's natural default code (`'u'`,
`'d'`, `'g'`) WITH the error flag set, and a set error flag is exactly
what makes the Alignment Renderer wrap the output in the error-marker
brackets. -/
theorem C2_coercion_table_amended (spec : format_spec) (v : Nat) (iv : Int)
    (db : Nat) (out : String) :
    ((spec.type = 'e' ∨ spec.type = 'E' ∨ spec.type = 'f' ∨
      spec.type = 'F' ∨ spec.type = 'g' ∨ spec.type = 'G') →
      do_format_unsigned_int v spec out =
        do_numeric_format (.d (ullToDoubleBits v)) spec spec.type false out ∧
      do_format_signed_int iv spec out =
        do_numeric_format (.d (llToDoubleBits iv)) spec spec.type false out) ∧
    ((spec.type = 'u' ∨ spec.type = 'd' ∨ spec.type = 'o' ∨
      spec.type = 'x' ∨ spec.type = 'X') →
      do_format_float db spec out =
        do_numeric_format (.u db) spec spec.type false out) ∧
    (¬ (spec.type = 'u' ∨ spec.type = 'd' ∨ spec.type = 'o' ∨
        spec.type = 'x' ∨ spec.type = 'X') →
     ¬ (spec.type = 'e' ∨ spec.type = 'E' ∨ spec.type = 'f' ∨
        spec.type = 'F' ∨ spec.type = 'g' ∨ spec.type = 'G') →
      do_format_unsigned_int v spec out =
        do_numeric_format (.u v) spec 'u' true out ∧
      do_format_signed_int iv spec out =
        do_numeric_format (.s iv) spec 'd' true out ∧
      do_format_float db spec out =
        do_numeric_format (.d db) spec 'g' true out) ∧
    (∀ (s : String) (ty : Char) (m : String), alignCore s spec ty = some m →
      do_alignment s spec ty true out = some (out ++ (errB ++ m ++ errE)) ∧
      do_alignment s spec ty false out = some (out ++ m)) := by
  refine ⟨?_, ?_, ?_, ?_⟩
  · intro h
    constructor
    · unfold do_format_unsigned_int
      rw [if_neg (by rcases h with h | h | h | h | h | h <;> rw [h] <;> decide),
          if_pos h]
    · unfold do_format_signed_int
      rw [if_neg (by rcases h with h | h | h | h | h | h <;> rw [h] <;> decide),
          if_pos h]
  · intro h
    unfold do_format_float
    rw [if_neg (by rcases h with h | h | h | h | h <;> rw [h] <;> decide),
        if_pos h]
  · intro h1 h2
    refine ⟨?_, ?_, ?_⟩
    · unfold do_format_unsigned_int
      rw [if_neg h1, if_neg h2]
    · unfold do_format_signed_int
      rw [if_neg h1, if_neg h2]
    · unfold do_format_float
      rw [if_neg h2, if_neg h1]
  · intro s ty m hm
    unfold do_alignment
    rw [hm]
    exact ⟨rfl, rfl⟩

/-- Witness for C2's amended coercion table at concrete type codes. -/
theorem C2_coercion_table_amended_witness :
    do_format_unsigned_int 7 { fs0 with type := 'f' } "" =
      do_numeric_format (.d (ullToDoubleBits 7)) { fs0 with type := 'f' }
        'f' false "" ∧
    do_format_float 4607182418800017408 { fs0 with type := 'd' } "" =
      do_numeric_format (.u 4607182418800017408) { fs0 with type := 'd' }
        'd' false "" ∧
    do_format_float 4607182418800017408 { fs0 with type := 's' } "" =
      do_numeric_format (.d 4607182418800017408) { fs0 with type := 's' }
        'g' true "" ∧
    do_alignment "z" { fs0 with type := 's' } 's' true "" =
      some ("" ++ (errB ++ "z" ++ errE)) := by
  refine ⟨?_, ?_, ?_, ?_⟩
  · exact ((C2_coercion_table_amended { fs0 with type := 'f' } 7 0 0 "").1
      (by decide)).1
  · exact (C2_coercion_table_amended { fs0 with type := 'd' } 0 0
      4607182418800017408 "").2.1 (by decide)
  · exact ((C2_coercion_table_amended { fs0 with type := 's' } 0 0
      4607182418800017408 "").2.2.1 (by decide) (by decide)).2.2
  · exact ((C2_coercion_table_amended { fs0 with type := 's' } 0 0 0 "").2.2.2
      "z" 's' "z" (by decide)).1

/-! ### Claim C4: default-index assignment -/

/-- Evolution of the scanner's auto-increment counter across one
placeholder: it advances exactly when the placeholder's resolved index
equals the counter's current value (fmt.cc lines 437-438). -/
def ctrStep (c : Nat) (e : TraceEnt) : Nat := if e.idx = c then c + 1 else c

/-- The counter after a run of placeholders. -/
def ctrAfter (c : Nat) (l : List TraceEnt) : Nat := l.foldl ctrStep c

/-- A well-formed placeholder that omitted its index. -/
def isUnindexed (e : TraceEnt) : Bool := e.src = none && e.idx ≠ i_invalid

/-- No explicitly-indexed (or `m`) placeholder collides with the counter's
current value at the moment it is scanned. -/
def traceOK : Nat → List TraceEnt → Bool
  | _, [] => true
  | c, e :: r => (e.src = none || decide (e.idx ≠ c)) && traceOK (ctrStep c e) r

/-- The resolved indices of the unindexed placeholders, in scan order. -/
def unindexedIdxs (l : List TraceEnt) : List Nat :=
  (l.filter isUnindexed).map (fun e => e.idx)

/-- What the scanner guarantees about each trace entry: a placeholder that
omitted its index resolved to the counter's value at that point, unless
its spec was ill-formed. -/
def traceGood : Nat → List TraceEnt → Prop
  | _, [] => True
  | c, e :: r => (e.src = none → e.idx = c ∨ e.idx = i_invalid) ∧
                 traceGood (ctrStep c e) r

theorem ctrAfter_snoc (c : Nat) (l : List TraceEnt) (e : TraceEnt) :
    ctrAfter c (l ++ [e]) = ctrStep (ctrAfter c l) e := by
  simp [ctrAfter, List.foldl_append]

theorem traceGood_snoc (c : Nat) (l : List TraceEnt) (e : TraceEnt)
    (hg : traceGood c l)
    (he : e.src = none → e.idx = ctrAfter c l ∨ e.idx = i_invalid) :
    traceGood c (l ++ [e]) := by
  induction l generalizing c with
  | nil => exact ⟨he, trivial⟩
  | cons x r ih =>
    exact ⟨hg.1, ih (ctrStep c x) hg.2 (by simpa [ctrAfter] using he)⟩

/-- Every modifier block leaves the argument index alone. -/
theorem psFillAlign_arg (t : PSt) :
    (psFillAlign t).sp.arg_index = t.sp.arg_index := by
  unfold psFillAlign; dsimp only; split_ifs <;> rfl

theorem psSign_arg (t : PSt) : (psSign t).sp.arg_index = t.sp.arg_index := by
  unfold psSign; split_ifs <;> rfl

theorem psAlt_arg (t : PSt) : (psAlt t).sp.arg_index = t.sp.arg_index := by
  unfold psAlt; split_ifs <;> rfl

theorem psZero_arg (t : PSt) : (psZero t).sp.arg_index = t.sp.arg_index := by
  unfold psZero; split_ifs <;> rfl

theorem psWidth_arg (t : PSt) : (psWidth t).sp.arg_index = t.sp.arg_index := by
  unfold psWidth; split_ifs <;> rfl

theorem psPrec_arg (t : PSt) : (psPrec t).sp.arg_index = t.sp.arg_index := by
  unfold psPrec; split_ifs <;> rfl

theorem psType_arg (t : PSt) : (psType t).sp.arg_index = t.sp.arg_index := by
  unfold psType; split_ifs <;> rfl

theorem parse_body_src (src : Option (Option Nat)) (t0 : PSt) :
    (parse_body src t0).src = src := by
  unfold parse_body
  dsimp only
  split
  · rfl
  · split
    · rfl
    · split <;> rfl

theorem parse_body_arg (src : Option (Option Nat)) (t0 : PSt) :
    (parse_body src t0).spec.arg_index = t0.sp.arg_index ∨
    (parse_body src t0).spec.arg_index = i_invalid := by
  unfold parse_body
  dsimp only
  split
  · exact Or.inr rfl
  · split
    · exact Or.inr rfl
    · split
      · left
        dsimp only
        rw [psType_arg, psPrec_arg, psWidth_arg, psZero_arg, psAlt_arg,
            psSign_arg, psFillAlign_arg]
      · exact Or.inr rfl

/-- The ghost `src` field reports exactly how the index was written. -/
theorem parse_subst_src (l : List Char) (d : Nat) :
    (parse_subst l d).src =
      (if isDig (peek l) then some (some (readNum l).1)
       else if peek l = 'm' then some none else none) := by
  unfold parse_subst
  dsimp only
  by_cases hdig : isDig (peek l) = true
  · rw [if_pos hdig, if_pos hdig]
    dsimp only
    split
    · rfl
    · split
      · rfl
      · split
        · rfl
        · split
          · rfl
          · split
            · rfl
            · rw [parse_body_src]
  · rw [if_neg hdig, if_neg hdig]
    by_cases hm : peek l = 'm'
    · rw [if_pos hm, if_pos hm]
      dsimp only
      split
      · rfl
      · split
        · rfl
        · split
          · rfl
          · split
            · rfl
            · split
              · rfl
              · rw [parse_body_src]
    · rw [if_neg hm, if_neg hm]
      dsimp only
      split
      · rfl
      · split
        · rfl
        · split
          · rfl
          · split
            · rfl
            · split
              · rfl
              · rw [parse_body_src]

/-- The parsed spec's argument index is the one the grammar selected
(explicit digits, the errno sentinel for `m`, or the scanner's default),
unless the spec was reset to invalid. -/
theorem parse_subst_arg (l : List Char) (d : Nat) :
    (parse_subst l d).spec.arg_index =
      (if isDig (peek l) then (readNum l).1
       else if peek l = 'm' then i_errno else d) ∨
    (parse_subst l d).spec.arg_index = i_invalid := by
  unfold parse_subst
  dsimp only
  by_cases hdig : isDig (peek l) = true
  · rw [if_pos hdig, if_pos hdig]
    dsimp only
    split
    · exact Or.inl rfl
    · split
      · exact Or.inr rfl
      · split
        · exact Or.inr rfl
        · split
          · exact Or.inl rfl
          · split
            · exact Or.inr rfl
            · exact parse_body_arg _ _
  · rw [if_neg hdig, if_neg hdig]
    by_cases hm : peek l = 'm'
    · rw [if_pos hm, if_pos hm]
      dsimp only
      split
      · exact Or.inl rfl
      · split
        · exact Or.inr rfl
        · split
          · exact Or.inr rfl
          · split
            · exact Or.inl rfl
            · split
              · exact Or.inr rfl
              · exact parse_body_arg _ _
    · rw [if_neg hm, if_neg hm]
      dsimp only
      split
      · exact Or.inl rfl
      · split
        · exact Or.inr rfl
        · split
          · exact Or.inr rfl
          · split
            · exact Or.inl rfl
            · split
              · exact Or.inr rfl
              · exact parse_body_arg _ _

/-- A placeholder that omitted its index (ghost `src = none`) resolved to
the scanner's default index, unless the spec was ill-formed. -/
theorem parse_subst_omitted (l : List Char) (d : Nat)
    (h : (parse_subst l d).src = none) :
    (parse_subst l d).spec.arg_index = d ∨
    (parse_subst l d).spec.arg_index = i_invalid := by
  rw [parse_subst_src] at h
  by_cases hdig : isDig (peek l) = true
  · rw [if_pos hdig] at h
    cases h
  · rw [if_neg hdig] at h
    by_cases hm : peek l = 'm'
    · rw [if_pos hm] at h
      cases h
    · have := parse_subst_arg l d
      rw [if_neg hdig, if_neg hm] at this
      exact this

/-- Generic preserved-invariant principle for the scan loop. -/
theorem scan_inv (P : ScanState → Prop)
    (hstep : ∀ st c rest, P st → P (scanStep st c rest).1) :
    ∀ (fuel : Nat) (st : ScanState) (l : List Char), P st →
      P (scan fuel st l) := by
  intro fuel
  induction fuel with
  | zero =>
    intro st l h
    cases l with
    | nil => exact h
    | cons c r => exact h
  | succ f ih =>
    intro st l h
    cases l with
    | nil => exact h
    | cons c r => exact ih _ _ (hstep st c r h)

/-- The counter/trace invariant: the scanner's `default_index` is exactly
the counter evolution over the trace so far, and every omitted-index
placeholder in the trace resolved to the counter's value at its point
(or to the invalid marker). -/
def ctrInv (st : ScanState) : Prop :=
  traceGood 0 st.trace ∧ st.default_index = ctrAfter 0 st.trace

theorem scanStep_ctrInv (st : ScanState) (c : Char) (rest : List Char)
    (h : ctrInv st) : ctrInv (scanStep st c rest).1 := by
  obtain ⟨hg, hd⟩ := h
  unfold scanStep
  split
  · split
    · exact ⟨hg, hd⟩
    · -- a placeholder: the trace gains one entry and the counter steps
      dsimp only
      have hgood : traceGood 0 (st.trace ++
          [⟨(parse_subst rest st.default_index).src,
            (parse_subst rest st.default_index).spec.arg_index⟩]) :=
        traceGood_snoc _ _ _ hg (fun hsrc => by
          rw [← hd]
          exact parse_subst_omitted rest st.default_index hsrc)
      have hctr : (if (parse_subst rest st.default_index).spec.arg_index =
            st.default_index then st.default_index + 1
          else st.default_index) =
          ctrAfter 0 (st.trace ++
            [⟨(parse_subst rest st.default_index).src,
              (parse_subst rest st.default_index).spec.arg_index⟩]) := by
        rw [ctrAfter_snoc, ← hd]
        rfl
      split
      · exact ⟨hgood, hctr⟩
      · split
        · exact ⟨hgood, hctr⟩
        · split
          · split
            · exact ⟨hgood, hctr⟩
            · exact ⟨hgood, hctr⟩
          · split
            · exact ⟨hgood, hctr⟩
            · exact ⟨hgood, hctr⟩
  · split
    · split
      · exact ⟨hg, hd⟩
      · exact ⟨hg, hd⟩
    · exact ⟨hg, hd⟩

/-- Each scan iteration appends at most one trace entry. -/
theorem scanStep_trace_le (st : ScanState) (c : Char) (rest : List Char) :
    (scanStep st c rest).1.trace.length ≤ st.trace.length + 1 := by
  unfold scanStep
  split
  · split
    · simp
    · dsimp only
      split
      · simp
      · split
        · simp
        · split
          · split
            · simp
            · simp
          · split
            · simp
            · simp
  · split
    · split
      · simp
      · simp
    · simp

/-- The trace is no longer than the scanned input. -/
theorem scan_trace_le :
    ∀ (fuel : Nat) (st : ScanState) (l : List Char),
      (scan fuel st l).trace.length ≤ st.trace.length + l.length := by
  intro fuel
  induction fuel with
  | zero =>
    intro st l
    cases l with
    | nil => rw [scan_nil]; omega
    | cons c r => rw [show scan 0 st (c :: r) = st from rfl]; omega
  | succ f ih =>
    intro st l
    cases l with
    | nil => rw [scan_nil]; omega
    | cons c r =>
      have h1 := ih (scanStep st c r).1 ((c :: r).drop (scanStep st c r).2)
      have h2 := scanStep_trace_le st c r
      have h3 := scanStep_pos st c r
      have h4 : ((c :: r).drop (scanStep st c r).2).length =
          (c :: r).length - (scanStep st c r).2 := by
        simp [List.length_drop]
      rw [scan_succ]
      simp only [List.length_cons] at h4 ⊢
      omega

/-- With no collisions, the unindexed placeholders take the counter's
successive values `c, c+1, …`. -/
theorem trace_range :
    ∀ (l : List TraceEnt) (c : Nat), traceGood c l → traceOK c l = true →
      c + l.length < i_errno →
      (l.filter isUnindexed).map (fun e => e.idx) =
        List.range' c ((l.filter isUnindexed).length) := by
  intro l
  induction l with
  | nil => intro c _ _ _; simp
  | cons e r ih =>
    intro c hg hok hb
    simp only [traceOK, Bool.and_eq_true] at hok
    simp only [List.length_cons] at hb
    by_cases hsrc : e.src = none
    · rcases hg.1 hsrc with hidx | hidx
      · -- well-formed unindexed placeholder: gets the counter's value
        have hvalid : e.idx ≠ i_invalid := by
          rw [hidx]
          simp only [i_invalid, i_errno, U64] at hb ⊢
          omega
        have hfu : isUnindexed e = true := by
          simp [isUnindexed, hsrc, hvalid]
        have hcs : ctrStep c e = c + 1 := by simp [ctrStep, hidx]
        rw [List.filter_cons_of_pos hfu]
        simp only [List.map_cons, List.length_cons, List.range'_succ]
        rw [hidx]
        rw [ih (c + 1) (by rw [← hcs]; exact hg.2)
            (by rw [← hcs]; exact hok.2) (by omega)]
      · -- ill-formed: contributes nothing, counter unchanged
        have hfu : isUnindexed e = false := by
          simp [isUnindexed, hidx]
        have hcs : ctrStep c e = c := by
          unfold ctrStep
          rw [if_neg]
          rw [hidx]
          simp only [i_invalid, i_errno, U64] at hb ⊢
          omega
        rw [List.filter_cons_of_neg (by simp [hfu])]
        rw [ih c (by rw [← hcs]; exact hg.2) (by rw [← hcs]; exact hok.2)
            (by omega)]
    · -- explicitly indexed (or `m`): no collision, counter unchanged
      have hne : e.idx ≠ c := by
        rcases Bool.or_eq_true _ _ |>.mp hok.1 with hh | hh
        · exact absurd (by simpa using hh) hsrc
        · simpa using hh
      have hfu : isUnindexed e = false := by
        simp [isUnindexed, hsrc]
      have hcs : ctrStep c e = c := by simp [ctrStep, hne]
      rw [List.filter_cons_of_neg (by simp [hfu])]
      rw [ih c (by rw [← hcs]; exact hg.2) (by rw [← hcs]; exact hok.2)
          (by omega)]

/-- C4 counterexample: in `format("{0}{}", 7, 8)` the template's single
unindexed placeholder is assigned argument index 1, not 0: the explicit
`{0}` matches the auto-increment counter's current value and advances it
(fmt.cc lines 437-438), so the assignment is *not* `0..N-1` regardless of
interleaving — and the call renders `"78"`, not `"77"`. -/
theorem C4_default_index_counterexample :
    (parse_format_string 2 "\x7b0\x7d\x7b\x7d".data).trace =
      [⟨some (some 0), 0⟩, ⟨none, 1⟩] ∧
    unindexedIdxs (parse_format_string 2 "\x7b0\x7d\x7b\x7d".data).trace
      = [1] ∧
    [1] ≠ List.range 1 ∧
    formatString "\x7b0\x7d\x7b\x7d" [.ll 7, .ll 8] = "78" := by
  refine ⟨by decide, by decide, by decide, by decide⟩

/-- C4 (amended): the auto-increment counter starts at 0 and advances
whenever a placeholder's resolved index equals its current value —
whether by defaulting or by an explicit index.  Hence the N unindexed
(well-formed) placeholders are assigned `0..N-1` in scan order provided
no explicitly-indexed (or `m`) placeholder's index equals the counter's
value at the moment it is scanned (`traceOK`); an explicit index equal to
the counter advances it and shifts all later defaults.  (The length bound
merely keeps the counter below the sentinel values, which any C string
satisfies.) -/
theorem C4_default_index_amended (t : List Char) (nargs : Nat)
    (hlen : t.length < i_errno)
    (hok : traceOK 0 (parse_format_string nargs t).trace = true) :
    unindexedIdxs (parse_format_string nargs t).trace =
      List.range
        (((parse_format_string nargs t).trace.filter isUnindexed).length) := by
  have htr : (parse_format_string nargs t).trace =
      (scan t.length ⟨nargs, #[], "", Array.mkArray nargs fs0, [], 0, fs0, []⟩
        t).trace := rfl
  have hinv : ctrInv (scan t.length
      ⟨nargs, #[], "", Array.mkArray nargs fs0, [], 0, fs0, []⟩ t) :=
    scan_inv ctrInv scanStep_ctrInv t.length _ t ⟨trivial, rfl⟩
  have hlen2 : (scan t.length
      ⟨nargs, #[], "", Array.mkArray nargs fs0, [], 0, fs0, []⟩ t).trace.length
      ≤ t.length := by
    have := scan_trace_le t.length
      ⟨nargs, #[], "", Array.mkArray nargs fs0, [], 0, fs0, []⟩ t
    simpa using this
  rw [htr] at hok ⊢
  rw [unindexedIdxs, List.range_eq_range']
  exact trace_range _ 0 hinv.1 hok (by omega)

/-- Witness for the amended C4: `"{1}{}{}"` has two unindexed
placeholders; the explicit `{1}` never matches the counter, so they get
indices 0 and 1. -/
theorem C4_default_index_amended_witness :
    unindexedIdxs (parse_format_string 3 "\x7b1\x7d\x7b\x7d\x7b\x7d".data).trace
      = List.range
          (((parse_format_string 3 "\x7b1\x7d\x7b\x7d\x7b\x7d".data).trace.filter
            isUnindexed).length) ∧
    unindexedIdxs (parse_format_string 3 "\x7b1\x7d\x7b\x7d\x7b\x7d".data).trace
      = [0, 1] :=
  ⟨C4_default_index_amended "\x7b1\x7d\x7b\x7d\x7b\x7d".data 3 (by decide)
    (by decide), by decide⟩

/-! ### Claim C1: totality and failure confinement -/

/-- `Array.setD` out of bounds is a no-op. -/
theorem Array_setD_oob {α : Type} (a : Array α) (j : Nat) (x : α)
    (h : a.size ≤ j) : a.setD j x = a := by
  unfold Array.setD
  rw [dif_neg (by omega)]

/-- Reading back the element just stored by `setD`. -/
theorem Array_getD_setD_same {α : Type} (a : Array α) (j : Nat) (x d : α)
    (h : j < a.size) : (a.setD j x).getD j d = x := by
  unfold Array.setD Array.getD
  rw [dif_pos h]
  rw [dif_pos (by simpa using h)]
  simp [Array.get_set_eq]

/-- `setD` leaves every other position alone. -/
theorem Array_getD_setD_ne {α : Type} (a : Array α) (j k : Nat) (x d : α)
    (h : k ≠ j) : (a.setD j x).getD k d = a.getD k d := by
  unfold Array.setD Array.getD
  by_cases hj : j < a.size
  · rw [dif_pos hj]
    by_cases hk : k < a.size
    · rw [dif_pos (by simpa using hk), dif_pos hk]
      simp [Array.get_set _ _ _ hk, Ne.symm h]
    · rw [dif_neg (by simpa using hk), dif_neg hk]
  · rw [dif_neg hj]

/-- `push` keeps the existing entries. -/
theorem Array_getD_push_lt {α : Type} (a : Array α) (e d : α) (j : Nat)
    (h : j < a.size) : (a.push e).getD j d = a.getD j d := by
  unfold Array.getD
  rw [dif_pos (by simp; omega), dif_pos h]
  exact Array.getElem_push_lt a e j h

/-- Reading the entry just pushed. -/
theorem Array_getD_push_eq {α : Type} (a : Array α) (e d : α) :
    (a.push e).getD a.size d = e := by
  unfold Array.getD
  rw [dif_pos (by simp)]
  simp [Array.getElem_push_eq]

/-- `getD` out of bounds gives the default. -/
theorem Array_getD_oob {α : Type} (a : Array α) (j : Nat) (d : α)
    (h : a.size ≤ j) : a.getD j d = d := by
  unfold Array.getD
  rw [dif_neg (by omega)]

/-- The in-place defaulting at the top of a chain iteration only fills in
presentation fields: it never moves the spec's target slot, chain link, or
argument index. -/
theorem defaultedSpec_skel (v : Value) (sp : format_spec) :
    (defaultedSpec v sp).target = sp.target ∧
    (defaultedSpec v sp).next_this_index = sp.next_this_index ∧
    (defaultedSpec v sp).arg_index = sp.arg_index := by
  unfold defaultedSpec
  cases v <;> dsimp only <;> split <;>
    first
      | exact ⟨rfl, rfl, rfl⟩
      | (split <;> exact ⟨rfl, rfl, rfl⟩)

/-- A spec-body parse that did not reset the spec to invalid consumed at
least one character (the closing brace). -/
theorem parse_body_pos (src : Option (Option Nat)) (t0 : PSt) :
    (parse_body src t0).spec.arg_index = i_invalid ∨
      1 ≤ (parse_body src t0).consumed := by
  unfold parse_body
  dsimp only
  split
  · exact Or.inl rfl
  · split
    · exact Or.inl rfl
    · split
      · exact Or.inr (Nat.le_add_left 1 _)
      · exact Or.inl rfl

/-- A substitution parse either reset the spec to invalid (every `goto
error` path) or consumed at least one character. -/
theorem parse_subst_pos (l : List Char) (d : Nat) :
    (parse_subst l d).spec.arg_index = i_invalid ∨
      1 ≤ (parse_subst l d).consumed := by
  unfold parse_subst
  dsimp only
  by_cases hdig : isDig (peek l) = true
  · rw [if_pos hdig]
    dsimp only
    split
    · exact Or.inr (Nat.le_add_left 1 _)
    · split
      · exact Or.inl rfl
      · split
        · exact Or.inl rfl
        · split
          · exact Or.inr (Nat.le_add_left 1 _)
          · split
            · exact Or.inl rfl
            · exact parse_body_pos _ _
  · rw [if_neg hdig]
    by_cases hm : peek l = 'm'
    · rw [if_pos hm]
      dsimp only
      split
      · exact Or.inr (Nat.le_add_left 1 _)
      · split
        · exact Or.inl rfl
        · split
          · exact Or.inl rfl
          · split
            · exact Or.inr (Nat.le_add_left 1 _)
            · split
              · exact Or.inl rfl
              · exact parse_body_pos _ _
    · rw [if_neg hm]
      dsimp only
      split
      · exact Or.inr (Nat.le_add_left 1 _)
      · split
        · exact Or.inl rfl
        · split
          · exact Or.inl rfl
          · split
            · exact Or.inr (Nat.le_add_left 1 _)
            · split
              · exact Or.inl rfl
              · exact parse_body_pos _ _

/-- Each scan iteration grows the segment array by at most the number of
characters it consumes (two segments are added only for a well-formed
placeholder, which spans at least two characters). -/
theorem scanStep_segs_le (st : ScanState) (c : Char) (rest : List Char) :
    (scanStep st c rest).1.segs.size ≤
      st.segs.size + (scanStep st c rest).2 := by
  unfold scanStep
  split
  · split
    · dsimp only; omega
    · dsimp only
      split
      · dsimp only; omega
      · split
        · dsimp only; omega
        · rename_i hinv _
          have hpos : 1 ≤ (parse_subst rest st.default_index).consumed := by
            rcases parse_subst_pos rest st.default_index with h | h
            · exact absurd h hinv
            · exact h
          split
          · split
            · simp only [Array.size_push]; omega
            · simp only [Array.size_push]; omega
          · split
            · simp only [Array.size_push]; omega
            · simp only [Array.size_push]; omega
  · split
    · split
      · dsimp only; omega
      · dsimp only; omega
    · dsimp only; omega

/-- The scanner never creates more segments than it consumes characters. -/
theorem scan_segs_le :
    ∀ (fuel : Nat) (st : ScanState) (l : List Char),
      (scan fuel st l).segs.size ≤ st.segs.size + l.length := by
  intro fuel
  induction fuel with
  | zero =>
    intro st l
    cases l with
    | nil => rw [scan_nil]; omega
    | cons c r => rw [show scan 0 st (c :: r) = st from rfl]; omega
  | succ f ih =>
    intro st l
    cases l with
    | nil => rw [scan_nil]; omega
    | cons c r =>
      have h1 := ih (scanStep st c r).1 ((c :: r).drop (scanStep st c r).2)
      have h2 := scanStep_segs_le st c r
      have h3 := scanStep_pos st c r
      have h5 := scanStep_le st c r
      simp only [List.length_cons] at h5
      have h4 : ((c :: r).drop (scanStep st c r).2).length =
          (c :: r).length - (scanStep st c r).2 := by
        simp [List.length_drop]
      rw [scan_succ]
      simp only [List.length_cons] at h4 ⊢
      omega

/-- The parse never creates more segments than the template has
characters, plus one for the final literal run. -/
theorem parse_segs_le (nargs : Nat) (l : List Char) :
    (parse_format_string nargs l).segs.size ≤ l.length + 1 := by
  unfold parse_format_string
  dsimp only
  have h := scan_segs_le l.length
    { nargs := nargs, segs := #[], cseg := "",
      specs := Array.mkArray nargs fs0, extras := [],
      default_index := 0, fe := fs0, trace := [] } l
  simp only [Array.size_push]
  have h0 : ((#[] : Array String)).size = 0 := rfl
  dsimp only at h
  omega

/-- Writing a spec back never touches the segment array. -/
theorem setSpecAt_segs (st : FmtState) (i : Nat) (sp : format_spec) :
    (setSpecAt st i sp).segs = st.segs := by
  unfold setSpecAt
  split <;> rfl

/-- Writing a spec back never changes the number of spec slots. -/
theorem setSpecAt_specs_size (st : FmtState) (i : Nat) (sp : format_spec) :
    (setSpecAt st i sp).specs.size = st.specs.size := by
  unfold setSpecAt
  split
  · rfl
  · simp [Array.size_setD]

/-- Writing at the errno sentinel goes to `first_errno_spec`. -/
theorem setSpecAt_of_errno (st : FmtState) (i : Nat) (sp : format_spec)
    (h : i = i_errno) :
    (setSpecAt st i sp).specs = st.specs ∧ (setSpecAt st i sp).fe = sp := by
  unfold setSpecAt
  rw [if_pos h]
  exact ⟨rfl, rfl⟩

/-- Writing at an ordinary slot goes to the spec array. -/
theorem setSpecAt_of_ne (st : FmtState) (i : Nat) (sp : format_spec)
    (h : ¬ i = i_errno) :
    (setSpecAt st i sp).specs = st.specs.setD i sp ∧
    (setSpecAt st i sp).fe = st.fe := by
  unfold setSpecAt
  rw [if_neg h]
  exact ⟨rfl, rfl⟩

/-- The text a chain iteration stores into its target segment: the
diagnostic when the try block throws (`exc i` fires), otherwise the
rendering of the value appended to the segment's current contents. -/
def chainNewSeg (exc : Nat → Option String) (v : Value) (st : FmtState)
    (i : Nat) : String :=
  let sp2 := defaultedSpec v (specAt st i)
  let st1 := setSpecAt st i sp2
  let seg := st1.segs.getD sp2.target ""
  match exc i with
  | some msg => msg
  | none =>
    match render_one v sp2 seg with
    | some s' => s'
    | none => errB ++ "[out_of_range]" ++ errE

/-- A chain iteration updates exactly one segment slot: the target of the
spec it renders. -/
theorem chainStep_segs (exc : Nat → Option String) (v : Value)
    (st : FmtState) (i : Nat) :
    (chainStep exc v st i).1.segs =
      st.segs.setD (defaultedSpec v (specAt st i)).target
        (chainNewSeg exc v st i) := by
  unfold chainNewSeg
  dsimp only
  show (setSpecAt st i (defaultedSpec v (specAt st i))).segs.setD _ _ = _
  rw [setSpecAt_segs]

/-- The segment slots that a run with rendering exceptions `exc` may hold
different text in than the clean run: the targets, as laid down by the
parse state `P`, of every spec slot at which the oracle fires, plus the
errno spec's target if rendering it fires. -/
def excTargets (exc : Nat → Option String) (P : FmtState) : List Nat :=
  ((List.range P.specs.size).filter (fun k => (exc k).isSome)).map
    (fun k => (P.specs.getD k fs0).target) ++
  (if (exc i_errno).isSome then [P.fe.target] else [])

/-- Lockstep relation between the exception run (`st1`) and the clean run
(`st2`), relative to the common parse result `P`: the spec state stays
equal in the two runs, targets never move from where the parse put them,
the segment count never changes, and the two runs' segments agree
everywhere outside the soiled set `S`. -/
structure RelP (P : FmtState) (S : List Nat) (st1 st2 : FmtState) :
    Prop where
  specs_eq : st1.specs = st2.specs
  fe_eq : st1.fe = st2.fe
  size1 : st1.segs.size = P.segs.size
  size2 : st2.segs.size = P.segs.size
  spsize : st1.specs.size = P.specs.size
  tgt : ∀ k, (st1.specs.getD k fs0).target = (P.specs.getD k fs0).target
  fetgt : st1.fe.target = P.fe.target
  agree : ∀ j, j ∉ S → st1.segs.getD j "" = st2.segs.getD j ""

theorem relP_refl (P : FmtState) (S : List Nat) : RelP P S P P :=
  ⟨rfl, rfl, rfl, rfl, rfl, fun _ => rfl, rfl, fun _ _ => rfl⟩

/-- Writing the same slot in two agreeing arrays preserves agreement off
`S`, provided the slot is soiled, or the written strings coincide, or the
write is out of bounds on both sides. -/
theorem setD_agree (S : List Nat) (a1 a2 : Array String) (T : Nat)
    (n1 n2 : String) (hsz : a1.size = a2.size)
    (hag : ∀ j, j ∉ S → a1.getD j "" = a2.getD j "")
    (hcase : T ∈ S ∨ n1 = n2 ∨ a1.size ≤ T) :
    ∀ j, j ∉ S → (a1.setD T n1).getD j "" = (a2.setD T n2).getD j "" := by
  intro j hj
  rcases hcase with hT | hn | hoob
  · have hne : j ≠ T := fun he => hj (he ▸ hT)
    rw [Array_getD_setD_ne _ _ _ _ _ hne, Array_getD_setD_ne _ _ _ _ _ hne]
    exact hag j hj
  · subst hn
    by_cases hjT : j = T
    · subst hjT
      by_cases hlt : j < a1.size
      · rw [Array_getD_setD_same _ _ _ _ hlt,
            Array_getD_setD_same _ _ _ _ (by omega)]
      · rw [Array_setD_oob _ _ _ (by omega), Array_setD_oob _ _ _ (by omega)]
        exact hag j hj
    · rw [Array_getD_setD_ne _ _ _ _ _ hjT, Array_getD_setD_ne _ _ _ _ _ hjT]
      exact hag j hj
  · rw [Array_setD_oob _ _ _ hoob, Array_setD_oob _ _ _ (by omega)]
    exact hag j hj

/-- One chain iteration keeps the two runs in lockstep: the spec state
stays equal, the written slot is either soiled, written identically, or
out of bounds on both sides, and both runs follow the same link. -/
theorem chainStep_rel (exc : Nat → Option String) (v : Value)
    (P : FmtState) (hsz : P.segs.size ≤ i_invalid) (s1 s2 : FmtState)
    (i : Nat) (h : RelP P (excTargets exc P) s1 s2) :
    RelP P (excTargets exc P) (chainStep exc v s1 i).1
        (chainStep noExc v s2 i).1 ∧
      (chainStep exc v s1 i).2 = (chainStep noExc v s2 i).2 := by
  have hsp : specAt s2 i = specAt s1 i := by
    unfold specAt
    rw [h.specs_eq, h.fe_eq]
  have hskel := defaultedSpec_skel v (specAt s1 i)
  have hT : (defaultedSpec v (specAt s1 i)).target =
      (if i = i_errno then P.fe.target
       else (P.specs.getD i fs0).target) := by
    rw [hskel.1]
    unfold specAt
    by_cases hi : i = i_errno
    · rw [if_pos hi, if_pos hi, h.fetgt]
    · rw [if_neg hi, if_neg hi, h.tgt]
  have hnext : (chainStep exc v s1 i).2 = (chainStep noExc v s2 i).2 := by
    show (defaultedSpec v (specAt s1 i)).next_this_index =
      (defaultedSpec v (specAt s2 i)).next_this_index
    rw [hsp]
  have hspecs1 : (chainStep exc v s1 i).1.specs =
      (setSpecAt s1 i (defaultedSpec v (specAt s1 i))).specs := rfl
  have hfe1 : (chainStep exc v s1 i).1.fe =
      (setSpecAt s1 i (defaultedSpec v (specAt s1 i))).fe := rfl
  have hspecs2 : (chainStep noExc v s2 i).1.specs =
      (setSpecAt s2 i (defaultedSpec v (specAt s2 i))).specs := rfl
  have hfe2 : (chainStep noExc v s2 i).1.fe =
      (setSpecAt s2 i (defaultedSpec v (specAt s2 i))).fe := rfl
  have hcase : (defaultedSpec v (specAt s1 i)).target ∈ excTargets exc P ∨
      chainNewSeg exc v s1 i = chainNewSeg noExc v s2 i ∨
      s1.segs.size ≤ (defaultedSpec v (specAt s1 i)).target := by
    cases hx : exc i with
    | some msg =>
      by_cases hi : i = i_errno
      · refine Or.inl ?_
        rw [hT, if_pos hi]
        unfold excTargets
        refine List.mem_append.mpr (Or.inr ?_)
        rw [hi] at hx
        rw [if_pos (by rw [hx]; rfl)]
        exact List.mem_singleton.mpr rfl
      · by_cases hile : i < P.specs.size
        · refine Or.inl ?_
          rw [hT, if_neg hi]
          unfold excTargets
          refine List.mem_append.mpr (Or.inl ?_)
          refine List.mem_map.mpr ⟨i, ?_, rfl⟩
          refine List.mem_filter.mpr ⟨List.mem_range.mpr hile, ?_⟩
          rw [hx]; rfl
        · refine Or.inr (Or.inr ?_)
          rw [hT, if_neg hi]
          rw [Array_getD_oob _ _ _ (by omega)]
          show s1.segs.size ≤ i_invalid
          rw [h.size1]
          exact hsz
    | none =>
      by_cases hTS : (defaultedSpec v (specAt s1 i)).target ∈
          excTargets exc P
      · exact Or.inl hTS
      · refine Or.inr (Or.inl ?_)
        have hseg := h.agree _ hTS
        unfold chainNewSeg
        dsimp only
        rw [hx, hsp, setSpecAt_segs, setSpecAt_segs, hseg]
        rfl
  refine ⟨⟨?_, ?_, ?_, ?_, ?_, ?_, ?_, ?_⟩, hnext⟩
  · rw [hspecs1, hspecs2, hsp]
    unfold setSpecAt
    split
    · dsimp only
      exact h.specs_eq
    · dsimp only
      rw [h.specs_eq]
  · rw [hfe1, hfe2, hsp]
    unfold setSpecAt
    split
    · rfl
    · dsimp only
      exact h.fe_eq
  · rw [chainStep_segs, Array.size_setD]
    exact h.size1
  · rw [chainStep_segs, Array.size_setD]
    exact h.size2
  · show (setSpecAt s1 i _).specs.size = _
    rw [setSpecAt_specs_size]
    exact h.spsize
  · intro k
    rw [hspecs1]
    by_cases hi : i = i_errno
    · rw [(setSpecAt_of_errno s1 i _ hi).1]
      exact h.tgt k
    · rw [(setSpecAt_of_ne s1 i _ hi).1]
      by_cases hk : k = i
      · subst hk
        by_cases hlt : k < s1.specs.size
        · rw [Array_getD_setD_same _ _ _ _ hlt]
          rw [hskel.1]
          unfold specAt
          rw [if_neg hi]
          exact h.tgt k
        · rw [Array_setD_oob _ _ _ (by omega)]
          exact h.tgt k
      · rw [Array_getD_setD_ne _ _ _ _ _ hk]
        exact h.tgt k
  · rw [hfe1]
    by_cases hi : i = i_errno
    · rw [(setSpecAt_of_errno s1 i _ hi).2]
      rw [hskel.1]
      unfold specAt
      rw [if_pos hi]
      exact h.fetgt
    · rw [(setSpecAt_of_ne s1 i _ hi).2]
      exact h.fetgt
  · rw [chainStep_segs, chainStep_segs, hsp]
    exact setD_agree _ _ _ _ _ _ (by rw [h.size1, h.size2]) h.agree hcase

/-- The whole chain walk keeps the two runs in lockstep. -/
theorem chain_loop_rel (exc : Nat → Option String) (v : Value)
    (P : FmtState) (hsz : P.segs.size ≤ i_invalid) :
    ∀ (fuel : Nat) (s1 s2 : FmtState) (i : Nat),
      RelP P (excTargets exc P) s1 s2 →
      RelP P (excTargets exc P) (chain_loop exc v fuel s1 i)
        (chain_loop noExc v fuel s2 i) := by
  intro fuel
  induction fuel with
  | zero => intro s1 s2 i h; exact h
  | succ f ih =>
    intro s1 s2 i h
    obtain ⟨hrel, hnx⟩ := chainStep_rel exc v P hsz s1 s2 i h
    rw [chain_loop_succ, chain_loop_succ, ← hnx]
    by_cases hinv : (chainStep exc v s1 i).2 = i_invalid
    · rw [if_pos hinv, if_pos hinv]
      exact hrel
    · rw [if_neg hinv, if_neg hinv]
      rw [hnx]
      exact ih _ _ _ hrel

/-- `format_sub` keeps the two runs in lockstep: both runs take the same
guard branches and then walk the same chain. -/
theorem format_sub_rel (exc : Nat → Option String) (P : FmtState)
    (hsz : P.segs.size ≤ i_invalid) (s1 s2 : FmtState) (i : Nat)
    (v : Value) (h : RelP P (excTargets exc P) s1 s2) :
    RelP P (excTargets exc P) (format_sub exc s1 i v)
      (format_sub noExc s2 i v) := by
  unfold format_sub
  dsimp only
  rw [show s2.specs.size = s1.specs.size from by rw [h.specs_eq]]
  rw [show specAt s2 i = specAt s1 i from by
    unfold specAt; rw [h.specs_eq, h.fe_eq]]
  split
  · exact h
  · split
    · exact h
    · exact chain_loop_rel exc v P hsz _ s1 s2 i h

/-- The constructor's errno rendering keeps the two runs in lockstep. -/
theorem renderErrno_rel (exc : Nat → Option String) (P : FmtState)
    (hsz : P.segs.size ≤ i_invalid) (emsg : String) (s1 s2 : FmtState)
    (h : RelP P (excTargets exc P) s1 s2) :
    RelP P (excTargets exc P) (renderErrno exc emsg s1)
      (renderErrno noExc emsg s2) := by
  unfold renderErrno
  rw [show s2.fe = s1.fe from (h.fe_eq).symm]
  split
  · exact format_sub_rel exc P hsz s1 s2 i_errno (.cstr emsg) h
  · exact h

/-- Rendering any sequence of indexed arguments keeps the two runs in
lockstep. -/
theorem renderArgs_rel (exc : Nat → Option String) (P : FmtState)
    (hsz : P.segs.size ≤ i_invalid) :
    ∀ (l : List (Nat × Value)) (s1 s2 : FmtState),
      RelP P (excTargets exc P) s1 s2 →
      RelP P (excTargets exc P)
        (l.foldl (fun st iv => format_sub exc st iv.1 iv.2) s1)
        (l.foldl (fun st iv => format_sub noExc st iv.1 iv.2) s2) := by
  intro l
  induction l with
  | nil => intro s1 s2 h; exact h
  | cons a rest ih =>
    intro s1 s2 h
    exact ih _ _ (format_sub_rel exc P hsz s1 s2 a.1 a.2 h)

/-- The full engine run keeps the exception run and the clean run in
lockstep relative to their common parse. -/
theorem runState_rel (exc : Nat → Option String) (t : List Char)
    (args : List Value) (emsg : String)
    (hsz : (parse_format_string args.length t).segs.size ≤ i_invalid) :
    RelP (parse_format_string args.length t)
      (excTargets exc (parse_format_string args.length t))
      (runState exc t args emsg) (runState noExc t args emsg) := by
  unfold runState renderArgs
  exact renderArgs_rel exc _ hsz args.enum _ _
    (renderErrno_rel exc _ hsz emsg _ _ (relP_refl _ _))

/-- `Array.getD` through the underlying list. -/
theorem Array_getD_toList (l : List String) (j : Nat) (d : String) :
    (Array.mk l).getD j d = l.getD j d := by
  unfold Array.getD
  by_cases h : j < l.length
  · rw [dif_pos (by simpa using h)]
    simp [List.getD_eq_getElem?_getD, List.getElem?_eq_getElem h]
  · rw [dif_neg (by simpa using h)]
    rw [List.getD_eq_getElem?_getD, List.getElem?_eq_none (by omega)]
    rfl

/-- Reading a list back out of itself position by position. -/
theorem map_getD_range (l : List String) :
    (List.range l.length).map (fun j => l.getD j "") = l := by
  induction l with
  | nil => rfl
  | cons a t ih =>
    rw [List.length_cons, List.range_succ_eq_map, List.map_cons,
        List.map_map]
    have h2 : List.map ((fun j => (a :: t).getD j "") ∘ Nat.succ)
        (List.range t.length) = List.map (fun j => t.getD j "")
        (List.range t.length) :=
      List.map_congr_left (fun x _ => rfl)
    rw [h2, ih]
    rfl

/-- Folding concatenation over an array is concatenating its entries in
index order. -/
theorem foldl_concat_getD (a : Array String) :
    a.foldl (fun x y => x ++ y) "" =
      ((List.range a.size).map (fun j => a.getD j "")).foldl
        (fun x y => x ++ y) "" := by
  obtain ⟨l⟩ := a
  rw [show (Array.mk l).foldl (fun x y => x ++ y) "" =
      l.foldl (fun x y => x ++ y) "" from List.foldl_toArray _ _ _]
  rw [show (Array.mk l).size = l.length from rfl]
  rw [show (List.range l.length).map (fun j => (Array.mk l).getD j "") =
      (List.range l.length).map (fun j => l.getD j "") from
    List.map_congr_left (fun x _ => Array_getD_toList l x ""), map_getD_range]

/-- C1: for every template, argument list and pattern of rendering
exceptions, the format call completes and returns exactly the
concatenation, in order, of all its segments (every segment contributes);
the exception run has the same segments as the exception-free run
everywhere outside the targets of the slots whose rendering threw, so
each local rendering failure is confined to the single segment it
concerns; and an ill-formed or missing-argument placeholder changes
nothing but the pending literal text of its own segment (the segment,
spec, extras and errno-spec state of the scanner are untouched). -/
theorem C1_format_total_and_failures_confined (t : List Char)
    (args : List Value) (emsg : String) (exc : Nat → Option String)
    (hlen : t.length < i_errno) :
    (formatWith exc t args emsg =
      ((List.range (runState exc t args emsg).segs.size).map
        (fun j => (runState exc t args emsg).segs.getD j "")).foldl
        (fun x y => x ++ y) "") ∧
    (runState exc t args emsg).segs.size =
      (runState noExc t args emsg).segs.size ∧
    (∀ j, j ∉ excTargets exc (parse_format_string args.length t) →
      (runState exc t args emsg).segs.getD j "" =
        (runState noExc t args emsg).segs.getD j "") ∧
    (∀ (st : ScanState) (rest : List Char), peek rest ≠ '{' →
      ((parse_subst rest st.default_index).spec.arg_index = i_invalid ∨
       ((parse_subst rest st.default_index).spec.arg_index ≥
          st.specs.size ∧
        (parse_subst rest st.default_index).spec.arg_index ≠ i_errno)) →
      (scanStep st '{' rest).1.segs = st.segs ∧
      (scanStep st '{' rest).1.specs = st.specs ∧
      (scanStep st '{' rest).1.extras = st.extras ∧
      (scanStep st '{' rest).1.fe = st.fe) := by
  have hP : (parse_format_string args.length t).segs.size ≤ i_invalid := by
    have h := parse_segs_le args.length t
    simp only [i_invalid, i_errno, U64] at hlen ⊢
    omega
  have hrel := runState_rel exc t args emsg hP
  refine ⟨foldl_concat_getD _, ?_, hrel.agree, ?_⟩
  · rw [hrel.size1, hrel.size2]
  · intro st rest hpk hbad
    unfold scanStep
    rw [if_pos rfl, if_neg hpk]
    dsimp only
    by_cases hinv :
        (parse_subst rest st.default_index).spec.arg_index = i_invalid
    · rw [if_pos hinv]
      exact ⟨rfl, rfl, rfl, rfl⟩
    · have hb := hbad.resolve_left hinv
      rw [if_neg hinv, if_pos hb]
      exact ⟨rfl, rfl, rfl, rfl⟩

/-- Witness for C1: the template `"{0}"` with one argument, whose
rendering throws. -/
theorem C1_format_total_and_failures_confined_witness :
    "\x7b0\x7d".data.length < i_errno ∧
    (runState (fun k => if k = 0 then some "B" else none) "\x7b0\x7d".data
        [Value.ll 5] "").segs.size =
      (runState noExc "\x7b0\x7d".data [Value.ll 5] "").segs.size :=
  ⟨by decide,
   (C1_format_total_and_failures_confined "\x7b0\x7d".data [Value.ll 5] ""
      (fun k => if k = 0 then some "B" else none) (by decide)).2.1⟩

/-! ### Claim C7: chain invariants -/

theorem psFillAlign_next (t : PSt) :
    (psFillAlign t).sp.next_this_index = t.sp.next_this_index := by
  unfold psFillAlign; dsimp only; split_ifs <;> rfl

theorem psSign_next (t : PSt) :
    (psSign t).sp.next_this_index = t.sp.next_this_index := by
  unfold psSign; split_ifs <;> rfl

theorem psAlt_next (t : PSt) :
    (psAlt t).sp.next_this_index = t.sp.next_this_index := by
  unfold psAlt; split_ifs <;> rfl

theorem psZero_next (t : PSt) :
    (psZero t).sp.next_this_index = t.sp.next_this_index := by
  unfold psZero; split_ifs <;> rfl

theorem psWidth_next (t : PSt) :
    (psWidth t).sp.next_this_index = t.sp.next_this_index := by
  unfold psWidth; split_ifs <;> rfl

theorem psPrec_next (t : PSt) :
    (psPrec t).sp.next_this_index = t.sp.next_this_index := by
  unfold psPrec; split_ifs <;> rfl

theorem psType_next (t : PSt) :
    (psType t).sp.next_this_index = t.sp.next_this_index := by
  unfold psType; split_ifs <;> rfl

theorem parse_body_next (src : Option (Option Nat)) (t0 : PSt) :
    (parse_body src t0).spec.next_this_index = t0.sp.next_this_index ∨
    (parse_body src t0).spec.next_this_index = i_invalid := by
  unfold parse_body
  dsimp only
  split
  · exact Or.inr rfl
  · split
    · exact Or.inr rfl
    · split
      · left
        dsimp only
        rw [psType_next, psPrec_next, psWidth_next, psZero_next, psAlt_next,
            psSign_next, psFillAlign_next]
      · exact Or.inr rfl

/-- A freshly parsed spec never carries a chain link: `next_this_index`
comes out of `parse_subst` as the invalid sentinel (the constructor
default, which no grammar block touches). -/
theorem parse_subst_next (l : List Char) (d : Nat) :
    (parse_subst l d).spec.next_this_index = i_invalid := by
  unfold parse_subst
  dsimp only
  have hbody : ∀ (src : Option (Option Nat)) (t0 : PSt),
      t0.sp.next_this_index = i_invalid →
      (parse_body src t0).spec.next_this_index = i_invalid := by
    intro src t0 h0
    rcases parse_body_next src t0 with h | h
    · rw [h, h0]
    · exact h
  by_cases hdig : isDig (peek l) = true
  · rw [if_pos hdig]
    dsimp only
    split
    · rfl
    · split
      · rfl
      · split
        · rfl
        · split
          · rfl
          · split
            · rfl
            · exact hbody _ _ rfl
  · rw [if_neg hdig]
    by_cases hm : peek l = 'm'
    · rw [if_pos hm]
      dsimp only
      split
      · rfl
      · split
        · rfl
        · split
          · rfl
          · split
            · rfl
            · split
              · rfl
              · exact hbody _ _ rfl
    · rw [if_neg hm]
      dsimp only
      split
      · rfl
      · split
        · rfl
        · split
          · rfl
          · split
            · rfl
            · split
              · rfl
              · exact hbody _ _ rfl

/-- `modify` leaves every other position alone. -/
theorem Array_getD_modify_ne {α : Type} (a : Array α) (m : Nat)
    (f : α → α) (j : Nat) (d : α) (h : j ≠ m) :
    (a.modify m f).getD j d = a.getD j d := by
  unfold Array.getD
  have hs : (a.modify m f).size = a.size := Array.size_modify a m f
  by_cases hj : j < a.size
  · rw [dif_pos (Nat.lt_of_lt_of_eq hj hs.symm), dif_pos hj]
    exact Array.getElem_modify_of_ne (Ne.symm h) f
      (Nat.lt_of_lt_of_eq hj hs.symm)
  · rw [dif_neg (fun hc => hj (Nat.lt_of_lt_of_eq hc hs)), dif_neg hj]

/-- Reading back the position `modify` rewrote. -/
theorem Array_getD_modify_same {α : Type} (a : Array α) (m : Nat)
    (f : α → α) (d : α) (h : m < a.size) :
    (a.modify m f).getD m d = f (a.getD m d) := by
  unfold Array.getD
  have hs : (a.modify m f).size = a.size := Array.size_modify a m f
  rw [dif_pos (Nat.lt_of_lt_of_eq h hs.symm), dif_pos h]
  have hg := Array.getElem_modify (Nat.lt_of_lt_of_eq h hs.symm)
  rw [if_pos rfl] at hg
  exact hg

/-- The `next_this_index` link out of slot `j` of a spec array. -/
def nxtA (sp : Array format_spec) (j : Nat) : Nat :=
  (sp.getD j fs0).next_this_index

/-- The `arg_index` label of slot `j` of a spec array. -/
def labA (sp : Array format_spec) (j : Nat) : Nat :=
  (sp.getD j fs0).arg_index

/-- The `target` segment slot of slot `j` of a spec array. -/
def tgtA (sp : Array format_spec) (j : Nat) : Nat :=
  (sp.getD j fs0).target

/-- The slots visited by walking `next_this_index` links from `i`, with
explicit fuel (the visit order of the chain loop of `format_sub`). -/
def chainList (sp : Array format_spec) : Nat → Nat → List Nat
  | 0, _ => []
  | fuel + 1, i =>
    i :: (if nxtA sp i = i_invalid then [] else
      chainList sp fuel (nxtA sp i))

/-- Chain links only ever point forward (to strictly larger slot indices
inside the array): the property that makes every chain acyclic. -/
def Mono (sp : Array format_spec) : Prop :=
  ∀ j, nxtA sp j = i_invalid ∨ (j < nxtA sp j ∧ nxtA sp j < sp.size)

theorem chainList_zero (sp : Array format_spec) (i : Nat) :
    chainList sp 0 i = [] := rfl

theorem chainList_succ (sp : Array format_spec) (f i : Nat) :
    chainList sp (f + 1) i =
      i :: (if nxtA sp i = i_invalid then [] else
        chainList sp f (nxtA sp i)) := rfl

/-- Everything a forward-linked chain visits lies at or beyond its start,
and (beyond the start) inside the array. -/
theorem chainList_mem_ge (sp : Array format_spec) (hm : Mono sp) :
    ∀ (f i x : Nat), x ∈ chainList sp f i →
      i ≤ x ∧ (x = i ∨ x < sp.size) := by
  intro f
  induction f with
  | zero => intro i x hx; cases hx
  | succ g ih =>
    intro i x hx
    rw [chainList_succ] at hx
    rcases List.mem_cons.mp hx with h | h
    · exact ⟨le_of_eq h.symm, Or.inl h⟩
    · by_cases hinv : nxtA sp i = i_invalid
      · rw [if_pos hinv] at h
        cases h
      · rw [if_neg hinv] at h
        rcases hm i with hc | ⟨h1, h2⟩
        · exact absurd hc hinv
        · obtain ⟨ha, hb⟩ := ih (nxtA sp i) x h
          refine ⟨le_trans (le_of_lt h1) ha, Or.inr ?_⟩
          rcases hb with he | hlt
          · rw [he]; exact h2
          · exact hlt

/-- A forward-linked chain never revisits a slot. -/
theorem chainList_nodup (sp : Array format_spec) (hm : Mono sp) :
    ∀ (f i : Nat), (chainList sp f i).Nodup := by
  intro f
  induction f with
  | zero => intro i; exact List.nodup_nil
  | succ g ih =>
    intro i
    rw [chainList_succ]
    by_cases hinv : nxtA sp i = i_invalid
    · rw [if_pos hinv]
      exact List.nodup_cons.mpr ⟨List.not_mem_nil i, List.nodup_nil⟩
    · rw [if_neg hinv]
      refine List.nodup_cons.mpr ⟨?_, ih _⟩
      intro hmem
      have := (chainList_mem_ge sp hm g (nxtA sp i) i hmem).1
      rcases hm i with hc | ⟨h1, _⟩
      · exact hinv hc
      · omega

/-- With enough fuel to cross the array once, the visit list does not
depend on the fuel. -/
theorem chainList_fuel_irrel (sp : Array format_spec) (hm : Mono sp) :
    ∀ (f g i : Nat), i < sp.size → sp.size ≤ f + i → sp.size ≤ g + i →
      chainList sp f i = chainList sp g i := by
  intro f
  induction f with
  | zero => intro g i h1 h2 _; omega
  | succ f2 ih =>
    intro g i h1 h2 h3
    cases g with
    | zero => omega
    | succ g2 =>
      rw [chainList_succ, chainList_succ]
      by_cases hinv : nxtA sp i = i_invalid
      · rw [if_pos hinv, if_pos hinv]
      · rw [if_neg hinv, if_neg hinv]
        rcases hm i with hc | ⟨ha, hb⟩
        · exact absurd hc hinv
        · rw [ih g2 (nxtA sp i) hb (by omega) (by omega)]

/-- When links preserve the `arg_index` label, so does the whole chain. -/
theorem chainList_label (sp : Array format_spec) (hm : Mono sp)
    (hl : ∀ j, nxtA sp j ≠ i_invalid → labA sp (nxtA sp j) = labA sp j) :
    ∀ (f i x : Nat), x ∈ chainList sp f i → labA sp x = labA sp i := by
  intro f
  induction f with
  | zero => intro i x hx; cases hx
  | succ g ih =>
    intro i x hx
    rw [chainList_succ] at hx
    rcases List.mem_cons.mp hx with h | h
    · rw [h]
    · by_cases hinv : nxtA sp i = i_invalid
      · rw [if_pos hinv] at h; cases h
      · rw [if_neg hinv] at h
        rw [ih _ _ h, hl i hinv]

/-- With enough fuel, `walkEnd` stops at a slot with no outgoing link,
and that slot is on the chain it walked. -/
theorem walkEnd_spec (sp : Array format_spec) (hm : Mono sp) :
    ∀ (f i : Nat), i < sp.size → sp.size ≤ f + i →
      nxtA sp (walkEnd sp f i) = i_invalid ∧
      walkEnd sp f i ∈ chainList sp f i := by
  intro f
  induction f with
  | zero => intro i h1 h2; omega
  | succ g ih =>
    intro i h1 h2
    rw [show walkEnd sp (g + 1) i =
      (if nxtA sp i = i_invalid then i else walkEnd sp g (nxtA sp i))
      from rfl]
    by_cases hinv : nxtA sp i = i_invalid
    · rw [if_pos hinv]
      refine ⟨hinv, ?_⟩
      rw [chainList_succ]
      exact List.mem_cons_self i _
    · rw [if_neg hinv]
      rcases hm i with hc | ⟨ha, hb⟩
      · exact absurd hc hinv
      · obtain ⟨hx, hy⟩ := ih (nxtA sp i) hb (by omega)
        refine ⟨hx, ?_⟩
        rw [chainList_succ, if_neg hinv]
        exact List.mem_cons_of_mem i hy

theorem nxtA_push_lt (sp : Array format_spec) (e : format_spec) (j : Nat)
    (h : j < sp.size) : nxtA (sp.push e) j = nxtA sp j := by
  unfold nxtA; rw [Array_getD_push_lt _ _ _ _ h]

theorem labA_push_lt (sp : Array format_spec) (e : format_spec) (j : Nat)
    (h : j < sp.size) : labA (sp.push e) j = labA sp j := by
  unfold labA; rw [Array_getD_push_lt _ _ _ _ h]

theorem tgtA_push_lt (sp : Array format_spec) (e : format_spec) (j : Nat)
    (h : j < sp.size) : tgtA (sp.push e) j = tgtA sp j := by
  unfold tgtA; rw [Array_getD_push_lt _ _ _ _ h]

theorem nxtA_push_eq (sp : Array format_spec) (e : format_spec) :
    nxtA (sp.push e) sp.size = e.next_this_index := by
  unfold nxtA; rw [Array_getD_push_eq]

theorem labA_push_eq (sp : Array format_spec) (e : format_spec) :
    labA (sp.push e) sp.size = e.arg_index := by
  unfold labA; rw [Array_getD_push_eq]

theorem tgtA_push_eq (sp : Array format_spec) (e : format_spec) :
    tgtA (sp.push e) sp.size = e.target := by
  unfold tgtA; rw [Array_getD_push_eq]

theorem nxtA_oob (sp : Array format_spec) (j : Nat) (h : sp.size ≤ j) :
    nxtA sp j = i_invalid := by
  unfold nxtA; rw [Array_getD_oob _ _ _ h]; rfl

theorem labA_oob (sp : Array format_spec) (j : Nat) (h : sp.size ≤ j) :
    labA sp j = i_invalid := by
  unfold labA; rw [Array_getD_oob _ _ _ h]; rfl

/-- Appending a slot does not disturb any chain rooted inside the array. -/
theorem chainList_push (sp : Array format_spec) (e : format_spec)
    (hm : Mono sp) :
    ∀ (f i : Nat), i < sp.size →
      chainList (sp.push e) f i = chainList sp f i := by
  intro f
  induction f with
  | zero => intro i h; rfl
  | succ g ih =>
    intro i h
    rw [chainList_succ, chainList_succ, nxtA_push_lt sp e i h]
    by_cases hinv : nxtA sp i = i_invalid
    · rw [if_pos hinv, if_pos hinv]
    · rw [if_neg hinv, if_neg hinv]
      rcases hm i with hc | ⟨ha, hb⟩
      · exact absurd hc hinv
      · rw [ih _ hb]

/-- Appending a slot with no outgoing link preserves forward linking. -/
theorem Mono_push (sp : Array format_spec) (e : format_spec)
    (hm : Mono sp) (he : e.next_this_index = i_invalid) :
    Mono (sp.push e) := by
  intro j
  by_cases h1 : j < sp.size
  · rw [nxtA_push_lt sp e j h1]
    rcases hm j with h | ⟨ha, hb⟩
    · exact Or.inl h
    · refine Or.inr ⟨ha, ?_⟩
      rw [Array.size_push]
      omega
  · by_cases h2 : j = sp.size
    · subst h2
      rw [nxtA_push_eq]
      exact Or.inl he
    · rw [nxtA_oob _ _ (by rw [Array.size_push]; omega)]
      exact Or.inl rfl

/-- Bounded variant of `chainList_mem_ge`: when every link points below
`B`, a chain rooted below `B` stays below `B`. -/
theorem chainList_mem_ge_b (sp : Array format_spec) (B : Nat)
    (hm : ∀ j, nxtA sp j = i_invalid ∨
      (j < nxtA sp j ∧ nxtA sp j < B)) :
    ∀ (f i x : Nat), x ∈ chainList sp f i →
      i ≤ x ∧ (x = i ∨ x < B) := by
  intro f
  induction f with
  | zero => intro i x hx; cases hx
  | succ g ih =>
    intro i x hx
    rw [chainList_succ] at hx
    rcases List.mem_cons.mp hx with h | h
    · exact ⟨le_of_eq h.symm, Or.inl h⟩
    · by_cases hinv : nxtA sp i = i_invalid
      · rw [if_pos hinv] at h
        cases h
      · rw [if_neg hinv] at h
        rcases hm i with hc | ⟨h1, h2⟩
        · exact absurd hc hinv
        · obtain ⟨ha, hb⟩ := ih (nxtA sp i) x h
          refine ⟨le_trans (le_of_lt h1) ha, Or.inr ?_⟩
          rcases hb with he | hlt
          · rw [he]; exact h2
          · exact hlt

/-- The heart of the `extras` linking step: rewiring the end `z` of one
chain to point at the freshly appended slot `S` appends exactly `[S]` to
every chain that contained `z` and leaves every other chain untouched. -/
theorem chainList_ext (spP sp' : Array format_spec) (S z : Nat)
    (hmono : ∀ j, nxtA spP j = i_invalid ∨
      (j < nxtA spP j ∧ nxtA spP j < S))
    (hz : z < S) (hzinv : nxtA spP z = i_invalid)
    (hSnxt : nxtA spP S = i_invalid) (hne : ¬ S = i_invalid)
    (hupd : ∀ j, nxtA sp' j = if j = z then S else nxtA spP j) :
    ∀ (f i : Nat), i < S → S - i < f →
      chainList sp' f i =
        chainList spP f i ++
          (if z ∈ chainList spP f i then [S] else []) := by
  intro f
  induction f with
  | zero => intro i h1 h2; omega
  | succ g ih =>
    intro i h1 h2
    by_cases hiz : i = z
    · subst hiz
      cases g with
      | zero => omega
      | succ g2 =>
        have hL : chainList sp' (g2 + 1 + 1) i =
            i :: chainList sp' (g2 + 1) S := by
          rw [chainList_succ, hupd i, if_pos rfl, if_neg hne]
        have hL2 : chainList sp' (g2 + 1) S = [S] := by
          have hss : (if S = i then S else nxtA spP S) = nxtA spP S :=
            if_neg (by omega)
          rw [chainList_succ, hupd S, hss, hSnxt, if_pos rfl]
        have hR1 : chainList spP (g2 + 1 + 1) i = [i] := by
          rw [chainList_succ, if_pos hzinv]
        rw [hL, hL2, hR1, if_pos (List.mem_singleton.mpr rfl)]
        rfl
    · have hupd_i : nxtA sp' i = nxtA spP i := by
        rw [hupd i, if_neg hiz]
      by_cases hinv : nxtA spP i = i_invalid
      · rw [chainList_succ, chainList_succ, hupd_i, if_pos hinv,
            if_pos hinv]
        rw [if_neg (by rw [List.mem_singleton]; omega)]
        rfl
      · rcases hmono i with hc | ⟨ha, hb⟩
        · exact absurd hc hinv
        · have hih := ih (nxtA spP i) hb (by omega)
          rw [chainList_succ, chainList_succ, hupd_i, if_neg hinv,
              if_neg hinv, hih]
          have hmem : (z ∈ i :: chainList spP g (nxtA spP i)) ↔
              (z ∈ chainList spP g (nxtA spP i)) := by
            rw [List.mem_cons]
            constructor
            · rintro (hh | hh)
              · omega
              · exact hh
            · exact Or.inr
          rw [List.cons_append,
              if_congr hmem (rfl : [S] = [S]) (rfl : ([] : List Nat) = [])]

/-- Invariant carried through `extras.foldl linkExtra`: `sp`/`fe` are the
spec array and errno spec built so far, `rem` the extras still to be
linked, `nargs` the argument count and `nsegs` a bound on the segment
indices in use.  It packages claim C7's invariants: labels identify each
slot's argument class and class heads are occupied; chain links only
point forward (acyclicity) and stay within one class; targets are
in-range and pairwise distinct (unique ownership); and every labelled
slot is on its class's chain (so one render call reaches all of them). -/
structure FoldInv (nargs nsegs : Nat) (sp : Array format_spec)
    (fe : format_spec) (rem : List format_spec) : Prop where
  lo : nargs ≤ sp.size
  hi : sp.size + rem.length < i_errno
  nhi : nsegs < i_errno
  own : ∀ j, j < nargs → labA sp j = j ∨ labA sp j = i_invalid
  cls : ∀ j, j < sp.size → labA sp j = i_invalid ∨ labA sp j = i_errno ∨
    (labA sp j < nargs ∧ labA sp (labA sp j) = labA sp j)
  fearg : fe.arg_index = i_errno ∨ fe = fs0
  mono : Mono sp
  link : ∀ j, nxtA sp j ≠ i_invalid → labA sp (nxtA sp j) = labA sp j
  feN : fe.next_this_index = i_invalid ∨
    (fe.next_this_index < sp.size ∧
     labA sp fe.next_this_index = i_errno ∧ fe.arg_index = i_errno)
  tlt : ∀ j, j < sp.size → labA sp j ≠ i_invalid → tgtA sp j < nsegs
  ftlt : fe.arg_index = i_errno → fe.target < nsegs
  inj : ∀ j k, j < sp.size → k < sp.size → labA sp j ≠ i_invalid →
    labA sp k ≠ i_invalid → j ≠ k → tgtA sp j ≠ tgtA sp k
  finj : fe.arg_index = i_errno → ∀ j, j < sp.size →
    labA sp j ≠ i_invalid → fe.target ≠ tgtA sp j
  cov : ∀ j, j < sp.size → labA sp j ≠ i_invalid → labA sp j ≠ i_errno →
    j ∈ chainList sp sp.size (labA sp j)
  covE : ∀ j, j < sp.size → labA sp j = i_errno →
    fe.next_this_index ≠ i_invalid ∧
    j ∈ chainList sp sp.size fe.next_this_index
  rok : ∀ x ∈ rem, x.next_this_index = i_invalid ∧ x.target < nsegs ∧
    (x.arg_index = i_errno ∧ fe.arg_index = i_errno ∨
     (x.arg_index < nargs ∧ labA sp x.arg_index = x.arg_index)) ∧
    (∀ j, j < sp.size → labA sp j ≠ i_invalid → x.target ≠ tgtA sp j) ∧
    (fe.arg_index = i_errno → x.target ≠ fe.target)
  rpw : List.Pairwise (fun x y => x.target ≠ y.target) rem

/-- Rewiring one slot's link via `setD`, viewed through the slot
accessors. -/
theorem relink_upd_setD (spP : Array format_spec) (z S2 : Nat)
    (hz : z < spP.size) :
    (∀ j, nxtA (spP.setD z
        { spP.getD z fs0 with next_this_index := S2 }) j =
      if j = z then S2 else nxtA spP j) ∧
    (∀ j, labA (spP.setD z
        { spP.getD z fs0 with next_this_index := S2 }) j = labA spP j) ∧
    (∀ j, tgtA (spP.setD z
        { spP.getD z fs0 with next_this_index := S2 }) j = tgtA spP j) ∧
    (spP.setD z { spP.getD z fs0 with next_this_index := S2 }).size =
      spP.size := by
  refine ⟨?_, ?_, ?_, Array.size_setD _ _ _⟩
  · intro j
    by_cases hj : j = z
    · subst hj
      rw [if_pos rfl]
      unfold nxtA
      rw [Array_getD_setD_same _ _ _ _ hz]
    · rw [if_neg hj]
      unfold nxtA
      rw [Array_getD_setD_ne _ _ _ _ _ hj]
  · intro j
    by_cases hj : j = z
    · subst hj
      unfold labA
      rw [Array_getD_setD_same _ _ _ _ hz]
    · unfold labA
      rw [Array_getD_setD_ne _ _ _ _ _ hj]
  · intro j
    by_cases hj : j = z
    · subst hj
      unfold tgtA
      rw [Array_getD_setD_same _ _ _ _ hz]
    · unfold tgtA
      rw [Array_getD_setD_ne _ _ _ _ _ hj]

/-- Rewiring one slot's link via `modify`, viewed through the slot
accessors. -/
theorem relink_upd_modify (spP : Array format_spec) (z S2 : Nat)
    (hz : z < spP.size) :
    (∀ j, nxtA (spP.modify z
        (fun s => { s with next_this_index := S2 })) j =
      if j = z then S2 else nxtA spP j) ∧
    (∀ j, labA (spP.modify z
        (fun s => { s with next_this_index := S2 })) j = labA spP j) ∧
    (∀ j, tgtA (spP.modify z
        (fun s => { s with next_this_index := S2 })) j = tgtA spP j) ∧
    (spP.modify z (fun s => { s with next_this_index := S2 })).size =
      spP.size := by
  refine ⟨?_, ?_, ?_, Array.size_modify _ _ _⟩
  · intro j
    by_cases hj : j = z
    · subst hj
      rw [if_pos rfl]
      unfold nxtA
      rw [Array_getD_modify_same _ _ _ _ hz]
    · rw [if_neg hj]
      unfold nxtA
      rw [Array_getD_modify_ne _ _ _ _ _ hj]
  · intro j
    by_cases hj : j = z
    · subst hj
      unfold labA
      rw [Array_getD_modify_same _ _ _ _ hz]
    · unfold labA
      rw [Array_getD_modify_ne _ _ _ _ _ hj]
  · intro j
    by_cases hj : j = z
    · subst hj
      unfold tgtA
      rw [Array_getD_modify_same _ _ _ _ hz]
    · unfold tgtA
      rw [Array_getD_modify_ne _ _ _ _ _ hj]

theorem i_errno_lt_invalid : i_errno < i_invalid := by
  simp only [i_errno, i_invalid, U64]
  omega

/-- Appending the extra `e` and wiring the end `z` of its class's chain to
the new slot preserves the fold invariant. -/
theorem relink_inv (nargs nsegs : Nat) (sp : Array format_spec)
    (fe e : format_spec) (rem : List format_spec)
    (h : FoldInv nargs nsegs sp fe (e :: rem))
    (sp' : Array format_spec) (z : Nat)
    (hz : z < sp.size)
    (hzinv : nxtA sp z = i_invalid)
    (hupd : ∀ j, nxtA sp' j =
      if j = z then sp.size else nxtA (sp.push e) j)
    (hlab : ∀ j, labA sp' j = labA (sp.push e) j)
    (htgt : ∀ j, tgtA sp' j = tgtA (sp.push e) j)
    (hsz : sp'.size = sp.size + 1)
    (hcls : (e.arg_index = i_errno ∧ fe.arg_index = i_errno ∧
        fe.next_this_index ≠ i_invalid ∧
        z ∈ chainList sp sp.size fe.next_this_index) ∨
      (e.arg_index < nargs ∧ labA sp e.arg_index = e.arg_index ∧
        z ∈ chainList sp sp.size e.arg_index)) :
    FoldInv nargs nsegs sp' fe rem := by
  obtain ⟨he_next, he_tgt, he_cls, he_tne, he_fene⟩ :=
    h.rok e (List.mem_cons_self e rem)
  have hpw := List.pairwise_cons.mp h.rpw
  have hhi := h.hi
  rw [List.length_cons] at hhi
  have hS_err : sp.size < i_errno := by omega
  have hS_ninv : ¬ (sp.size = i_invalid) := by
    have := i_errno_lt_invalid
    omega
  have hmono_b : ∀ j, nxtA (sp.push e) j = i_invalid ∨
      (j < nxtA (sp.push e) j ∧ nxtA (sp.push e) j < sp.size) := by
    intro j
    by_cases hj : j < sp.size
    · rw [nxtA_push_lt sp e j hj]
      exact h.mono j
    · by_cases hj2 : j = sp.size
      · subst hj2
        rw [nxtA_push_eq]
        exact Or.inl he_next
      · rw [nxtA_oob _ _ (by rw [Array.size_push]; omega)]
        exact Or.inl rfl
  have hzinv_P : nxtA (sp.push e) z = i_invalid := by
    rw [nxtA_push_lt sp e z hz]
    exact hzinv
  have hSnxt_P : nxtA (sp.push e) sp.size = i_invalid := by
    rw [nxtA_push_eq]
    exact he_next
  have hext := chainList_ext (sp.push e) sp' sp.size z hmono_b hz hzinv_P
    hSnxt_P hS_ninv hupd
  have hchain_eq : ∀ i, i < sp.size →
      chainList (sp.push e) (sp.size + 1) i = chainList sp sp.size i := by
    intro i hi
    rw [chainList_push sp e h.mono _ i hi]
    exact chainList_fuel_irrel sp h.mono (sp.size + 1) sp.size i hi
      (by omega) (by omega)
  have hnew : ∀ i, i < sp.size → chainList sp' (sp.size + 1) i =
      chainList sp sp.size i ++
        (if z ∈ chainList sp sp.size i then [sp.size] else []) := by
    intro i hi
    rw [hext (sp.size + 1) i hi (by omega), hchain_eq i hi]
  have hlabz : labA sp z = e.arg_index := by
    rcases hcls with ⟨ha, hb, hc, hd⟩ | ⟨ha, hb, hd⟩
    · rw [chainList_label sp h.mono h.link _ _ _ hd]
      rcases h.feN with hfn | ⟨_, hl2, _⟩
      · exact absurd hfn hc
      · rw [hl2, ha]
    · rw [chainList_label sp h.mono h.link _ _ _ hd, hb]
  have hlab_lt : ∀ j, j < sp.size → labA sp' j = labA sp j := by
    intro j hj
    rw [hlab j, labA_push_lt sp e j hj]
  have hlab_S : labA sp' sp.size = e.arg_index := by
    rw [hlab _, labA_push_eq]
  have htgt_lt : ∀ j, j < sp.size → tgtA sp' j = tgtA sp j := by
    intro j hj
    rw [htgt j, tgtA_push_lt sp e j hj]
  have htgt_S : tgtA sp' sp.size = e.target := by
    rw [htgt _, tgtA_push_eq]
  have hnxt_z : nxtA sp' z = sp.size := by
    rw [hupd z, if_pos rfl]
  have hnxt_ne : ∀ j, j ≠ z → j < sp.size → nxtA sp' j = nxtA sp j := by
    intro j hjz hj
    rw [hupd j, if_neg hjz, nxtA_push_lt sp e j hj]
  have hnxt_S : nxtA sp' sp.size = i_invalid := by
    rw [hupd _, if_neg (by omega), hSnxt_P]
  have hnxt_hi : ∀ j, sp.size + 1 ≤ j → nxtA sp' j = i_invalid := by
    intro j hj
    rw [hupd j, if_neg (by omega),
        nxtA_oob _ _ (by rw [Array.size_push]; omega)]
  refine ⟨?_, ?_, h.nhi, ?_, ?_, h.fearg, ?_, ?_, ?_, ?_, h.ftlt, ?_, ?_,
    ?_, ?_, ?_, hpw.2⟩
  · rw [hsz]
    have := h.lo
    omega
  · rw [hsz]
    omega
  · intro j hj
    rw [hlab_lt j (by have := h.lo; omega)]
    exact h.own j hj
  · intro j hj
    rw [hsz] at hj
    by_cases hjS : j < sp.size
    · rw [hlab_lt j hjS]
      rcases h.cls j hjS with hc | hc | ⟨hc1, hc2⟩
      · exact Or.inl hc
      · exact Or.inr (Or.inl hc)
      · refine Or.inr (Or.inr ⟨hc1, ?_⟩)
        rw [hlab_lt _ (by have := h.lo; omega)]
        exact hc2
    · have hjS2 : j = sp.size := by omega
      subst hjS2
      rw [hlab_S]
      rcases hcls with ⟨ha, _, _, _⟩ | ⟨ha, hb, _⟩
      · exact Or.inr (Or.inl ha)
      · refine Or.inr (Or.inr ⟨ha, ?_⟩)
        rw [hlab_lt _ (by have := h.lo; omega)]
        exact hb
  · intro j
    by_cases hjz : j = z
    · subst hjz
      rw [hnxt_z, hsz]
      exact Or.inr ⟨hz, by omega⟩
    · by_cases hjS : j < sp.size
      · rw [hnxt_ne j hjz hjS]
        rcases h.mono j with hc | ⟨hc1, hc2⟩
        · exact Or.inl hc
        · exact Or.inr ⟨hc1, by rw [hsz]; omega⟩
      · by_cases hjS2 : j = sp.size
        · subst hjS2
          exact Or.inl hnxt_S
        · exact Or.inl (hnxt_hi j (by omega))
  · intro j hj
    by_cases hjz : j = z
    · subst hjz
      rw [hnxt_z, hlab_S, hlab_lt _ hz, hlabz]
    · by_cases hjS : j < sp.size
      · rw [hnxt_ne j hjz hjS] at hj ⊢
        rcases h.mono j with hc | ⟨hc1, hc2⟩
        · exact absurd hc hj
        · rw [hlab_lt _ hc2, hlab_lt _ hjS]
          exact h.link j hj
      · by_cases hjS2 : j = sp.size
        · subst hjS2
          exact absurd hnxt_S hj
        · exact absurd (hnxt_hi j (by omega)) hj
  · rcases h.feN with hc | ⟨hc1, hc2, hc3⟩
    · exact Or.inl hc
    · refine Or.inr ⟨by rw [hsz]; omega, ?_, hc3⟩
      rw [hlab_lt _ hc1]
      exact hc2
  · intro j hj hl
    rw [hsz] at hj
    by_cases hjS : j < sp.size
    · rw [htgt_lt j hjS]
      rw [hlab_lt j hjS] at hl
      exact h.tlt j hjS hl
    · have hjS2 : j = sp.size := by omega
      subst hjS2
      rw [htgt_S]
      exact he_tgt
  · intro j k hj hk hlj hlk hjk
    rw [hsz] at hj hk
    by_cases hjS : j < sp.size
    · by_cases hkS : k < sp.size
      · rw [htgt_lt j hjS, htgt_lt k hkS]
        rw [hlab_lt j hjS] at hlj
        rw [hlab_lt k hkS] at hlk
        exact h.inj j k hjS hkS hlj hlk hjk
      · have hkS2 : k = sp.size := by omega
        subst hkS2
        rw [htgt_lt j hjS, htgt_S]
        rw [hlab_lt j hjS] at hlj
        exact (he_tne j hjS hlj).symm
    · have hjS2 : j = sp.size := by omega
      subst hjS2
      have hkS : k < sp.size := by omega
      rw [htgt_S, htgt_lt k hkS]
      rw [hlab_lt k hkS] at hlk
      exact he_tne k hkS hlk
  · intro hfa j hj hl
    rw [hsz] at hj
    by_cases hjS : j < sp.size
    · rw [htgt_lt j hjS]
      rw [hlab_lt j hjS] at hl
      exact h.finj hfa j hjS hl
    · have hjS2 : j = sp.size := by omega
      subst hjS2
      rw [htgt_S]
      exact (he_fene hfa).symm
  · intro j hj hl1 hl2
    rw [hsz] at hj
    by_cases hjS : j < sp.size
    · rw [hlab_lt j hjS] at hl1 hl2 ⊢
      have hroot : labA sp j < nargs := by
        rcases h.cls j hjS with hc | hc | ⟨hc1, _⟩
        · exact absurd hc hl1
        · exact absurd hc hl2
        · exact hc1
      rw [hsz]
      rw [hnew _ (by have := h.lo; omega)]
      exact List.mem_append_left _ (h.cov j hjS hl1 hl2)
    · have hjS2 : j = sp.size := by omega
      subst hjS2
      rw [hlab_S] at hl1 hl2 ⊢
      rcases hcls with ⟨ha, _, _, _⟩ | ⟨ha, hb, hd⟩
      · exact absurd ha hl2
      · rw [hsz, hnew _ (by have := h.lo; omega), if_pos hd]
        exact List.mem_append_right _ (List.mem_singleton.mpr rfl)
  · intro j hj hl
    rw [hsz] at hj
    by_cases hjS : j < sp.size
    · rw [hlab_lt j hjS] at hl
      obtain ⟨hne2, hmem⟩ := h.covE j hjS hl
      have hfn : fe.next_this_index < sp.size := by
        rcases h.feN with hc | ⟨hc1, _, _⟩
        · exact absurd hc hne2
        · exact hc1
      refine ⟨hne2, ?_⟩
      rw [hsz, hnew _ hfn]
      exact List.mem_append_left _ hmem
    · have hjS2 : j = sp.size := by omega
      subst hjS2
      rw [hlab_S] at hl
      rcases hcls with ⟨ha, hb, hc, hd⟩ | ⟨ha, hb, hd⟩
      · have hfn : fe.next_this_index < sp.size := by
          rcases h.feN with hx | ⟨hx1, _, _⟩
          · exact absurd hx hc
          · exact hx1
        refine ⟨hc, ?_⟩
        rw [hsz, hnew _ hfn, if_pos hd]
        exact List.mem_append_right _ (List.mem_singleton.mpr rfl)
      · rw [hl] at ha
        have := hS_err
        have := h.lo
        omega
  · intro x hx
    obtain ⟨hx1, hx2, hx3, hx4, hx5⟩ := h.rok x (List.mem_cons_of_mem e hx)
    refine ⟨hx1, hx2, ?_, ?_, hx5⟩
    · rcases hx3 with hc | ⟨hc1, hc2⟩
      · exact Or.inl hc
      · refine Or.inr ⟨hc1, ?_⟩
        rw [hlab_lt _ (by have := h.lo; omega)]
        exact hc2
    · intro j hj hl
      rw [hsz] at hj
      by_cases hjS : j < sp.size
      · rw [htgt_lt j hjS]
        rw [hlab_lt j hjS] at hl
        exact hx4 j hjS hl
      · have hjS2 : j = sp.size := by omega
        subst hjS2
        rw [htgt_S]
        exact (hpw.1 x hx).symm

/-- Appending the first errno-class extra and pointing
`first_errno_spec`'s link at it preserves the fold invariant. -/
theorem linkFirstErrno_inv (nargs nsegs : Nat) (sp : Array format_spec)
    (fe e : format_spec) (rem : List format_spec)
    (h : FoldInv nargs nsegs sp fe (e :: rem))
    (hea : e.arg_index = i_errno)
    (hfn : fe.next_this_index = i_invalid) :
    FoldInv nargs nsegs (sp.push e)
      { fe with next_this_index := sp.size } rem := by
  obtain ⟨he_next, he_tgt, he_cls, he_tne, he_fene⟩ :=
    h.rok e (List.mem_cons_self e rem)
  have hfea : fe.arg_index = i_errno := by
    rcases he_cls with ⟨_, hx⟩ | ⟨hx, _⟩
    · exact hx
    · have := h.lo
      have := h.hi
      rw [List.length_cons] at this
      omega
  have hpw := List.pairwise_cons.mp h.rpw
  have hhi := h.hi
  rw [List.length_cons] at hhi
  have hS_err : sp.size < i_errno := by omega
  have hS_ninv : ¬ (sp.size = i_invalid) := by
    have := i_errno_lt_invalid
    omega
  have hmonoP : Mono (sp.push e) := Mono_push sp e h.mono he_next
  have hchain_eq : ∀ i, i < sp.size →
      chainList (sp.push e) (sp.size + 1) i = chainList sp sp.size i := by
    intro i hi
    rw [chainList_push sp e h.mono _ i hi]
    exact chainList_fuel_irrel sp h.mono (sp.size + 1) sp.size i hi
      (by omega) (by omega)
  have hlab_lt : ∀ j, j < sp.size →
      labA (sp.push e) j = labA sp j := fun j hj => labA_push_lt sp e j hj
  have htgt_lt : ∀ j, j < sp.size →
      tgtA (sp.push e) j = tgtA sp j := fun j hj => tgtA_push_lt sp e j hj
  have hszP : (sp.push e).size = sp.size + 1 := Array.size_push _ _
  refine ⟨?_, ?_, h.nhi, ?_, ?_, Or.inl hfea, hmonoP, ?_, ?_, ?_, h.ftlt,
    ?_, ?_, ?_, ?_, ?_, hpw.2⟩
  · rw [hszP]
    have := h.lo
    omega
  · rw [hszP]
    omega
  · intro j hj
    rw [hlab_lt j (by have := h.lo; omega)]
    exact h.own j hj
  · intro j hj
    rw [hszP] at hj
    by_cases hjS : j < sp.size
    · rw [hlab_lt j hjS]
      rcases h.cls j hjS with hc | hc | ⟨hc1, hc2⟩
      · exact Or.inl hc
      · exact Or.inr (Or.inl hc)
      · refine Or.inr (Or.inr ⟨hc1, ?_⟩)
        rw [hlab_lt _ (by have := h.lo; omega)]
        exact hc2
    · have hjS2 : j = sp.size := by omega
      subst hjS2
      rw [labA_push_eq]
      exact Or.inr (Or.inl hea)
  · intro j hj
    by_cases hjS : j < sp.size
    · rw [nxtA_push_lt sp e j hjS] at hj ⊢
      rcases h.mono j with hc | ⟨hc1, hc2⟩
      · exact absurd hc hj
      · rw [hlab_lt _ hc2, hlab_lt _ hjS]
        exact h.link j hj
    · by_cases hjS2 : j = sp.size
      · subst hjS2
        rw [nxtA_push_eq] at hj
        exact absurd he_next hj
      · rw [nxtA_oob _ _ (by omega)] at hj
        exact absurd rfl hj
  · refine Or.inr ⟨?_, ?_, hfea⟩
    · show sp.size < (sp.push e).size
      rw [hszP]
      omega
    · show labA (sp.push e) sp.size = i_errno
      rw [labA_push_eq]
      exact hea
  · intro j hj hl
    rw [hszP] at hj
    by_cases hjS : j < sp.size
    · rw [htgt_lt j hjS]
      rw [hlab_lt j hjS] at hl
      exact h.tlt j hjS hl
    · have hjS2 : j = sp.size := by omega
      subst hjS2
      rw [tgtA_push_eq]
      exact he_tgt
  · intro j k hj hk hlj hlk hjk
    rw [hszP] at hj hk
    by_cases hjS : j < sp.size
    · by_cases hkS : k < sp.size
      · rw [htgt_lt j hjS, htgt_lt k hkS]
        rw [hlab_lt j hjS] at hlj
        rw [hlab_lt k hkS] at hlk
        exact h.inj j k hjS hkS hlj hlk hjk
      · have hkS2 : k = sp.size := by omega
        subst hkS2
        rw [htgt_lt j hjS, tgtA_push_eq]
        rw [hlab_lt j hjS] at hlj
        exact (he_tne j hjS hlj).symm
    · have hjS2 : j = sp.size := by omega
      subst hjS2
      have hkS : k < sp.size := by omega
      rw [tgtA_push_eq, htgt_lt k hkS]
      rw [hlab_lt k hkS] at hlk
      exact he_tne k hkS hlk
  · intro hfa j hj hl
    rw [hszP] at hj
    by_cases hjS : j < sp.size
    · rw [htgt_lt j hjS]
      rw [hlab_lt j hjS] at hl
      exact h.finj hfea j hjS hl
    · have hjS2 : j = sp.size := by omega
      subst hjS2
      rw [tgtA_push_eq]
      exact (he_fene hfea).symm
  · intro j hj hl1 hl2
    rw [hszP] at hj ⊢
    by_cases hjS : j < sp.size
    · rw [hlab_lt j hjS] at hl1 hl2 ⊢
      have hroot : labA sp j < nargs := by
        rcases h.cls j hjS with hc | hc | ⟨hc1, _⟩
        · exact absurd hc hl1
        · exact absurd hc hl2
        · exact hc1
      rw [hchain_eq _ (by have := h.lo; omega)]
      exact h.cov j hjS hl1 hl2
    · have hjS2 : j = sp.size := by omega
      subst hjS2
      rw [labA_push_eq] at hl1 hl2 ⊢
      exact absurd hea hl2
  · intro j hj hl
    rw [hszP] at hj
    by_cases hjS : j < sp.size
    · rw [hlab_lt j hjS] at hl
      obtain ⟨hne2, _⟩ := h.covE j hjS hl
      exact absurd hfn hne2
    · have hjS2 : j = sp.size := by omega
      subst hjS2
      refine ⟨?_, ?_⟩
      · show ¬ (sp.size = i_invalid)
        exact hS_ninv
      · show sp.size ∈ chainList (sp.push e) (sp.push e).size sp.size
        rw [hszP, chainList_succ]
        exact List.mem_cons_self _ _
  · intro x hx
    obtain ⟨hx1, hx2, hx3, hx4, hx5⟩ := h.rok x (List.mem_cons_of_mem e hx)
    refine ⟨hx1, hx2, ?_, ?_, ?_⟩
    · rcases hx3 with ⟨hc, _⟩ | ⟨hc1, hc2⟩
      · exact Or.inl ⟨hc, hfea⟩
      · refine Or.inr ⟨hc1, ?_⟩
        rw [hlab_lt _ (by have := h.lo; omega)]
        exact hc2
    · intro j hj hl
      rw [hszP] at hj
      by_cases hjS : j < sp.size
      · rw [htgt_lt j hjS]
        rw [hlab_lt j hjS] at hl
        exact hx4 j hjS hl
      · have hjS2 : j = sp.size := by omega
        subst hjS2
        rw [tgtA_push_eq]
        exact (hpw.1 x hx).symm
    · intro _
      exact hx5 hfea

/-- One step of the `extras` loop preserves the fold invariant, whichever
of its four linking branches runs. -/
theorem linkExtra_inv (nargs nsegs : Nat) (sp : Array format_spec)
    (fe e : format_spec) (rem : List format_spec)
    (h : FoldInv nargs nsegs sp fe (e :: rem)) :
    FoldInv nargs nsegs (linkExtra (sp, fe) e).1 (linkExtra (sp, fe) e).2
      rem := by
  obtain ⟨he_next, he_tgt, he_cls, he_tne, he_fene⟩ :=
    h.rok e (List.mem_cons_self e rem)
  have hhi := h.hi
  rw [List.length_cons] at hhi
  have hS_err : sp.size < i_errno := by omega
  have hmonoP : Mono (sp.push e) := Mono_push sp e h.mono he_next
  have hszP : (sp.push e).size = sp.size + 1 := Array.size_push _ _
  have hmono_b : ∀ j, nxtA (sp.push e) j = i_invalid ∨
      (j < nxtA (sp.push e) j ∧ nxtA (sp.push e) j < sp.size) := by
    intro j
    by_cases hj : j < sp.size
    · rw [nxtA_push_lt sp e j hj]
      exact h.mono j
    · by_cases hj2 : j = sp.size
      · subst hj2
        rw [nxtA_push_eq]
        exact Or.inl he_next
      · rw [nxtA_oob _ _ (by omega)]
        exact Or.inl rfl
  have hsind : (sp.push e).size - 1 = sp.size := by omega
  unfold linkExtra
  dsimp only
  rw [hsind]
  by_cases hea : e.arg_index = i_errno
  · rw [if_pos hea]
    by_cases hfn : fe.next_this_index = i_invalid
    · rw [if_pos hfn]
      exact linkFirstErrno_inv nargs nsegs sp fe e rem h hea hfn
    · rw [if_neg hfn]
      dsimp only
      have hfeN : fe.next_this_index < sp.size ∧
          labA sp fe.next_this_index = i_errno ∧
          fe.arg_index = i_errno := by
        rcases h.feN with hc | hc
        · exact absurd hc hfn
        · exact hc
      obtain ⟨hwinv, hwmem⟩ := walkEnd_spec (sp.push e) hmonoP
        (sp.push e).size fe.next_this_index (by omega) (by omega)
      have hen_lt :
          walkEnd (sp.push e) (sp.push e).size fe.next_this_index <
            sp.size := by
        obtain ⟨h1, h2⟩ := chainList_mem_ge_b (sp.push e) sp.size hmono_b
          _ _ _ hwmem
        rcases h2 with he2 | he2
        · rw [he2]
          exact hfeN.1
        · exact he2
      have hzinv : nxtA sp
          (walkEnd (sp.push e) (sp.push e).size fe.next_this_index) =
          i_invalid := by
        rw [← nxtA_push_lt sp e _ hen_lt]
        exact hwinv
      have hmem2 : walkEnd (sp.push e) (sp.push e).size
          fe.next_this_index ∈
          chainList sp sp.size fe.next_this_index := by
        have heq2 : chainList (sp.push e) (sp.push e).size
            fe.next_this_index = chainList sp sp.size
            fe.next_this_index := by
          rw [hszP, chainList_push sp e h.mono _ _ hfeN.1]
          exact chainList_fuel_irrel sp h.mono _ _ _ hfeN.1 (by omega)
            (by omega)
        rw [← heq2]
        exact hwmem
      obtain ⟨hu1, hu2, hu3, hu4⟩ := relink_upd_modify (sp.push e)
        (walkEnd (sp.push e) (sp.push e).size fe.next_this_index)
        sp.size (by omega)
      exact relink_inv nargs nsegs sp fe e rem h _ _ hen_lt hzinv hu1 hu2
        hu3 (hu4.trans hszP) (Or.inl ⟨hea, hfeN.2.2, hfn, hmem2⟩)
  · rw [if_neg hea]
    have hargcls : e.arg_index < nargs ∧
        labA sp e.arg_index = e.arg_index := by
      rcases he_cls with ⟨hc, _⟩ | hc
      · exact absurd hc hea
      · exact hc
    have harg_lt : e.arg_index < sp.size := by
      have := h.lo
      omega
    by_cases hcn : ((sp.push e).getD e.arg_index fs0).next_this_index =
        i_invalid
    · rw [if_pos hcn]
      have hzinv : nxtA sp e.arg_index = i_invalid := by
        rw [← nxtA_push_lt sp e _ harg_lt]
        exact hcn
      have hmem3 : e.arg_index ∈ chainList sp sp.size e.arg_index := by
        obtain ⟨f, hf⟩ : ∃ f, sp.size = f + 1 := ⟨sp.size - 1, by omega⟩
        rw [hf, chainList_succ]
        exact List.mem_cons_self _ _
      obtain ⟨hu1, hu2, hu3, hu4⟩ := relink_upd_setD (sp.push e)
        e.arg_index sp.size (by omega)
      exact relink_inv nargs nsegs sp fe e rem h _ _ harg_lt hzinv hu1 hu2
        hu3 (hu4.trans hszP) (Or.inr ⟨hargcls.1, hargcls.2, hmem3⟩)
    · rw [if_neg hcn]
      dsimp only
      have hn0 : nxtA (sp.push e) e.arg_index = nxtA sp e.arg_index :=
        nxtA_push_lt sp e _ harg_lt
      have hn0inv : nxtA sp e.arg_index ≠ i_invalid := by
        rw [← hn0]
        exact hcn
      obtain ⟨hn0pos, hn0b⟩ : e.arg_index < nxtA sp e.arg_index ∧
          nxtA sp e.arg_index < sp.size := by
        rcases h.mono e.arg_index with hc | hc
        · exact absurd hc hn0inv
        · exact hc
      obtain ⟨hwinv, hwmem⟩ := walkEnd_spec (sp.push e) hmonoP
        (sp.push e).size (nxtA (sp.push e) e.arg_index)
        (by rw [hn0, hszP]; omega) (by omega)
      have hen_lt : walkEnd (sp.push e) (sp.push e).size
          (nxtA (sp.push e) e.arg_index) < sp.size := by
        obtain ⟨h1, h2⟩ := chainList_mem_ge_b (sp.push e) sp.size hmono_b
          _ _ _ hwmem
        rcases h2 with he2 | he2
        · rw [he2, hn0]
          exact hn0b
        · exact he2
      have hzinv : nxtA sp (walkEnd (sp.push e) (sp.push e).size
          (nxtA (sp.push e) e.arg_index)) = i_invalid := by
        rw [← nxtA_push_lt sp e _ hen_lt]
        exact hwinv
      have hmem4 : walkEnd (sp.push e) (sp.push e).size
          (nxtA (sp.push e) e.arg_index) ∈
          chainList sp sp.size e.arg_index := by
        obtain ⟨f, hf⟩ : ∃ f, sp.size = f + 1 := ⟨sp.size - 1, by omega⟩
        rw [hf, chainList_succ, if_neg hn0inv]
        refine List.mem_cons_of_mem _ ?_
        have heq4 : chainList (sp.push e) (sp.push e).size
            (nxtA (sp.push e) e.arg_index) =
            chainList sp f (nxtA sp e.arg_index) := by
          rw [hn0, hszP, chainList_push sp e h.mono _ _ hn0b]
          exact chainList_fuel_irrel sp h.mono _ _ _ hn0b (by omega)
            (by omega)
        rw [← heq4]
        exact hwmem
      obtain ⟨hu1, hu2, hu3, hu4⟩ := relink_upd_modify (sp.push e)
        (walkEnd (sp.push e) (sp.push e).size
          (nxtA (sp.push e) e.arg_index))
        sp.size (by omega)
      exact relink_inv nargs nsegs sp fe e rem h _ _ hen_lt hzinv hu1 hu2
        hu3 (hu4.trans hszP) (Or.inr ⟨hargcls.1, hargcls.2, hmem4⟩)

/-- Invariant maintained by the scan loop, feeding `FoldInv` at the point
where the extras are linked: the spec array never holds chain links or
errno labels during the scan, slot `j` is either unoccupied or labelled
`j`, `first_errno_spec` is either untouched or an errno spec, every extra
belongs to an occupied class, and all assigned targets are in-range and
pairwise distinct. -/
structure ScanC (st : ScanState) : Prop where
  c1 : st.specs.size = st.nargs
  c2 : ∀ j, nxtA st.specs j = i_invalid
  c3 : st.fe.next_this_index = i_invalid
  c4 : ∀ x ∈ st.extras, x.next_this_index = i_invalid
  c5 : ∀ j, j < st.nargs → labA st.specs j = j ∨ labA st.specs j = i_invalid
  c6 : st.fe.arg_index = i_errno ∨ st.fe = fs0
  c7 : ∀ x ∈ st.extras, x.arg_index = i_errno ∧ st.fe.arg_index = i_errno ∨
    (x.arg_index < st.nargs ∧ labA st.specs x.arg_index = x.arg_index)
  c8 : ∀ j, j < st.specs.size → labA st.specs j ≠ i_invalid →
    tgtA st.specs j < st.segs.size
  c9 : st.fe.arg_index = i_errno → st.fe.target < st.segs.size
  c10 : ∀ x ∈ st.extras, x.target < st.segs.size
  c11 : ∀ j k, j < st.specs.size → k < st.specs.size →
    labA st.specs j ≠ i_invalid → labA st.specs k ≠ i_invalid → j ≠ k →
    tgtA st.specs j ≠ tgtA st.specs k
  c12 : st.fe.arg_index = i_errno → ∀ j, j < st.specs.size →
    labA st.specs j ≠ i_invalid → st.fe.target ≠ tgtA st.specs j
  c13 : ∀ x ∈ st.extras, ∀ j, j < st.specs.size →
    labA st.specs j ≠ i_invalid → x.target ≠ tgtA st.specs j
  c14 : st.fe.arg_index = i_errno → ∀ x ∈ st.extras,
    x.target ≠ st.fe.target
  c15 : List.Pairwise (fun x y => x.target ≠ y.target) st.extras
  c16 : st.extras.length ≤ st.segs.size

/-- Changing only the pending literal keeps the scan invariant. -/
theorem ScanC_cseg (st : ScanState) (x : String) (h : ScanC st) :
    ScanC { st with cseg := x } :=
  ⟨h.c1, h.c2, h.c3, h.c4, h.c5, h.c6, h.c7, h.c8, h.c9, h.c10, h.c11,
   h.c12, h.c13, h.c14, h.c15, h.c16⟩

/-- Changing only the ghost trace and the default index keeps the scan
invariant. -/
theorem ScanC_ghost (st : ScanState) (tr : List TraceEnt) (d : Nat)
    (h : ScanC st) :
    ScanC { st with trace := tr, default_index := d } :=
  ⟨h.c1, h.c2, h.c3, h.c4, h.c5, h.c6, h.c7, h.c8, h.c9, h.c10, h.c11,
   h.c12, h.c13, h.c14, h.c15, h.c16⟩

/-- Installing a parsed errno spec as `first_errno_spec` (with a fresh
target) keeps the scan invariant. -/
theorem ScanC_fe_set (st : ScanState) (sp : format_spec) (h : ScanC st)
    (hnext : sp.next_this_index = i_invalid)
    (harg : sp.arg_index = i_errno) :
    ScanC { st with
      segs := (st.segs.push st.cseg).push "", cseg := "",
      fe := { sp with
                target := ((st.segs.push st.cseg).push "").size - 1 } } := by
  have hsz2 : ((st.segs.push st.cseg).push "").size = st.segs.size + 2 := by
    rw [Array.size_push, Array.size_push]
  refine ⟨?_, ?_, ?_, ?_, ?_, ?_, ?_, ?_, ?_, ?_, ?_, ?_, ?_, ?_, ?_, ?_⟩
    <;> dsimp only
  · exact h.c1
  · exact h.c2
  · exact hnext
  · exact h.c4
  · exact h.c5
  · exact Or.inl harg
  · intro x hx
    rcases h.c7 x hx with ⟨hx1, _⟩ | hc
    · exact Or.inl ⟨hx1, harg⟩
    · exact Or.inr hc
  · intro j hj hl
    have := h.c8 j hj hl
    omega
  · intro _
    omega
  · intro x hx
    have := h.c10 x hx
    omega
  · exact h.c11
  · intro _ j hj hl
    have := h.c8 j hj hl
    omega
  · exact h.c13
  · intro _ x hx
    have := h.c10 x hx
    omega
  · exact h.c15
  · have := h.c16
    omega

/-- Appending a parsed spec (with a fresh target) to the overflow list
keeps the scan invariant, provided its class is already occupied. -/
theorem ScanC_extras_push (st : ScanState) (sp : format_spec)
    (h : ScanC st) (hnext : sp.next_this_index = i_invalid)
    (hclass : sp.arg_index = i_errno ∧ st.fe.arg_index = i_errno ∨
      (sp.arg_index < st.nargs ∧
       labA st.specs sp.arg_index = sp.arg_index)) :
    ScanC { st with
      segs := (st.segs.push st.cseg).push "", cseg := "",
      extras := st.extras ++ [{ sp with
        target := ((st.segs.push st.cseg).push "").size - 1 }] } := by
  have hsz2 : ((st.segs.push st.cseg).push "").size = st.segs.size + 2 := by
    rw [Array.size_push, Array.size_push]
  refine ⟨?_, ?_, ?_, ?_, ?_, ?_, ?_, ?_, ?_, ?_, ?_, ?_, ?_, ?_, ?_, ?_⟩
    <;> dsimp only
  · exact h.c1
  · exact h.c2
  · exact h.c3
  · intro x hx
    rcases List.mem_append.mp hx with hx | hx
    · exact h.c4 x hx
    · rw [List.mem_singleton.mp hx]
      exact hnext
  · exact h.c5
  · exact h.c6
  · intro x hx
    rcases List.mem_append.mp hx with hx | hx
    · exact h.c7 x hx
    · rw [List.mem_singleton.mp hx]
      exact hclass
  · intro j hj hl
    have := h.c8 j hj hl
    omega
  · intro hfa
    have := h.c9 hfa
    omega
  · intro x hx
    rcases List.mem_append.mp hx with hx | hx
    · have := h.c10 x hx
      omega
    · rw [List.mem_singleton.mp hx]
      dsimp only
      omega
  · exact h.c11
  · exact h.c12
  · intro x hx j hj hl
    rcases List.mem_append.mp hx with hx | hx
    · exact h.c13 x hx j hj hl
    · rw [List.mem_singleton.mp hx]
      dsimp only
      have := h.c8 j hj hl
      omega
  · intro hfa x hx
    rcases List.mem_append.mp hx with hx | hx
    · exact h.c14 hfa x hx
    · rw [List.mem_singleton.mp hx]
      dsimp only
      have := h.c9 hfa
      omega
  · rw [List.pairwise_append]
    refine ⟨h.c15, List.pairwise_singleton _ _, ?_⟩
    intro x hx y hy
    rw [List.mem_singleton.mp hy]
    dsimp only
    have := h.c10 x hx
    omega
  · rw [List.length_append, List.length_singleton]
    have := h.c16
    omega

/-- Writing a parsed spec (with a fresh target) into its unoccupied slot
keeps the scan invariant. -/
theorem ScanC_setD (st : ScanState) (sp : format_spec) (h : ScanC st)
    (hnext : sp.next_this_index = i_invalid)
    (hargne : sp.arg_index ≠ i_invalid)
    (hlt : sp.arg_index < st.specs.size)
    (hunocc : labA st.specs sp.arg_index = i_invalid) :
    ScanC { st with
      segs := (st.segs.push st.cseg).push "", cseg := "",
      specs := st.specs.setD sp.arg_index { sp with
        target := ((st.segs.push st.cseg).push "").size - 1 } } := by
  have hsz2 : ((st.segs.push st.cseg).push "").size = st.segs.size + 2 := by
    rw [Array.size_push, Array.size_push]
  have hlab_a : labA (st.specs.setD sp.arg_index { sp with
      target := ((st.segs.push st.cseg).push "").size - 1 })
      sp.arg_index = sp.arg_index := by
    unfold labA
    rw [Array_getD_setD_same _ _ _ _ hlt]
  have hlab_ne : ∀ j, j ≠ sp.arg_index →
      labA (st.specs.setD sp.arg_index { sp with
        target := ((st.segs.push st.cseg).push "").size - 1 }) j =
      labA st.specs j := by
    intro j hj
    unfold labA
    rw [Array_getD_setD_ne _ _ _ _ _ hj]
  have htgt_a : tgtA (st.specs.setD sp.arg_index { sp with
      target := ((st.segs.push st.cseg).push "").size - 1 })
      sp.arg_index = ((st.segs.push st.cseg).push "").size - 1 := by
    unfold tgtA
    rw [Array_getD_setD_same _ _ _ _ hlt]
  have htgt_ne : ∀ j, j ≠ sp.arg_index →
      tgtA (st.specs.setD sp.arg_index { sp with
        target := ((st.segs.push st.cseg).push "").size - 1 }) j =
      tgtA st.specs j := by
    intro j hj
    unfold tgtA
    rw [Array_getD_setD_ne _ _ _ _ _ hj]
  have hszsp : (st.specs.setD sp.arg_index { sp with
      target := ((st.segs.push st.cseg).push "").size - 1 }).size =
      st.specs.size := Array.size_setD _ _ _
  refine ⟨?_, ?_, ?_, ?_, ?_, ?_, ?_, ?_, ?_, ?_, ?_, ?_, ?_, ?_, ?_, ?_⟩
    <;> dsimp only
  · rw [hszsp]
    exact h.c1
  · intro j
    by_cases hj : j = sp.arg_index
    · subst hj
      unfold nxtA
      rw [Array_getD_setD_same _ _ _ _ hlt]
      exact hnext
    · unfold nxtA
      rw [Array_getD_setD_ne _ _ _ _ _ hj]
      exact h.c2 j
  · exact h.c3
  · exact h.c4
  · intro j hj
    by_cases hje : j = sp.arg_index
    · subst hje
      rw [hlab_a]
      exact Or.inl rfl
    · rw [hlab_ne j hje]
      exact h.c5 j hj
  · exact h.c6
  · intro x hx
    rcases h.c7 x hx with hc | ⟨hc1, hc2⟩
    · exact Or.inl hc
    · refine Or.inr ⟨hc1, ?_⟩
      have hxne : x.arg_index ≠ sp.arg_index := by
        intro he
        rw [he] at hc2
        rw [hunocc] at hc2
        exact hargne hc2.symm
      rw [hlab_ne _ hxne]
      exact hc2
  · intro j hj hl
    rw [hszsp] at hj
    by_cases hje : j = sp.arg_index
    · subst hje
      rw [htgt_a]
      omega
    · rw [htgt_ne j hje]
      rw [hlab_ne j hje] at hl
      have := h.c8 j hj hl
      omega
  · intro hfa
    have := h.c9 hfa
    omega
  · intro x hx
    have := h.c10 x hx
    omega
  · intro j k hj hk hlj hlk hjk
    rw [hszsp] at hj hk
    by_cases hje : j = sp.arg_index
    · subst hje
      have hke : k ≠ sp.arg_index := fun he => hjk (he ▸ rfl)
      rw [htgt_a, htgt_ne k hke]
      rw [hlab_ne k hke] at hlk
      have := h.c8 k hk hlk
      omega
    · by_cases hke : k = sp.arg_index
      · subst hke
        rw [htgt_ne j hje, htgt_a]
        rw [hlab_ne j hje] at hlj
        have := h.c8 j hj hlj
        omega
      · rw [htgt_ne j hje, htgt_ne k hke]
        rw [hlab_ne j hje] at hlj
        rw [hlab_ne k hke] at hlk
        exact h.c11 j k hj hk hlj hlk hjk
  · intro hfa j hj hl
    rw [hszsp] at hj
    by_cases hje : j = sp.arg_index
    · subst hje
      rw [htgt_a]
      have := h.c9 hfa
      omega
    · rw [htgt_ne j hje]
      rw [hlab_ne j hje] at hl
      exact h.c12 hfa j hj hl
  · intro x hx j hj hl
    rw [hszsp] at hj
    by_cases hje : j = sp.arg_index
    · subst hje
      rw [htgt_a]
      have := h.c10 x hx
      omega
    · rw [htgt_ne j hje]
      rw [hlab_ne j hje] at hl
      exact h.c13 x hx j hj hl
  · exact h.c14
  · exact h.c15
  · have := h.c16
    omega

/-- One scan iteration preserves the scan invariant. -/
theorem scanStep_scanC (st : ScanState) (c : Char) (rest : List Char)
    (h : ScanC st) : ScanC (scanStep st c rest).1 := by
  unfold scanStep
  split
  · split
    · exact ScanC_cseg st _ h
    · dsimp only
      have hnext := parse_subst_next rest st.default_index
      split
      · exact ScanC_ghost _ _ _ (ScanC_cseg st _ h)
      · rename_i hinv
        split
        · exact ScanC_ghost _ _ _ (ScanC_cseg st _ h)
        · rename_i hmiss
          split
          · split
            · rename_i herr hfe0
              exact ScanC_ghost _ _ _ (ScanC_fe_set st _ h hnext herr)
            · rename_i herr hfe0
              have hfea : st.fe.arg_index = i_errno := by
                rcases h.c6 with hc | hc
                · exact hc
                · rw [hc] at hfe0
                  exact absurd rfl hfe0
              exact ScanC_ghost _ _ _
                (ScanC_extras_push st _ h hnext (Or.inl ⟨herr, hfea⟩))
          · split
            · rename_i herr hun
              have hlt : (parse_subst rest st.default_index).spec.arg_index <
                  st.specs.size := by
                by_contra hcon
                exact hmiss ⟨by omega, herr⟩
              exact ScanC_ghost _ _ _ (ScanC_setD st _ h hnext hinv hlt hun)
            · rename_i herr hocc
              have hlt : (parse_subst rest st.default_index).spec.arg_index <
                  st.specs.size := by
                by_contra hcon
                exact hmiss ⟨by omega, herr⟩
              have hlab : labA st.specs
                  (parse_subst rest st.default_index).spec.arg_index =
                  (parse_subst rest st.default_index).spec.arg_index := by
                rcases h.c5 (parse_subst rest st.default_index).spec.arg_index
                  (by have := h.c1; omega) with hc | hc
                · exact hc
                · exact absurd hc hocc
              exact ScanC_ghost _ _ _ (ScanC_extras_push st _ h hnext
                (Or.inr ⟨by have := h.c1; omega, hlab⟩))
  · split
    · split
      · exact ScanC_cseg st _ h
      · exact ScanC_cseg st _ h
    · exact ScanC_cseg st _ h

/-- The scanner's start state satisfies the scan invariant. -/
theorem scanC_init (nargs : Nat) :
    ScanC { nargs := nargs, segs := #[], cseg := "",
            specs := Array.mkArray nargs fs0, extras := [],
            default_index := 0, fe := fs0, trace := [] } := by
  have hget : ∀ j, (Array.mkArray nargs fs0).getD j fs0 = fs0 := by
    intro j
    unfold Array.getD
    by_cases hj : j < (Array.mkArray nargs fs0).size
    · rw [dif_pos hj]
      exact Array.getElem_mkArray _ _ _
    · rw [dif_neg hj]
  refine ⟨?_, ?_, ?_, ?_, ?_, ?_, ?_, ?_, ?_, ?_, ?_, ?_, ?_, ?_, ?_, ?_⟩
    <;> dsimp only
  · exact Array.size_mkArray _ _
  · intro j
    unfold nxtA
    rw [hget j]
    rfl
  · rfl
  · intro x hx
    cases hx
  · intro j hj
    refine Or.inr ?_
    unfold labA
    rw [hget j]
    rfl
  · exact Or.inr rfl
  · intro x hx
    cases hx
  · intro j hj hl
    refine absurd ?_ hl
    unfold labA
    rw [hget j]
    rfl
  · intro hfa
    have h2 : i_invalid = i_errno := hfa
    have := i_errno_lt_invalid
    omega
  · intro x hx
    cases hx
  · intro j k hj hk hlj hlk hjk
    refine absurd ?_ hlj
    unfold labA
    rw [hget j]
    rfl
  · intro hfa
    have h2 : i_invalid = i_errno := hfa
    have := i_errno_lt_invalid
    omega
  · intro x hx
    cases hx
  · intro hfa x hx
    cases hx
  · exact List.Pairwise.nil
  · exact Nat.le_refl 0

/-- Each scan iteration keeps the argument count. -/
theorem scanStep_nargs (st : ScanState) (c : Char) (rest : List Char) :
    (scanStep st c rest).1.nargs = st.nargs := by
  unfold scanStep
  split
  · split
    · rfl
    · dsimp only
      split
      · rfl
      · split
        · rfl
        · split
          · split
            · rfl
            · rfl
          · split
            · rfl
            · rfl
  · split
    · split
      · rfl
      · rfl
    · rfl

/-- The scan invariant reaching the end of the scan yields the fold
invariant for the `extras` loop, with the final literal segment still to
be pushed. -/
theorem scanC_foldinv (st : ScanState) (h : ScanC st)
    (hb : st.nargs + st.segs.size + 1 < i_errno) :
    FoldInv st.nargs (st.segs.size + 1) st.specs st.fe st.extras := by
  refine ⟨?_, ?_, ?_, ?_, ?_, h.c6, ?_, ?_, ?_, ?_, ?_, h.c11, h.c12,
    ?_, ?_, ?_, h.c15⟩
  · exact le_of_eq h.c1.symm
  · have := h.c16
    have := h.c1
    omega
  · omega
  · exact h.c5
  · intro j hj
    rcases h.c5 j (by have := h.c1; omega) with hc | hc
    · refine Or.inr (Or.inr ?_)
      rw [hc]
      exact ⟨by have := h.c1; omega, by rw [hc]⟩
    · exact Or.inl hc
  · intro j
    exact Or.inl (h.c2 j)
  · intro j hj
    exact absurd (h.c2 j) hj
  · exact Or.inl h.c3
  · intro j hj hl
    have := h.c8 j hj hl
    omega
  · intro hfa
    have := h.c9 hfa
    omega
  · intro j hj hl1 hl2
    rcases h.c5 j (by have := h.c1; omega) with hc | hc
    · rw [hc]
      obtain ⟨f, hf⟩ : ∃ f, st.specs.size = f + 1 := ⟨st.specs.size - 1,
        by omega⟩
      rw [hf, chainList_succ]
      exact List.mem_cons_self _ _
    · exact absurd hc hl1
  · intro j hj hl
    rcases h.c5 j (by have := h.c1; omega) with hc | hc
    · have h2 : j = i_errno := by rw [← hc, hl]
      have := h.c1
      omega
    · have h2 : i_invalid = i_errno := by rw [← hc, hl]
      have := i_errno_lt_invalid
      omega
  · intro x hx
    refine ⟨h.c4 x hx, by have := h.c10 x hx; omega, h.c7 x hx, ?_, ?_⟩
    · intro j hj hl
      exact h.c13 x hx j hj hl
    · intro hfa
      exact h.c14 hfa x hx

/-- The whole `extras` loop preserves the fold invariant. -/
theorem foldl_linkExtra_inv (nargs nsegs : Nat) :
    ∀ (l : List format_spec) (sp : Array format_spec) (fe : format_spec),
      FoldInv nargs nsegs sp fe l →
      FoldInv nargs nsegs (l.foldl linkExtra (sp, fe)).1
        (l.foldl linkExtra (sp, fe)).2 [] := by
  intro l
  induction l with
  | nil => intro sp fe h; exact h
  | cons e rest ih =>
    intro sp fe h
    rw [List.foldl_cons]
    exact ih _ _ (linkExtra_inv nargs nsegs sp fe e rest h)

/-- The parse of any (reasonably sized) template satisfies the chain
invariants. -/
theorem parse_foldinv (nargs : Nat) (t : List Char)
    (hb : nargs + t.length + 1 < i_errno) :
    FoldInv nargs (parse_format_string nargs t).segs.size
      (parse_format_string nargs t).specs
      (parse_format_string nargs t).fe [] := by
  have hsc : ScanC (scan t.length
      { nargs := nargs, segs := #[], cseg := "",
        specs := Array.mkArray nargs fs0, extras := [],
        default_index := 0, fe := fs0, trace := [] } t) :=
    scan_inv ScanC scanStep_scanC t.length _ t (scanC_init nargs)
  have hna : ∀ (fuel : Nat) (st : ScanState) (l : List Char),
      (scan fuel st l).nargs = st.nargs := by
    intro fuel
    induction fuel with
    | zero =>
      intro st l
      cases l with
      | nil => rw [scan_nil]
      | cons c r => rw [show scan 0 st (c :: r) = st from rfl]
    | succ f ih =>
      intro st l
      cases l with
      | nil => rw [scan_nil]
      | cons c r =>
        rw [scan_succ, ih, scanStep_nargs]
  have hnargs : (scan t.length
      { nargs := nargs, segs := #[], cseg := "",
        specs := Array.mkArray nargs fs0, extras := [],
        default_index := 0, fe := fs0, trace := [] } t).nargs = nargs := by
    rw [hna]
  have hsegs : (scan t.length
      { nargs := nargs, segs := #[], cseg := "",
        specs := Array.mkArray nargs fs0, extras := [],
        default_index := 0, fe := fs0, trace := [] } t).segs.size ≤
      t.length := by
    have := scan_segs_le t.length
      { nargs := nargs, segs := #[], cseg := "",
        specs := Array.mkArray nargs fs0, extras := [],
        default_index := 0, fe := fs0, trace := [] } t
    dsimp only at this
    have h0 : ((#[] : Array String)).size = 0 := rfl
    omega
  have hfold0 := scanC_foldinv _ hsc (by rw [hnargs]; omega)
  rw [hnargs] at hfold0
  have hfold := foldl_linkExtra_inv nargs _ _ _ _ hfold0
  have hPsegs : (parse_format_string nargs t).segs.size =
      (scan t.length
        { nargs := nargs, segs := #[], cseg := "",
          specs := Array.mkArray nargs fs0, extras := [],
          default_index := 0, fe := fs0, trace := [] } t).segs.size + 1 := by
    unfold parse_format_string
    dsimp only
    rw [Array.size_push]
  rw [hPsegs]
  exact hfold

/-- Writing a spec back never touches the write log. -/
theorem setSpecAt_wlog (st : FmtState) (i : Nat) (sp : format_spec) :
    (setSpecAt st i sp).wlog = st.wlog := by
  unfold setSpecAt
  split <;> rfl

/-- The render pass mutates specs in place (type and width defaulting)
but never moves their labels, links or targets: the state keeps the
skeleton laid down by the parse (`sp0`, `fe0`). -/
def SkelEq (st : FmtState) (sp0 : Array format_spec)
    (fe0 : format_spec) : Prop :=
  st.specs.size = sp0.size ∧
  (∀ j, nxtA st.specs j = nxtA sp0 j) ∧
  (∀ j, labA st.specs j = labA sp0 j) ∧
  (∀ j, tgtA st.specs j = tgtA sp0 j) ∧
  st.fe.arg_index = fe0.arg_index ∧
  st.fe.next_this_index = fe0.next_this_index ∧
  st.fe.target = fe0.target

/-- One render iteration keeps the skeleton, appends exactly its slot's
target to the write log, and follows the skeleton's link. -/
theorem chainStep_skel (v : Value) (sp0 : Array format_spec)
    (fe0 : format_spec) (st : FmtState) (i : Nat)
    (h : SkelEq st sp0 fe0) :
    SkelEq (chainStep noExc v st i).1 sp0 fe0 ∧
    (chainStep noExc v st i).1.wlog = st.wlog ++
      [if i = i_errno then fe0.target else tgtA sp0 i] ∧
    (chainStep noExc v st i).2 =
      (if i = i_errno then fe0.next_this_index else nxtA sp0 i) := by
  obtain ⟨h1, h2, h3, h4, h5, h6, h7⟩ := h
  have hskel := defaultedSpec_skel v (specAt st i)
  have htg : (defaultedSpec v (specAt st i)).target =
      (if i = i_errno then fe0.target else tgtA sp0 i) := by
    rw [hskel.1]
    unfold specAt
    by_cases hi : i = i_errno
    · rw [if_pos hi, if_pos hi, h7]
    · rw [if_neg hi, if_neg hi]
      exact h4 i
  have hnx : (defaultedSpec v (specAt st i)).next_this_index =
      (if i = i_errno then fe0.next_this_index else nxtA sp0 i) := by
    rw [hskel.2.1]
    unfold specAt
    by_cases hi : i = i_errno
    · rw [if_pos hi, if_pos hi, h6]
    · rw [if_neg hi, if_neg hi]
      exact h2 i
  refine ⟨?_, ?_, hnx⟩
  · show SkelEq { setSpecAt st i (defaultedSpec v (specAt st i)) with
      segs := _, wlog := _ } sp0 fe0
    by_cases hi : i = i_errno
    · obtain ⟨hsp, hfe⟩ := setSpecAt_of_errno st i _ hi
      refine ⟨?_, ?_, ?_, ?_, ?_, ?_, ?_⟩
      · show (setSpecAt st i _).specs.size = _
        rw [hsp]
        exact h1
      · intro j
        show nxtA (setSpecAt st i _).specs j = _
        rw [hsp]
        exact h2 j
      · intro j
        show labA (setSpecAt st i _).specs j = _
        rw [hsp]
        exact h3 j
      · intro j
        show tgtA (setSpecAt st i _).specs j = _
        rw [hsp]
        exact h4 j
      · show (setSpecAt st i _).fe.arg_index = _
        rw [hfe, hskel.2.2]
        unfold specAt
        rw [if_pos hi]
        exact h5
      · show (setSpecAt st i _).fe.next_this_index = _
        rw [hfe, hskel.2.1]
        unfold specAt
        rw [if_pos hi]
        exact h6
      · show (setSpecAt st i _).fe.target = _
        rw [hfe, hskel.1]
        unfold specAt
        rw [if_pos hi]
        exact h7
    · obtain ⟨hsp, hfe⟩ := setSpecAt_of_ne st i _ hi
      have hspec : specAt st i = st.specs.getD i fs0 := by
        unfold specAt
        rw [if_neg hi]
      refine ⟨?_, ?_, ?_, ?_, ?_, ?_, ?_⟩
      · show (setSpecAt st i _).specs.size = _
        rw [hsp, Array.size_setD]
        exact h1
      · intro j
        show nxtA (setSpecAt st i _).specs j = _
        rw [hsp]
        by_cases hj : j = i
        · subst hj
          by_cases hlt : j < st.specs.size
          · unfold nxtA
            rw [Array_getD_setD_same _ _ _ _ hlt, hskel.2.1, hspec]
            exact h2 j
          · rw [show st.specs.setD j (defaultedSpec v (specAt st j)) =
              st.specs from Array_setD_oob _ _ _ (by omega)]
            exact h2 j
        · unfold nxtA
          rw [Array_getD_setD_ne _ _ _ _ _ hj]
          exact h2 j
      · intro j
        show labA (setSpecAt st i _).specs j = _
        rw [hsp]
        by_cases hj : j = i
        · subst hj
          by_cases hlt : j < st.specs.size
          · unfold labA
            rw [Array_getD_setD_same _ _ _ _ hlt, hskel.2.2, hspec]
            exact h3 j
          · rw [show st.specs.setD j (defaultedSpec v (specAt st j)) =
              st.specs from Array_setD_oob _ _ _ (by omega)]
            exact h3 j
        · unfold labA
          rw [Array_getD_setD_ne _ _ _ _ _ hj]
          exact h3 j
      · intro j
        show tgtA (setSpecAt st i _).specs j = _
        rw [hsp]
        by_cases hj : j = i
        · subst hj
          by_cases hlt : j < st.specs.size
          · unfold tgtA
            rw [Array_getD_setD_same _ _ _ _ hlt, hskel.1, hspec]
            exact h4 j
          · rw [show st.specs.setD j (defaultedSpec v (specAt st j)) =
              st.specs from Array_setD_oob _ _ _ (by omega)]
            exact h4 j
        · unfold tgtA
          rw [Array_getD_setD_ne _ _ _ _ _ hj]
          exact h4 j
      · show (setSpecAt st i _).fe.arg_index = _
        rw [hfe]
        exact h5
      · show (setSpecAt st i _).fe.next_this_index = _
        rw [hfe]
        exact h6
      · show (setSpecAt st i _).fe.target = _
        rw [hfe]
        exact h7
  · have hw : (chainStep noExc v st i).1.wlog =
        (setSpecAt st i (defaultedSpec v (specAt st i))).wlog ++
          [(defaultedSpec v (specAt st i)).target] := rfl
    rw [hw, setSpecAt_wlog, htg]

/-- The chain loop, started at an ordinary slot, visits exactly the
skeleton's chain and logs the target of every visited slot, in order. -/
theorem chain_loop_wlog (v : Value) (sp0 : Array format_spec)
    (fe0 : format_spec) (hm : Mono sp0) (hszE : sp0.size < i_errno) :
    ∀ (fuel : Nat) (st : FmtState) (i : Nat), SkelEq st sp0 fe0 →
      i ≠ i_errno →
      SkelEq (chain_loop noExc v fuel st i) sp0 fe0 ∧
      (chain_loop noExc v fuel st i).wlog =
        st.wlog ++ (chainList sp0 fuel i).map (fun j => tgtA sp0 j) := by
  intro fuel
  induction fuel with
  | zero =>
    intro st i h hi
    refine ⟨h, ?_⟩
    rw [chainList_zero]
    exact (List.append_nil _).symm
  | succ f ih =>
    intro st i h hi
    obtain ⟨hskel, hwlog, hnext⟩ := chainStep_skel v sp0 fe0 st i h
    rw [if_neg hi] at hwlog hnext
    rw [chain_loop_succ]
    by_cases hnx : (chainStep noExc v st i).2 = i_invalid
    · rw [if_pos hnx]
      have hptr : nxtA sp0 i = i_invalid := by
        rw [← hnext]
        exact hnx
      rw [chainList_succ, if_pos hptr]
      exact ⟨hskel, by rw [hwlog]; rfl⟩
    · rw [if_neg hnx]
      have hptr : nxtA sp0 i ≠ i_invalid := by
        rw [← hnext]
        exact hnx
      obtain ⟨hlt1, hlt2⟩ : i < nxtA sp0 i ∧ nxtA sp0 i < sp0.size := by
        rcases hm i with hc | hc
        · exact absurd hc hptr
        · exact hc
      have hi2 : nxtA sp0 i ≠ i_errno := by omega
      obtain ⟨hskel2, hwlog2⟩ := ih (chainStep noExc v st i).1
        (chainStep noExc v st i).2 hskel (by rw [hnext]; exact hi2)
      refine ⟨hskel2, ?_⟩
      rw [hwlog2, hwlog, hnext, chainList_succ, if_neg hptr,
          List.map_cons, List.append_assoc]
      rfl

/-- Rendering one argument logs exactly the targets of its class's chain
(nothing, if the argument is unused). -/
theorem format_sub_wlog (v : Value) (sp0 : Array format_spec)
    (fe0 : format_spec) (hm : Mono sp0) (hszE : sp0.size < i_errno)
    (st : FmtState) (i : Nat) (h : SkelEq st sp0 fe0)
    (hi : i < sp0.size) :
    SkelEq (format_sub noExc st i v) sp0 fe0 ∧
    (format_sub noExc st i v).wlog = st.wlog ++
      (if labA sp0 i = i_invalid then [] else
        (chainList sp0 (sp0.size + 1) i).map (fun j => tgtA sp0 j)) := by
  have hierr : i ≠ i_errno := by omega
  have hsize : st.specs.size = sp0.size := h.1
  unfold format_sub
  dsimp only
  rw [if_neg (by rintro ⟨hh, -⟩; omega)]
  have hspec : (specAt st i).arg_index = labA sp0 i := by
    unfold specAt
    rw [if_neg hierr]
    rw [show (st.specs.getD i fs0).arg_index = labA st.specs i from rfl]
    exact h.2.2.1 i
  by_cases hlab : labA sp0 i = i_invalid
  · rw [if_pos (by rw [hspec]; exact hlab), if_pos hlab]
    exact ⟨h, (List.append_nil _).symm⟩
  · rw [if_neg (by rw [hspec]; exact hlab), if_neg hlab, hsize]
    exact chain_loop_wlog v sp0 fe0 hm hszE (sp0.size + 1) st i h hierr

/-- The targets the errno pass writes: none when no placeholder requested
`errno`, otherwise `first_errno_spec`'s own target followed by its
chain's. -/
def errnoTgts (sp0 : Array format_spec) (fe0 : format_spec) : List Nat :=
  if fe0.target = i_invalid then [] else
  if fe0.arg_index = i_invalid then [] else
    fe0.target :: (if fe0.next_this_index = i_invalid then []
      else (chainList sp0 sp0.size fe0.next_this_index).map
        (fun j => tgtA sp0 j))

/-- The errno render step logs exactly `errnoTgts`. -/
theorem renderErrno_wlog (sp0 : Array format_spec) (fe0 : format_spec)
    (hm : Mono sp0) (hszE : sp0.size < i_errno) (emsg : String)
    (st : FmtState) (h : SkelEq st sp0 fe0)
    (hfn : fe0.next_this_index = i_invalid ∨
      fe0.next_this_index < sp0.size) :
    SkelEq (renderErrno noExc emsg st) sp0 fe0 ∧
    (renderErrno noExc emsg st).wlog =
      st.wlog ++ errnoTgts sp0 fe0 := by
  unfold renderErrno
  have hft : st.fe.target = fe0.target := h.2.2.2.2.2.2
  by_cases htg : fe0.target = i_invalid
  · rw [if_neg (by rw [hft, htg]; exact fun hc => hc rfl)]
    refine ⟨h, ?_⟩
    unfold errnoTgts
    rw [if_pos htg]
    exact (List.append_nil _).symm
  · rw [if_pos (by rw [hft]; exact htg)]
    unfold format_sub
    dsimp only
    rw [if_neg (by rintro ⟨-, hh⟩; exact hh ⟨rfl, rfl⟩)]
    have hspec : specAt st i_errno = st.fe := by
      unfold specAt
      rw [if_pos rfl]
    by_cases harg : fe0.arg_index = i_invalid
    · rw [if_pos (by rw [hspec, h.2.2.2.2.1]; exact harg)]
      refine ⟨h, ?_⟩
      unfold errnoTgts
      rw [if_neg htg, if_pos harg]
      exact (List.append_nil _).symm
    · rw [if_neg (by rw [hspec, h.2.2.2.2.1]; exact harg)]
      -- one chain iteration at the errno sentinel, then the ordinary walk
      have hsize : st.specs.size = sp0.size := h.1
      rw [hsize]
      obtain ⟨hskel, hwlog, hnext⟩ := chainStep_skel (.cstr emsg) sp0 fe0
        st i_errno h
      rw [if_pos rfl] at hwlog hnext
      rw [chain_loop_succ]
      by_cases hnx : (chainStep noExc (.cstr emsg) st i_errno).2 =
          i_invalid
      · rw [if_pos hnx]
        refine ⟨hskel, ?_⟩
        rw [hwlog]
        unfold errnoTgts
        rw [if_neg htg, if_neg harg,
            if_pos (by rw [← hnext]; exact hnx)]
      · rw [if_neg hnx]
        have hfn2 : fe0.next_this_index ≠ i_invalid := by
          rw [← hnext]
          exact hnx
        have hfn3 : fe0.next_this_index < sp0.size := by
          rcases hfn with hc | hc
          · exact absurd hc hfn2
          · exact hc
        have hfnerr : fe0.next_this_index ≠ i_errno := by omega
        obtain ⟨hskel2, hwlog2⟩ := chain_loop_wlog (.cstr emsg) sp0 fe0
          hm hszE sp0.size (chainStep noExc (.cstr emsg) st i_errno).1
          (chainStep noExc (.cstr emsg) st i_errno).2 hskel
          (by rw [hnext]; exact hfnerr)
        refine ⟨hskel2, ?_⟩
        rw [hwlog2, hwlog, hnext, List.append_assoc]
        unfold errnoTgts
        rw [if_neg htg, if_neg harg, if_neg hfn2]
        rfl

/-- Rendering a sequence of indexed arguments logs the concatenation of
their classes' chains' targets. -/
theorem foldl_format_sub_wlog (sp0 : Array format_spec)
    (fe0 : format_spec) (hm : Mono sp0) (hszE : sp0.size < i_errno) :
    ∀ (l : List (Nat × Value)) (st : FmtState), SkelEq st sp0 fe0 →
      (∀ p ∈ l, p.1 < sp0.size) →
      SkelEq (l.foldl (fun s iv => format_sub noExc s iv.1 iv.2) st)
        sp0 fe0 ∧
      (l.foldl (fun s iv => format_sub noExc s iv.1 iv.2) st).wlog =
        st.wlog ++ (l.map (fun p =>
          if labA sp0 p.1 = i_invalid then [] else
            (chainList sp0 (sp0.size + 1) p.1).map
              (fun j => tgtA sp0 j))).flatten := by
  intro l
  induction l with
  | nil =>
    intro st h hb
    exact ⟨h, (List.append_nil _).symm⟩
  | cons a rest ih =>
    intro st h hb
    rw [List.foldl_cons]
    obtain ⟨h1, h2⟩ := format_sub_wlog a.2 sp0 fe0 hm hszE st a.1 h
      (hb a (List.mem_cons_self _ _))
    obtain ⟨h3, h4⟩ := ih _ h1
      (fun p hp => hb p (List.mem_cons_of_mem _ hp))
    refine ⟨h3, ?_⟩
    rw [h4, h2, List.map_cons, List.flatten_cons, ← List.append_assoc]

/-- The complete list of segment slots one exception-free render pass
writes: the errno chain's targets, then, argument by argument, the
targets of each argument's chain. -/
def passTargets (sp0 : Array format_spec) (fe0 : format_spec)
    (n : Nat) : List Nat :=
  errnoTgts sp0 fe0 ++
  ((List.range n).map (fun i =>
    if labA sp0 i = i_invalid then [] else
      (chainList sp0 (sp0.size + 1) i).map
        (fun j => tgtA sp0 j))).flatten

/-- The write log of a full exception-free run is exactly
`passTargets`. -/
theorem runState_wlog (t : List Char) (args : List Value) (emsg : String)
    (hm : Mono (parse_format_string args.length t).specs)
    (hszE : (parse_format_string args.length t).specs.size < i_errno)
    (hargs : args.length ≤ (parse_format_string args.length t).specs.size)
    (hfn : (parse_format_string args.length t).fe.next_this_index =
        i_invalid ∨
      (parse_format_string args.length t).fe.next_this_index <
        (parse_format_string args.length t).specs.size) :
    (runState noExc t args emsg).wlog =
      passTargets (parse_format_string args.length t).specs
        (parse_format_string args.length t).fe args.length := by
  unfold runState renderArgs
  have hskel0 : SkelEq (parse_format_string args.length t)
      (parse_format_string args.length t).specs
      (parse_format_string args.length t).fe :=
    ⟨rfl, fun _ => rfl, fun _ => rfl, fun _ => rfl, rfl, rfl, rfl⟩
  obtain ⟨h1, h2⟩ := renderErrno_wlog _ _ hm hszE emsg _ hskel0 hfn
  obtain ⟨h3, h4⟩ := foldl_format_sub_wlog _ _ hm hszE args.enum _ h1
    (by
      intro p hp
      obtain ⟨i, x⟩ := p
      have := (List.mem_enum hp).1
      omega)
  rw [h4, h2]
  have hw0 : (parse_format_string args.length t).wlog = [] := rfl
  rw [hw0, List.nil_append]
  unfold passTargets
  have hmap : args.enum.map (fun p =>
      if labA (parse_format_string args.length t).specs p.1 = i_invalid
      then [] else
        (chainList (parse_format_string args.length t).specs
          ((parse_format_string args.length t).specs.size + 1) p.1).map
          (fun j => tgtA (parse_format_string args.length t).specs j)) =
      (List.range args.length).map (fun i =>
        if labA (parse_format_string args.length t).specs i = i_invalid
        then [] else
          (chainList (parse_format_string args.length t).specs
            ((parse_format_string args.length t).specs.size + 1) i).map
            (fun j => tgtA (parse_format_string args.length t).specs j))
      := by
    rw [← List.enum_map_fst args, List.map_map]
    rfl
  rw [hmap]

/-- Everything on a chain rooted inside the array is inside the array and
carries the root's label. -/
theorem chain_facts (nargs nsegs : Nat) (sp0 : Array format_spec)
    (fe0 : format_spec) (h : FoldInv nargs nsegs sp0 fe0 [])
    (f r : Nat) (hr : r < sp0.size) :
    ∀ x ∈ chainList sp0 f r, x < sp0.size ∧ labA sp0 x = labA sp0 r := by
  intro x hx
  obtain ⟨h1, h2⟩ := chainList_mem_ge sp0 h.mono f r x hx
  refine ⟨?_, chainList_label sp0 h.mono h.link f r x hx⟩
  rcases h2 with hc | hc
  · rw [hc]
    exact hr
  · exact hc

/-- The targets along one chain are pairwise distinct. -/
theorem chainMap_nodup (nargs nsegs : Nat) (sp0 : Array format_spec)
    (fe0 : format_spec) (h : FoldInv nargs nsegs sp0 fe0 [])
    (f r : Nat) (hr : r < sp0.size) (hlab : labA sp0 r ≠ i_invalid) :
    ((chainList sp0 f r).map (fun j => tgtA sp0 j)).Nodup := by
  refine List.Nodup.map_on ?_ (chainList_nodup sp0 h.mono f r)
  intro x hx y hy hxy
  by_contra hne
  obtain ⟨hx1, hx2⟩ := chain_facts nargs nsegs sp0 fe0 h f r hr x hx
  obtain ⟨hy1, hy2⟩ := chain_facts nargs nsegs sp0 fe0 h f r hr y hy
  exact h.inj x y hx1 hy1 (by rw [hx2]; exact hlab)
    (by rw [hy2]; exact hlab) hne hxy

/-- Chains of distinct classes write disjoint target sets. -/
theorem chainMap_disjoint (nargs nsegs : Nat) (sp0 : Array format_spec)
    (fe0 : format_spec) (h : FoldInv nargs nsegs sp0 fe0 [])
    (f1 f2 r1 r2 : Nat) (hr1 : r1 < sp0.size) (hr2 : r2 < sp0.size)
    (hl1 : labA sp0 r1 ≠ i_invalid) (hl2 : labA sp0 r2 ≠ i_invalid)
    (hne : labA sp0 r1 ≠ labA sp0 r2) :
    List.Disjoint ((chainList sp0 f1 r1).map (fun j => tgtA sp0 j))
      ((chainList sp0 f2 r2).map (fun j => tgtA sp0 j)) := by
  intro a ha1 ha2
  obtain ⟨x, hx, hxa⟩ := List.mem_map.mp ha1
  obtain ⟨y, hy, hya⟩ := List.mem_map.mp ha2
  obtain ⟨hx1, hx2⟩ := chain_facts nargs nsegs sp0 fe0 h f1 r1 hr1 x hx
  obtain ⟨hy1, hy2⟩ := chain_facts nargs nsegs sp0 fe0 h f2 r2 hr2 y hy
  have hxy : x ≠ y := by
    intro he
    rw [he, hy2] at hx2
    exact hne hx2.symm
  exact h.inj x y hx1 hy1 (by rw [hx2]; exact hl1)
    (by rw [hy2]; exact hl2) hxy (by rw [hxa, hya])

/-- An exception-free render pass never writes the same segment twice. -/
theorem passTargets_nodup (nargs nsegs : Nat) (sp0 : Array format_spec)
    (fe0 : format_spec) (h : FoldInv nargs nsegs sp0 fe0 []) :
    (passTargets sp0 fe0 nargs).Nodup := by
  have hlab_own : ∀ i, i < nargs → labA sp0 i ≠ i_invalid →
      labA sp0 i = i := by
    intro i hi hl
    rcases h.own i hi with hc | hc
    · exact hc
    · exact absurd hc hl
  have hErr : fe0.next_this_index ≠ i_invalid →
      fe0.next_this_index < sp0.size ∧
      labA sp0 fe0.next_this_index = i_errno ∧
      fe0.arg_index = i_errno := by
    intro hfn
    rcases h.feN with hc | hc
    · exact absurd hc hfn
    · exact hc
  have herrne : i_errno ≠ i_invalid := by
    have := i_errno_lt_invalid
    omega
  unfold passTargets
  rw [List.nodup_append]
  refine ⟨?_, ?_, ?_⟩
  · -- the errno part
    unfold errnoTgts
    by_cases h1 : fe0.target = i_invalid
    · rw [if_pos h1]
      exact List.nodup_nil
    · rw [if_neg h1]
      by_cases h2 : fe0.arg_index = i_invalid
      · rw [if_pos h2]
        exact List.nodup_nil
      · rw [if_neg h2]
        have hfea : fe0.arg_index = i_errno := by
          rcases h.fearg with hc | hc
          · exact hc
          · rw [hc] at h2
            exact absurd rfl h2
        refine List.nodup_cons.mpr ⟨?_, ?_⟩
        · by_cases hfn : fe0.next_this_index = i_invalid
          · rw [if_pos hfn]
            exact List.not_mem_nil _
          · rw [if_neg hfn]
            obtain ⟨hc1, hc2, _⟩ := hErr hfn
            intro hmem
            obtain ⟨x, hx, hxa⟩ := List.mem_map.mp hmem
            obtain ⟨hx1, hx2⟩ := chain_facts nargs nsegs sp0 fe0 h _ _
              hc1 x hx
            exact h.finj hfea x hx1
              (by rw [hx2, hc2]; exact herrne) hxa.symm
        · by_cases hfn : fe0.next_this_index = i_invalid
          · rw [if_pos hfn]
            exact List.nodup_nil
          · rw [if_neg hfn]
            obtain ⟨hc1, hc2, _⟩ := hErr hfn
            exact chainMap_nodup nargs nsegs sp0 fe0 h _ _ hc1
              (by rw [hc2]; exact herrne)
  · -- the per-argument part
    rw [List.nodup_flatten]
    refine ⟨?_, ?_⟩
    · intro l hl
      obtain ⟨i, hi, hil⟩ := List.mem_map.mp hl
      rw [← hil]
      by_cases hlab : labA sp0 i = i_invalid
      · rw [if_pos hlab]
        exact List.nodup_nil
      · rw [if_neg hlab]
        have hi2 : i < nargs := List.mem_range.mp hi
        exact chainMap_nodup nargs nsegs sp0 fe0 h _ _
          (by have := h.lo; omega) hlab
    · rw [List.pairwise_map]
      refine List.Pairwise.imp_of_mem ?_ (List.pairwise_lt_range nargs)
      intro i i2 hmi hmi2 hii
      have hi : i < nargs := List.mem_range.mp hmi
      have hi2b : i2 < nargs := List.mem_range.mp hmi2
      by_cases hl1 : labA sp0 i = i_invalid
      · rw [if_pos hl1]
        exact List.disjoint_nil_left _
      · by_cases hl2 : labA sp0 i2 = i_invalid
        · rw [if_pos hl2]
          exact List.disjoint_nil_right _
        · rw [if_neg hl1, if_neg hl2]
          refine chainMap_disjoint nargs nsegs sp0 fe0 h _ _ i i2
            (by have := h.lo; omega) (by have := h.lo; omega) hl1 hl2 ?_
          rw [hlab_own i hi hl1, hlab_own i2 hi2b hl2]
          omega
  · -- the errno part is disjoint from the per-argument part
    intro a ha hb
    obtain ⟨l, hl, hal⟩ := List.mem_flatten.mp hb
    obtain ⟨i, hi, hil⟩ := List.mem_map.mp hl
    have hi2 : i < nargs := List.mem_range.mp hi
    rw [← hil] at hal
    by_cases hlab : labA sp0 i = i_invalid
    · rw [if_pos hlab] at hal
      cases hal
    · rw [if_neg hlab] at hal
      obtain ⟨y, hy, hya⟩ := List.mem_map.mp hal
      obtain ⟨hy1, hy2⟩ := chain_facts nargs nsegs sp0 fe0 h _ _
        (by have := h.lo; omega) y hy
      rw [hlab_own i hi2 hlab] at hy2
      unfold errnoTgts at ha
      by_cases h1 : fe0.target = i_invalid
      · rw [if_pos h1] at ha
        cases ha
      · rw [if_neg h1] at ha
        by_cases h2 : fe0.arg_index = i_invalid
        · rw [if_pos h2] at ha
          cases ha
        · rw [if_neg h2] at ha
          have hfea : fe0.arg_index = i_errno := by
            rcases h.fearg with hc | hc
            · exact hc
            · rw [hc] at h2
              exact absurd rfl h2
          rcases List.mem_cons.mp ha with hc | hc
          · exact h.finj hfea y hy1
              (by rw [hy2]; have := h.lo; have := h.hi; have := i_errno_lt_invalid; omega)
              (by rw [← hc, hya])
          · by_cases hfn : fe0.next_this_index = i_invalid
            · rw [if_pos hfn] at hc
              cases hc
            · rw [if_neg hfn] at hc
              obtain ⟨hd1, hd2, _⟩ := hErr hfn
              obtain ⟨x, hx, hxa⟩ := List.mem_map.mp hc
              obtain ⟨hx1, hx2⟩ := chain_facts nargs nsegs sp0 fe0 h _ _
                hd1 x hx
              have hxy : x ≠ y := by
                intro he
                rw [he, hy2] at hx2
                rw [hd2] at hx2
                have := h.lo
                have hhi := h.hi
                omega
              exact h.inj x y hx1 hy1
                (by rw [hx2, hd2]; exact herrne)
                (by rw [hy2]; have := h.lo; have := h.hi; have := i_errno_lt_invalid; omega)
                hxy (by rw [hxa, hya])

/-- An exception-free render pass writes every owned segment slot: each
labelled spec's target, and the errno spec's target when present. -/
theorem passTargets_cover (nargs nsegs : Nat) (sp0 : Array format_spec)
    (fe0 : format_spec) (h : FoldInv nargs nsegs sp0 fe0 []) :
    (∀ j, j < sp0.size → labA sp0 j ≠ i_invalid →
      tgtA sp0 j ∈ passTargets sp0 fe0 nargs) ∧
    (fe0.arg_index = i_errno →
      fe0.target ∈ passTargets sp0 fe0 nargs) := by
  have herrne : i_errno ≠ i_invalid := by
    have := i_errno_lt_invalid
    omega
  have hftne : fe0.arg_index = i_errno → fe0.target ≠ i_invalid := by
    intro hfa
    have := h.ftlt hfa
    have := h.nhi
    have := i_errno_lt_invalid
    omega
  constructor
  · intro j hj hl
    by_cases herr : labA sp0 j = i_errno
    · obtain ⟨hfn, hmem⟩ := h.covE j hj herr
      have hfea : fe0.arg_index = i_errno := by
        rcases h.feN with hc | ⟨_, _, hc3⟩
        · exact absurd hc hfn
        · exact hc3
      unfold passTargets
      refine List.mem_append.mpr (Or.inl ?_)
      unfold errnoTgts
      rw [if_neg (hftne hfea), if_neg (by rw [hfea]; exact herrne),
          if_neg hfn]
      refine List.mem_cons.mpr (Or.inr ?_)
      exact List.mem_map.mpr ⟨j, hmem, rfl⟩
    · obtain ⟨hlt, hocc⟩ : labA sp0 j < nargs ∧
          labA sp0 (labA sp0 j) = labA sp0 j := by
        rcases h.cls j hj with hc | hc | hc
        · exact absurd hc hl
        · exact absurd hc herr
        · exact hc
      have hmem := h.cov j hj hl herr
      unfold passTargets
      refine List.mem_append.mpr (Or.inr ?_)
      rw [List.mem_flatten]
      refine ⟨(chainList sp0 (sp0.size + 1) (labA sp0 j)).map
        (fun x => tgtA sp0 x), ?_, ?_⟩
      · refine List.mem_map.mpr ⟨labA sp0 j, List.mem_range.mpr hlt, ?_⟩
        rw [if_neg (by rw [hocc]; exact hl)]
      · have hroot_lt : labA sp0 j < sp0.size := by
          have := h.lo
          omega
        have heq : chainList sp0 (sp0.size + 1) (labA sp0 j) =
            chainList sp0 sp0.size (labA sp0 j) :=
          chainList_fuel_irrel sp0 h.mono _ _ _ hroot_lt (by omega)
            (by omega)
        rw [heq]
        exact List.mem_map.mpr ⟨j, hmem, rfl⟩
  · intro hfa
    unfold passTargets
    refine List.mem_append.mpr (Or.inl ?_)
    unfold errnoTgts
    rw [if_neg (hftne hfa), if_neg (by rw [hfa]; exact herrne)]
    exact List.mem_cons_self _ _

/-- C7: after scanning any template, the `next_this_index` chains only
point forward inside the spec array (so they are acyclic) and walking any
of them reaches a slot holding the invalid sentinel; every spec with a
valid `arg_index` owns its own target segment slot (targets of distinct
labelled slots are pairwise distinct, and the errno spec's target is
distinct from all of them); in an exception-free render pass every owned
slot is written exactly once (the write log has no duplicates, and it
contains the target of every labelled slot and of the errno spec); and
one rendering call fans out to every chained slot — in particular
`format("{0}{0}", 7)` renders `"77"`. -/
theorem C7_chain_invariants_and_single_write (t : List Char)
    (args : List Value) (emsg : String)
    (hb : args.length + t.length + 1 < i_errno) :
    (∀ j, nxtA (parse_format_string args.length t).specs j = i_invalid ∨
      (j < nxtA (parse_format_string args.length t).specs j ∧
       nxtA (parse_format_string args.length t).specs j <
         (parse_format_string args.length t).specs.size)) ∧
    (∀ j, j < (parse_format_string args.length t).specs.size →
      nxtA (parse_format_string args.length t).specs
        (walkEnd (parse_format_string args.length t).specs
          (parse_format_string args.length t).specs.size j) =
        i_invalid) ∧
    (∀ j k, j < (parse_format_string args.length t).specs.size →
      k < (parse_format_string args.length t).specs.size →
      labA (parse_format_string args.length t).specs j ≠ i_invalid →
      labA (parse_format_string args.length t).specs k ≠ i_invalid →
      j ≠ k →
      tgtA (parse_format_string args.length t).specs j ≠
        tgtA (parse_format_string args.length t).specs k) ∧
    ((parse_format_string args.length t).fe.arg_index = i_errno →
      ∀ j, j < (parse_format_string args.length t).specs.size →
      labA (parse_format_string args.length t).specs j ≠ i_invalid →
      (parse_format_string args.length t).fe.target ≠
        tgtA (parse_format_string args.length t).specs j) ∧
    (runState noExc t args emsg).wlog.Nodup ∧
    (∀ j, j < (parse_format_string args.length t).specs.size →
      labA (parse_format_string args.length t).specs j ≠ i_invalid →
      tgtA (parse_format_string args.length t).specs j ∈
        (runState noExc t args emsg).wlog) ∧
    ((parse_format_string args.length t).fe.arg_index = i_errno →
      (parse_format_string args.length t).fe.target ∈
        (runState noExc t args emsg).wlog) ∧
    formatString "\x7b0\x7d\x7b0\x7d" [Value.ll 7] = "77" := by
  have h := parse_foldinv args.length t hb
  have hhi := h.hi
  rw [List.length_nil] at hhi
  have hszE : (parse_format_string args.length t).specs.size < i_errno :=
    by omega
  have hfn : (parse_format_string args.length t).fe.next_this_index =
      i_invalid ∨
      (parse_format_string args.length t).fe.next_this_index <
        (parse_format_string args.length t).specs.size := by
    rcases h.feN with hc | ⟨hc1, _, _⟩
    · exact Or.inl hc
    · exact Or.inr hc1
  have hwlog := runState_wlog t args emsg h.mono hszE h.lo hfn
  refine ⟨h.mono, ?_, h.inj, h.finj, ?_, ?_, ?_, by decide⟩
  · intro j hj
    exact (walkEnd_spec _ h.mono _ j hj (by omega)).1
  · rw [hwlog]
    exact passTargets_nodup args.length _ _ _ h
  · intro j hj hl
    rw [hwlog]
    exact (passTargets_cover args.length _ _ _ h).1 j hj hl
  · intro hfa
    rw [hwlog]
    exact (passTargets_cover args.length _ _ _ h).2 hfa

/-- Witness for C7: the claim's own scenario `format("{0}{0}", 7)`. -/
theorem C7_chain_invariants_and_single_write_witness :
    ([Value.ll 7].length + "\x7b0\x7d\x7b0\x7d".data.length + 1 <
      i_errno) ∧
    formatString "\x7b0\x7d\x7b0\x7d" [Value.ll 7] = "77" :=
  ⟨by decide,
   (C7_chain_invariants_and_single_write "\x7b0\x7d\x7b0\x7d".data
      [Value.ll 7] "" (by decide)).2.2.2.2.2.2.2⟩

end Cxxfmt
